import Mathlib

/-!
The graph construction pipeline of repobuild, `repobuild/reader/parser.cc`.

A shallow embedding of `Graph` and `Parser` (parser.cc) with explicit state
passing.  The collaborators that parser.cc only uses (TargetInfo, BuildFile,
Node and its kinds, the JSON value, the path library, the file reader) are
either modelled from the specification or taken as fields of `World`.

The string assembly of `CmakeNode::Parse` (nodes/cmake.cc) and of
`CCBinaryNode::WriteLink` (nodes/cc_binary.cc) is embedded as well.

Fatal log statements and failed CHECKs end the process; here they are the
`Except.error` results.  Loops and recursions that the source does not bound
take a fuel argument; running out of fuel is the separate error `Err.fuel`.
-/

namespace repobuild

/-! ## Ordered containers -/

/-- Lexicographic comparison of code point lists: the order of `std::string`. -/
def lexLe : List Nat → List Nat → Bool
  | [], _ => true
  | _ :: _, [] => false
  | a :: as, b :: bs => if a < b then true else if b < a then false else lexLe as bs

/-- The code points of a string. -/
def codes (s : String) : List Nat := s.data.map Char.toNat

/-- The order `std::map<string, _>` and `std::set<string>` iterate in. -/
def strLe (a b : String) : Prop := lexLe (codes a) (codes b) = true

instance strLe_decidable : DecidableRel strLe := fun a b =>
  inferInstanceAs (Decidable (lexLe (codes a) (codes b) = true))

/-- A `std::set<string>`: the elements, each once, in the order they were inserted. -/
abbrev SSet := List String

/-- The result of `set::insert`: the set afterwards (`.second` is `x ∉ s`). -/
def SSet.insert (s : SSet) (x : String) : SSet := if x ∈ s then s else s ++ [x]

/-- Iteration over a `std::set<string>` visits the elements in ascending order. -/
def SSet.iter (s : SSet) : List String := s.insertionSort strLe

/-- A `std::map<string, β>`: the entries, one per key, in the order the keys were inserted. -/
abbrev SMap (β : Type) := List (String × β)

namespace SMap

variable {β : Type}

/-- The value stored under a key (`find`), if any. -/
def find? : SMap β → String → Option β
  | [], _ => none
  | (k, v) :: m, x => if k = x then some v else find? m x

/-- Whether a key is present (`ContainsKey`). -/
def contains (m : SMap β) (x : String) : Bool := (m.find? x).isSome

/-- The assignment `m[x] = v`: replaces the value of an existing key, adds a new key otherwise. -/
def set : SMap β → String → β → SMap β
  | [], x, v => [(x, v)]
  | (k, w) :: m, x, v => if k = x then (k, v) :: m else (k, w) :: set m x v

/-- The keys, in insertion order. -/
def keys (m : SMap β) : List String := m.map Prod.fst

/-- Iteration (`for (auto it : m)`) visits the entries in ascending key order. -/
def iter (m : SMap β) : List (String × β) := m.insertionSort (fun a b => strLe a.1 b.1)

end SMap

/-! ## Targets, attribute trees, build files, nodes -/

/-- Modelled from the spec: TargetInfo is declared outside src/.  Section 4.1: `full_path` is the
canonical form and equality uses `full_path`, so a target is represented by its canonical
`full_path`; constructing a TargetInfo from a canonical `full_path` gives that target. -/
structure TargetInfo where
  full_path : String
deriving DecidableEq, Repr

/-- Modelled from the spec: the attribute tree (the JSON value of the source, declared outside
src/): null, boolean, number, string, ordered array, or object with keys in order. -/
inductive Json where
  | null : Json
  | bool : Bool → Json
  | num : Int → Json
  | str : String → Json
  | arr : List Json → Json
  | obj : List (String × Json) → Json

namespace Json

/-- The test `isObject`. -/
def isObject : Json → Bool
  | obj _ => true
  | _ => false

/-- The test `isNull`. -/
def isNull : Json → Bool
  | null => true
  | _ => false

/-- The test `isString`. -/
def isString : Json → Bool
  | str _ => true
  | _ => false

/-- The string of a string value (`asString`). -/
def asString : Json → String
  | str s => s
  | _ => ""

/-- The member names of an object (`getMemberNames`), in the object's key order. -/
def getMemberNames : Json → List String
  | obj kvs => kvs.map Prod.fst
  | _ => []

/-- Member lookup `value[key]`: null when the member is absent. -/
def get : Json → String → Json
  | obj kvs, key => ((SMap.find? kvs key).getD null)
  | _, _ => null

end Json

/-- Modelled from the spec: BuildFile is declared outside src/.  Section 3: the file name, the
inherited key/value environment, the base dependencies and the counter of synthesised names.
The attribute objects of the file are read only by `AddFile`, which threads them as a list. -/
structure BuildFile where
  filename : String
  inherited_env : SMap String
  base_dependencies : SSet
  next_auto_id : Nat

namespace BuildFile

/-- The constructor `BuildFile(filename)`. -/
def create (filename : String) : BuildFile :=
  { filename := filename, inherited_env := [], base_dependencies := [], next_auto_id := 0 }

/-- Modelled from the spec: `next_name(pre)` returns the prefix followed by `next_auto_id`,
which is incremented afterwards. -/
def NextName (f : BuildFile) (pre : String) : String × BuildFile :=
  (pre ++ toString f.next_auto_id, { f with next_auto_id := f.next_auto_id + 1 })

/-- Copies every entry of `other` whose key is not present in `env`. -/
def mergeEnv : SMap String → SMap String → SMap String
  | env, [] => env
  | env, (k, v) :: other =>
    mergeEnv (if SMap.contains env k then env else SMap.set env k v) other

/-- Modelled from the spec: `merge_parent(parent)`: for every key in `parent.inherited_env` not
present locally, copy it; copy `parent.base_dependencies` into self. -/
def MergeParent (f parent : BuildFile) : BuildFile :=
  { f with
    inherited_env := mergeEnv f.inherited_env parent.inherited_env
    base_dependencies := parent.base_dependencies.foldl SSet.insert f.base_dependencies }

/-- Modelled from the spec: `merge_dependency(other)`: union `other.inherited_env` into self,
existing keys win. -/
def MergeDependency (f other : BuildFile) : BuildFile :=
  { f with inherited_env := mergeEnv f.inherited_env other.inherited_env }

/-- Modelled from the spec: `get_key(k)`: the value registered under `k`, the empty string when
there is none. -/
def GetKey (f : BuildFile) (k : String) : String := (f.inherited_env.find? k).getD ""

end BuildFile

/-- A pointer to a node owned by the graph: the key of the node map under which it is stored. -/
abbrev NodePtr := String

/-- The state of a Node that parser.cc reads or writes (node.h is outside src/): its target, the
keyword that introduced it, its dependency targets, required parents, pre-parse targets, and
the resolved dependencies. -/
structure Node where
  target : TargetInfo
  kind : String
  dep_targets : List TargetInfo
  required_parents : List TargetInfo
  pre_parse : List TargetInfo
  dependency_nodes : List NodePtr

namespace Node

/-- Modelled from the spec: `dep_targets` is an ordered set, so `AddDependencyTarget` appends a
target that is not yet present and keeps the list otherwise. -/
def AddDependencyTarget (n : Node) (t : TargetInfo) : Node :=
  if t ∈ n.dep_targets then n else { n with dep_targets := n.dep_targets ++ [t] }

/-- Modelled from the spec: `AddDependencyNode` appends to the list `dependency_nodes`. -/
def AddDependencyNode (n : Node) (p : NodePtr) : Node :=
  { n with dependency_nodes := n.dependency_nodes ++ [p] }

end Node

/-- What the `Parse` of a node kind determines of a node: the three target lists. -/
structure NodeAttrs where
  dep_targets : List TargetInfo
  required_parents : List TargetInfo
  pre_parse : List TargetInfo

/-- A subnode spawned by a node's `Parse`, as `ExtractSubnodes` hands it over. -/
structure SubNode where
  target : TargetInfo
  kind : String
  attrs : NodeAttrs

/-- The outcome of constructing a node and running its `Parse` and `ExtractSubnodes`: its own
attributes, its recursively owned subnodes in extraction order, and the build file afterwards. -/
structure ParseOut where
  attrs : NodeAttrs
  subnodes : List SubNode
  file : BuildFile

/-- A freshly constructed and parsed node: no dependency is resolved yet. -/
def Node.ofAttrs (target : TargetInfo) (kind : String) (a : NodeAttrs) : Node :=
  { target := target, kind := kind, dep_targets := a.dep_targets,
    required_parents := a.required_parents, pre_parse := a.pre_parse, dependency_nodes := [] }

/-- The `Input` of a parse: the user targets and the root directory.  Modelled from the spec:
`contains_target(full_path)` is membership of the full path among the user targets. -/
structure Input where
  build_targets : List TargetInfo
  root_dir : String

/-- The predicate `Input::contains_target`. -/
def Input.contains_target (inp : Input) (p : String) : Bool :=
  inp.build_targets.any (fun t => t.full_path = p)

/-- The collaborators of the graph builder that live outside src/: the target constructors, the
path library, the file reader with the text parser, the builder set with the kinds' `Parse`,
the plugins' `ExpandBuildFileNode`, and the `PostParse` hook (a validation, section 4.3). -/
structure World where
  build_file : TargetInfo → String
  mkTarget : String → String → TargetInfo
  PathDirname : String → String
  JoinPath : String → String → String
  readBuildFile : String → Option (List Json)
  NewNode : String → Bool
  nodeParse : String → TargetInfo → BuildFile → Json → Option ParseOut
  ExpandBuildFileNode : Node → BuildFile → Json → Bool × BuildFile × Json
  PostParse : Node → Bool

/-- The fatal conditions of a parse. -/
inductive Err where
  | fuel : Err
  | nameNotString : String → Err
  | unknownRule : String → Err
  | nodeParse : String → Err
  | expectedObject : String → Err
  | readFailed : String → Err
  | duplicateTarget : String → Err
  | couldNotFindTarget : String → Err
  | cannotFind : String → String → Err
  | checkFailed : String → Err
  | postParse : String → Err
deriving DecidableEq, Repr

/-- The state of a `Graph`. -/
structure Graph where
  build_files : SMap BuildFile
  nodes : SMap Node
  inputs : List NodePtr
  already_queued : SSet
  to_process : List String

/-- A graph before `Parse` runs. -/
def Graph.empty : Graph :=
  { build_files := [], nodes := [], inputs := [], already_queued := [], to_process := [] }

/-- The build file a `BuildFile*` held by the graph points to; the pointer is the file name under
which `AddFile` stored the file before handing it out. -/
def Graph.file (g : Graph) (filename : String) : BuildFile :=
  (g.build_files.find? filename).getD (BuildFile.create filename)

/-- Writes a build file back under its name. -/
def Graph.setFile (g : Graph) (filename : String) (f : BuildFile) : Graph :=
  { g with build_files := g.build_files.set filename f }

/-- Replaces the node stored under a key by its image, when the key is present. -/
def SMap.modify {β : Type} : SMap β → String → (β → β) → SMap β
  | [], _, _ => []
  | (k, v) :: m, x, f => if k = x then (k, f v) :: m else (k, v) :: SMap.modify m x f

/-! ## parser.cc -/

/-- ParseNode (parser.cc 33-59): names the node, constructs it through the builder set, and
runs its `Parse`.  The result is the node, the subnodes that `ExtractSubnodes` hands over in
ParseSingleNode (parser.cc 317), and the build file after the parse. -/
def ParseNode (w : World) (file : BuildFile) (file_node : Json) (key : String) :
    Except Err (Node × List Node × BuildFile) :=
  let value := file_node.get key
  let name := value.get "name"
  if !name.isNull && !name.isString then .error (.nameNotString file.filename)
  else
    let named : String × BuildFile :=
      if !name.isNull then (name.asString, file) else file.NextName "auto_"
    let target := w.mkTarget (":" ++ named.1) file.filename
    if !w.NewNode key then .error (.unknownRule key)
    else
      match w.nodeParse key target named.2 value with
      | none => .error (.nodeParse key)
      | some out =>
        .ok (Node.ofAttrs target key out.attrs,
             out.subnodes.map (fun s => Node.ofAttrs s.target s.kind s.attrs), out.file)

/-- The first dependency of a node that names the node's target among its required parents
(the loop of parser.cc 67-71 up to its `return`).  The link step stores only pointers to nodes
of the node map, so the lookup of a dependency succeeds; a dangling pointer is an error. -/
def firstNamingChild (nodes : SMap Node) (target : TargetInfo) :
    List NodePtr → Except Err (Option Node)
  | [] => .ok none
  | p :: ps =>
    match nodes.find? p with
    | none => .error (.checkFailed p)
    | some child =>
      if target ∈ child.required_parents then .ok (some child)
      else firstNamingChild nodes target ps

/-- UserInputHasTarget (parser.cc 61-73). -/
def UserInputHasTarget (inp : Input) (nodes : SMap Node) : Nat → Node → Except Err Bool
  | 0, _ => .error .fuel
  | fuel + 1, node =>
    if inp.contains_target node.target.full_path then .ok true
    else
      match firstNamingChild nodes node.target node.dependency_nodes with
      | .error e => .error e
      | .ok (some child) => UserInputHasTarget inp nodes fuel child
      | .ok none => .ok false

/-- The loop of ParseSingleNode (parser.cc 321-329): checks each node against the node map,
records it in `all` and stores it. -/
def saveNodes : List Node → Graph × List NodePtr → Except Err (Graph × List NodePtr)
  | [], st => .ok st
  | out_node :: rest, (g, all) =>
    let target := out_node.target.full_path
    if g.nodes.contains target then .error (.duplicateTarget target)
    else saveNodes rest ({ g with nodes := g.nodes.set target out_node }, all ++ [target])

/-- ParseSingleNode (parser.cc 307-330). -/
def ParseSingleNode (w : World) (filename : String) (file_node : Json) (key : String)
    (st : Graph × List NodePtr) : Except Err (Graph × List NodePtr) :=
  match ParseNode w (st.1.file filename) file_node key with
  | .error e => .error e
  | .ok (node, subnodes, file) => saveNodes (subnodes ++ [node]) (st.1.setFile filename file, st.2)

/-- ExpandPlugin (parser.cc 291-305): the flag returned, the file and the attribute object. -/
def ExpandPlugin (w : World) (g : Graph) (filename : String) (file_node : Json) (key : String) :
    Except Err (Bool × Graph × Json) :=
  let plugin_target := (g.file filename).GetKey ("plugin:" ++ key)
  if plugin_target = "" then .ok (false, g, file_node)
  else
    match g.nodes.find? plugin_target with
    | none => .error (.checkFailed plugin_target)
    | some node =>
      let r := w.ExpandBuildFileNode node (g.file filename) file_node
      .ok (r.1, g.setFile filename r.2.1, r.2.2)

/-- ProcessParent (parser.cc 275-289); `addFile` is the recursive call back into AddFile. -/
def ProcessParent (w : World) (inp : Input) (addFile : String → Graph → Except Err Graph)
    (child : String) : Nat → String → Graph → Except Err Graph
  | 0, _, _ => .error .fuel
  | fuel + 1, current, g =>
    let current_dir := w.PathDirname current
    if current_dir = "." ∨ current_dir = inp.root_dir then .ok g
    else
      let parent_file := w.JoinPath (w.JoinPath current_dir "..") "BUILD"
      match addFile parent_file g with
      | .error e => .error e
      | .ok g1 =>
        ProcessParent w inp addFile child fuel parent_file
          (g1.setFile child ((g1.file child).MergeParent (g1.file parent_file)))

/-- The keys of one attribute object in the first pass (parser.cc 183-187). -/
def firstPassKeys (w : World) (filename : String) (file_node : Json) :
    List String → Graph × List NodePtr → Except Err (Graph × List NodePtr)
  | [], st => .ok st
  | key :: keys, st =>
    if key = "config" ∨ key = "plugin" then
      match ParseSingleNode w filename file_node key st with
      | .error e => .error e
      | .ok st1 => firstPassKeys w filename file_node keys st1
    else firstPassKeys w filename file_node keys st

/-- The first pass over the attribute objects (parser.cc 179-188). -/
def firstPass (w : World) (filename : String) :
    List Json → Graph × List NodePtr → Except Err (Graph × List NodePtr)
  | [], st => .ok st
  | file_node :: rest, st =>
    if !file_node.isObject then .error (.expectedObject filename)
    else
      match firstPassKeys w filename file_node file_node.getMemberNames st with
      | .error e => .error e
      | .ok st1 => firstPass w filename rest st1

/-- The pre-parse targets of one node (parser.cc 192-194). -/
def preParseTargets (w : World) (addFile : String → Graph → Except Err Graph)
    (filename : String) : List TargetInfo → Graph → Except Err Graph
  | [], g => .ok g
  | target :: rest, g =>
    match addFile (w.build_file target) g with
    | .error e => .error e
    | .ok g1 =>
      preParseTargets w addFile filename rest
        (g1.setFile filename ((g1.file filename).MergeDependency (g1.file (w.build_file target))))

/-- The pre-parse loop over the nodes of the first pass (parser.cc 191-195). -/
def preParse (w : World) (addFile : String → Graph → Except Err Graph)
    (filename : String) : List NodePtr → Graph → Except Err Graph
  | [], g => .ok g
  | n :: rest, g =>
    match g.nodes.find? n with
    | none => .error (.checkFailed n)
    | some node =>
      match preParseTargets w addFile filename node.pre_parse g with
      | .error e => .error e
      | .ok g1 => preParse w addFile filename rest g1

/-- One scan of the plugin loop (parser.cc 202-207): stops at the first key whose plugin
reports a change. -/
def scanPlugins (w : World) (filename : String) :
    List String → Graph × Json → Except Err (Bool × Graph × Json)
  | [], (g, file_node) => .ok (false, g, file_node)
  | key :: keys, (g, file_node) =>
    match ExpandPlugin w g filename file_node key with
    | .error e => .error e
    | .ok (true, g1, node1) => .ok (true, g1, node1)
    | .ok (false, g1, node1) => scanPlugins w filename keys (g1, node1)

/-- The plugin loop of one attribute object (parser.cc 199-208). -/
def expandPlugins (w : World) (filename : String) : Nat → Graph × Json → Except Err (Graph × Json)
  | 0, _ => .error .fuel
  | fuel + 1, (g, file_node) =>
    match scanPlugins w filename file_node.getMemberNames (g, file_node) with
    | .error e => .error e
    | .ok (true, g1, node1) => expandPlugins w filename fuel (g1, node1)
    | .ok (false, g1, node1) => .ok (g1, node1)

/-- The keys of one attribute object in the second pass (parser.cc 210-214). -/
def secondPassKeys (w : World) (filename : String) (file_node : Json) :
    List String → Graph × List NodePtr → Except Err (Graph × List NodePtr)
  | [], st => .ok st
  | key :: keys, st =>
    if key ≠ "config" ∧ key ≠ "plugin" then
      match ParseSingleNode w filename file_node key st with
      | .error e => .error e
      | .ok st1 => secondPassKeys w filename file_node keys st1
    else secondPassKeys w filename file_node keys st

/-- The second pass over the attribute objects (parser.cc 198-215). -/
def secondPass (w : World) (filename : String) (fuel : Nat) :
    List Json → Graph × List NodePtr → Except Err (Graph × List NodePtr)
  | [], st => .ok st
  | file_node :: rest, (g, all) =>
    match expandPlugins w filename fuel (g, file_node) with
    | .error e => .error e
    | .ok (g1, node1) =>
      match secondPassKeys w filename node1 node1.getMemberNames (g1, all) with
      | .error e => .error e
      | .ok st1 => secondPass w filename fuel rest st1

/-- The inner loop of the base-dependency wiring (parser.cc 223-227). -/
def wireNodes (additional_dep : String) (base : TargetInfo) : List NodePtr → SMap Node → SMap Node
  | [], nodes => nodes
  | n :: rest, nodes =>
    wireNodes additional_dep base rest
      (if n ≠ additional_dep then nodes.modify n (fun node => node.AddDependencyTarget base)
       else nodes)

/-- The base-dependency wiring (parser.cc 220-228). -/
def wireBaseDeps (all : List NodePtr) : List String → Graph → Except Err Graph
  | [], g => .ok g
  | additional_dep :: rest, g =>
    match g.nodes.find? additional_dep with
    | none => .error (.checkFailed additional_dep)
    | some base_dep =>
      wireBaseDeps all rest { g with nodes := wireNodes additional_dep base_dep.target all g.nodes }

/-- The part of AddFile between the memoisation test and the base-dependency wiring
(parser.cc 167-215): creates the file, merges its ancestors, reads it and runs the two passes.
The result is the graph and the local vector of the nodes parsed from the file. -/
def loadFile (w : World) (inp : Input) (addFile : String → Graph → Except Err Graph)
    (fuel : Nat) (filename : String) (g : Graph) : Except Err (Graph × List NodePtr) :=
  match ProcessParent w inp addFile filename fuel filename
      (g.setFile filename (BuildFile.create filename)) with
  | .error e => .error e
  | .ok g1 =>
    match w.readBuildFile filename with
    | none => .error (.readFailed filename)
    | some objs =>
      match firstPass w filename objs (g1, []) with
      | .error e => .error e
      | .ok (g2, nodes) =>
        match preParse w addFile filename nodes g2 with
        | .error e => .error e
        | .ok g3 => secondPass w filename fuel objs (g3, nodes)

/-- AddFile (parser.cc 161-230).  The returned pointer is `filename`.  The call of
`InitializeForFile` on the source provider does not touch the graph and has no counterpart
here; a file that cannot be read is the error of `readBuildFile`. -/
def AddFile (w : World) (inp : Input) : Nat → String → Graph → Except Err Graph
  | 0, _, _ => .error .fuel
  | fuel + 1, filename, g =>
    if g.build_files.contains filename then .ok g
    else
      match loadFile w inp (AddFile w inp fuel) fuel filename g with
      | .error e => .error e
      | .ok (g4, nodes1) => wireBaseDeps nodes1 (g4.file filename).base_dependencies.iter g4

/-- The enqueueing loops of ExpandTarget (parser.cc 239-254). -/
def enqueue : List TargetInfo → Graph → Graph
  | [], g => g
  | dep :: rest, g =>
    enqueue rest
      (if dep.full_path ∈ g.already_queued then g
       else { g with already_queued := g.already_queued.insert dep.full_path
                     to_process := g.to_process ++ [dep.full_path] })

/-- ExpandTarget (parser.cc 235-255). -/
def ExpandTarget (target : TargetInfo) (g : Graph) : Except Err Graph :=
  match g.nodes.find? target.full_path with
  | none => .error (.couldNotFindTarget target.full_path)
  | some node => .ok (enqueue node.required_parents (enqueue node.dep_targets g))

/-- ProcessTarget (parser.cc 262-273). -/
def ProcessTarget (w : World) (inp : Input) (fuel : Nat) (current : String) (g : Graph) :
    Except Err Graph :=
  let target : TargetInfo := ⟨current⟩
  match AddFile w inp fuel (w.build_file target) g with
  | .error e => .error e
  | .ok g1 => ExpandTarget target g1

/-- Seeding (parser.cc 109-115): the local set `queued_targets` and the queue. -/
def seed : List TargetInfo → SSet × List String → SSet × List String
  | [], st => st
  | info :: rest, (queued_targets, to_process) =>
    seed rest
      (if info.full_path ∈ queued_targets then (queued_targets, to_process)
       else (queued_targets.insert info.full_path, to_process ++ [info.full_path]))

/-- The loop over the queue (parser.cc 118-124): the processed targets and the graph. -/
def bfs (w : World) (inp : Input) : Nat → SSet × Graph → Except Err (SSet × Graph)
  | 0, _ => .error .fuel
  | fuel + 1, (processed_targets, g) =>
    match g.to_process with
    | [] => .ok (processed_targets, g)
    | key :: _ =>
      match ProcessTarget w inp fuel key g with
      | .error e => .error e
      | .ok g1 =>
        bfs w inp fuel (processed_targets.insert key, { g1 with to_process := g1.to_process.tail })

/-- Pruning (parser.cc 128-134): the map `copy` built from the processed targets.  A processed
target has a node (ExpandTarget is fatal otherwise); a null entry, which the link step would
dereference, is an error. -/
def prune (nodes : SMap Node) : List String → SMap Node → Except Err (SMap Node)
  | [], copy => .ok copy
  | key :: rest, copy =>
    match nodes.find? key with
    | none => .error (.checkFailed key)
    | some node => prune nodes rest (copy.set key node)

/-- The dependencies of one node in the link step (parser.cc 139-144). -/
def linkNode (key : String) : List TargetInfo → SMap Node → Except Err (SMap Node)
  | [], nodes => .ok nodes
  | info :: rest, nodes =>
    if nodes.contains info.full_path then
      linkNode key rest (nodes.modify key (fun node => node.AddDependencyNode info.full_path))
    else .error (.cannotFind info.full_path key)

/-- The link step (parser.cc 137-145) over the entries in iteration order. -/
def link : List (String × Node) → SMap Node → Except Err (SMap Node)
  | [], nodes => .ok nodes
  | (key, node) :: rest, nodes =>
    match linkNode key node.dep_targets nodes with
    | .error e => .error e
    | .ok nodes1 => link rest nodes1

/-- Input classification (parser.cc 148-153). -/
def classify (inp : Input) (nodes : SMap Node) (fuel : Nat) :
    List (String × Node) → List NodePtr → Except Err (List NodePtr)
  | [], inputs => .ok inputs
  | (key, node) :: rest, inputs =>
    match UserInputHasTarget inp nodes fuel node with
    | .error e => .error e
    | .ok b => classify inp nodes fuel rest (if b then inputs ++ [key] else inputs)

/-- The post-parse loop (parser.cc 156-158). -/
def postParse (w : World) : List (String × Node) → Except Err Unit
  | [] => .ok ()
  | (key, node) :: rest => if w.PostParse node then postParse w rest else .error (.postParse key)

/-- The first part of Graph::Parse (parser.cc 108-124), run on an empty graph: seeding and the
loop over the queue.  The result is the set of processed targets and the graph with every
node inserted during parsing. -/
def Graph.loop (w : World) (inp : Input) (fuel : Nat) : Except Err (SSet × Graph) :=
  bfs w inp fuel ([], { Graph.empty with to_process := (seed inp.build_targets ([], [])).2 })

/-- Graph::Parse (parser.cc 107-159), run by the constructor on an empty graph. -/
def Graph.Parse (w : World) (inp : Input) (fuel : Nat) : Except Err Graph :=
  match Graph.loop w inp fuel with
  | .error e => .error e
  | .ok (processed_targets, g) =>
    match prune g.nodes (SSet.iter processed_targets) [] with
    | .error e => .error e
    | .ok copy =>
      match link (SMap.iter copy) copy with
      | .error e => .error e
      | .ok nodes =>
        match classify inp nodes fuel (SMap.iter nodes) [] with
        | .error e => .error e
        | .ok inputs =>
          match postParse w (SMap.iter nodes) with
          | .error e => .error e
          | .ok _ => .ok { g with nodes := nodes, inputs := inputs }

/-- The state of a `Parser`: what `Parse` leaves for the emitters. -/
structure Parser where
  input_nodes : List NodePtr
  all_nodes : SMap Node
  all_node_vec : List NodePtr
  builds : SMap BuildFile

/-- The constructor Parser::Parser (parser.cc 348-351): nothing is parsed yet. -/
def Parser.create : Parser :=
  { input_nodes := [], all_nodes := [], all_node_vec := [], builds := [] }

/-- Parser::Reset (parser.cc 367-379). -/
def Parser.Reset (_p : Parser) : Parser :=
  { input_nodes := [], all_nodes := [], all_node_vec := [], builds := [] }

/-- The loop of Parser::Parse (parser.cc 362-364) over the extracted node map. -/
def pushAll : List (String × Node) → List NodePtr → List NodePtr
  | [], vec => vec
  | (key, _) :: rest, vec => pushAll rest (vec ++ [key])

/-- Parser::Parse (parser.cc 357-365) with Graph::Extract (95-101). -/
def Parser.Parse (w : World) (fuel : Nat) (p : Parser) (inp : Input) : Except Err Parser :=
  let p0 := p.Reset
  match Graph.Parse w inp fuel with
  | .error e => .error e
  | .ok graph =>
    .ok { input_nodes := graph.inputs, all_nodes := graph.nodes,
          all_node_vec := pushAll (SMap.iter graph.nodes) p0.all_node_vec,
          builds := graph.build_files }

/-! ## cc_binary.cc -/

/-- Modelled from the spec: a Resource (declared outside src/) as WriteLink reads it, a path
and a set of tags. -/
structure Resource where
  path : String
  tags : List String

/-- The test `has_tag` of a Resource. -/
def Resource.has_tag (r : Resource) (tag : String) : Bool := decide (tag ∈ r.tags)

/-- The string `obj_list` that CCBinaryNode::WriteLink builds from `objects.files()`
(cc_binary.cc 61-72); the second argument is the string built so far. -/
def CCBinaryNode.obj_list : List Resource → String → String
  | [], obj_list => obj_list
  | r :: rest, obj_list =>
    let obj_list1 := obj_list ++ " "
    let alwayslink := r.has_tag "alwayslink"
    let obj_list2 := if alwayslink then obj_list1 ++ "$(LD_FORCE_LINK_START) " else obj_list1
    let obj_list3 := obj_list2 ++ r.path
    let obj_list4 := if alwayslink then obj_list3 ++ " $(LD_FORCE_LINK_END)" else obj_list3
    CCBinaryNode.obj_list rest obj_list4

/-! ## cmake.cc -/

/-- The collaborators of CmakeNode::Parse that live outside src/: the base class's
`Node::Parse`, the reader of the node's attributes (`current_reader()`), `TargetInfo::dir`, the
path library, the naming of subnodes, and `MakeNode::ParseWithOptions` as far as it changes the
node state of the make node. -/
structure NodeLib where
  NodeParse : Node → BuildFile → Json → Node × BuildFile
  ParseSingleDirectory : Json → String → String
  ParseRepeatedString : Json → String → List String
  ParseRepeatedStringFlag : Json → String → Bool → List String
  dir : TargetInfo → String
  JoinPath : String → String → String
  subnodePrefix : TargetInfo → String
  subnodeTarget : TargetInfo → String → TargetInfo
  ParseWithOptions : Node → BuildFile → Json → String → String → String → Node × BuildFile

/-- Modelled from the spec: `new_subnode<K>(file)` (node.h is outside src/) allocates a node of
kind K, names it by `file.next_name`, constructs it with empty `dep_targets` and registers it
as a subnode of the parent.  The result is the child, the parent's list of subnodes, and the
file. -/
def NewSubNode (lib : NodeLib) (kind : String) (parent : Node) (subnodes : List TargetInfo)
    (file : BuildFile) : Node × List TargetInfo × BuildFile :=
  let named := file.NextName (lib.subnodePrefix parent.target)
  let child : Node :=
    { target := lib.subnodeTarget parent.target named.1, kind := kind, dep_targets := [],
      required_parents := [], pre_parse := [], dependency_nodes := [] }
  (child, subnodes ++ [child.target], named.2)

/-- Modelled from the spec: `new_subnode_with_current_deps<K>(file)` does the same, but copies
the parent's current `dep_targets` into the child at construction time. -/
def NewSubNodeWithCurrentDeps (lib : NodeLib) (kind : String) (parent : Node)
    (subnodes : List TargetInfo) (file : BuildFile) : Node × List TargetInfo × BuildFile :=
  let named := file.NextName (lib.subnodePrefix parent.target)
  let child : Node :=
    { target := lib.subnodeTarget parent.target named.1, kind := kind,
      dep_targets := parent.dep_targets, required_parents := [], pre_parse := [],
      dependency_nodes := [] }
  (child, subnodes ++ [child.target], named.2)

/-- Modelled from the spec: the state of a GenShNode (declared outside src/) that
CmakeNode::Parse sets: the node state, the name given by `SetMakeName`, and the four arguments
of `Set`. -/
structure GenShNode where
  node : Node
  make_name : String
  build_cmd : String
  clean_cmd : String
  input_files : List Resource
  outputs : List Resource

/-- Modelled from the spec: the state of a MakeNode (declared outside src/) that
CmakeNode::Parse determines: the node state and the three options it is parsed with. -/
structure MakeNode where
  node : Node
  preinstall_cmd : String
  dest_dir : String
  postinstall_cmd : String

/-- What CmakeNode::Parse leaves: the cmake node, its two subnodes, the list of subnodes
registered with the cmake node, and the build file. -/
structure CmakeOut where
  node : Node
  gen : GenShNode
  make : MakeNode
  subnodes : List TargetInfo
  file : BuildFile

/-- The string `user_env` of CmakeNode::Parse (cmake.cc 46-52). -/
def CmakeNode.user_env (cmake_envs : List String) : String :=
  if !cmake_envs.isEmpty then
    cmake_envs.foldl (fun user_env it => user_env ++ (" " ++ it)) "" ++ "; "
  else ""

/-- The string `build_setup` of CmakeNode::Parse (cmake.cc 54-59). -/
def CmakeNode.build_setup (cmake_dir : String) : String :=
  "BASE=" ++ cmake_dir ++
    "; DEST_DIR=$GEN_DIR; mkdir -p $DEST_DIR/build; STAGING=$DEST_DIR/.staging; cd $GEN_DIR/build"

/-- The string `cmake_cmd` of CmakeNode::Parse (cmake.cc 62-68). -/
def CmakeNode.cmake_cmd (cmake_args : List String) : String :=
  cmake_args.foldl (fun cmake_cmd it => cmake_cmd ++ (" " ++ it))
    "cmake -DCMAKE_INSTALL_PREFIX=. -B . $BASE -DCMAKE_CXX_FLAGS=\"$BASIC_CXXFLAGS $USER_CXXFLAGS\" -DCMAKE_C_FLAGS=\"$BASIC_CFLAGS $USER_CFLAGS\""

/-- The string `postinstall_cmd` of CmakeNode::Parse (cmake.cc 78-90). -/
def CmakeNode.postinstall_cmd : String :=
  "(if [ -d \"$STAGING/$BASE\" ]; then" ++
  " (for f in $(ls -d $STAGING/$BASE/*); do" ++
  "  rm -rf $DEST_DIR/$(basename \"$f\"); mv $f $DEST_DIR || exit 1;" ++
  " done) &&" ++
  " rm -rf $STAGING; " ++
  "elif [ -d \"$STAGING/$GEN_DIR\" ]; then" ++
  " (for f in $(ls -d $STAGING/$GEN_DIR/*); do" ++
  "  rm -rf $DEST_DIR/$(basename \"$f\"); mv $f $DEST_DIR || exit 1;" ++
  " done) &&" ++
  " rm -rf $STAGING; " ++
  " else echo -n ''; " ++
  "fi)"

/-- CmakeNode::Parse (cmake.cc 23-97) on a freshly constructed cmake node `self`. -/
def CmakeNode.Parse (lib : NodeLib) (self : Node) (file : BuildFile) (input : Json) : CmakeOut :=
  let parsed := lib.NodeParse self file input
  let node := parsed.1
  let dir0 := lib.ParseSingleDirectory input "cmake_dir"
  let dir1 := if dir0 = "" then lib.dir node.target else dir0
  let cmake_dir := lib.JoinPath "$ROOT_DIR" dir1
  let cmake_envs := lib.ParseRepeatedString input "cmake_env"
  let cmake_args := lib.ParseRepeatedStringFlag input "cmake_args" true
  let g := NewSubNodeWithCurrentDeps lib "gen_sh" node [] parsed.2
  let build_setup := CmakeNode.build_setup cmake_dir
  let build_env := CmakeNode.user_env cmake_envs ++ "CC=$CC CXX=$CXX "
  let gen : GenShNode :=
    { node := g.1, make_name := "Cmake",
      build_cmd := build_setup ++ "; " ++ build_env ++ " " ++ CmakeNode.cmake_cmd cmake_args,
      clean_cmd := "", input_files := [], outputs := [] }
  let preinstall_cmd := build_setup
  let m := NewSubNode lib "make" node g.2.1 g.2.2
  let make0 := m.1.AddDependencyTarget gen.node.target
  let made := lib.ParseWithOptions make0 m.2.2 input preinstall_cmd "$STAGING"
    CmakeNode.postinstall_cmd
  { node := node, gen := gen,
    make := { node := made.1, preinstall_cmd := preinstall_cmd, dest_dir := "$STAGING",
              postinstall_cmd := CmakeNode.postinstall_cmd },
    subnodes := m.2.1, file := made.2 }

/-! ## Specification predicates -/

/-- Every node of a node map is stored under the full path of its own target. -/
def KeyOk (nodes : SMap Node) : Prop :=
  ∀ k n, nodes.find? k = some n → n.target.full_path = k

/-- No node of a node map has a resolved dependency yet. -/
def Unlinked (nodes : SMap Node) : Prop :=
  ∀ k n, nodes.find? k = some n → n.dependency_nodes = []

/-- The graph `g1` extends `g`: every node of `g` is still stored, unchanged, under its key, the
queue, the queued set and the inputs are those of `g`, nodes are still stored under their
own full paths, and no dependency has been resolved if none was. -/
structure Ext (g g1 : Graph) : Prop where
  nodes : ∀ k n, g.nodes.find? k = some n → g1.nodes.find? k = some n
  queued : g1.already_queued = g.already_queued
  queue : g1.to_process = g.to_process
  inputs : g1.inputs = g.inputs
  keyOk : KeyOk g.nodes → KeyOk g1.nodes
  unlinked : Unlinked g.nodes → Unlinked g1.nodes

/-- The state of AddFile's passes relative to the graph `g0` the call started from: the graph
extends `g0`, no node recorded in the local vector was in `g0`, and every recorded node is
stored in the node map. -/
structure Inv (g0 : Graph) (st : Graph × List NodePtr) : Prop where
  ext : Ext g0 st.1
  fresh : ∀ k ∈ st.2, g0.nodes.find? k = none
  stored : ∀ k ∈ st.2, ∃ n, st.1.nodes.find? k = some n

/-- The BFS closure of the user targets in a node map: the full paths reachable from the user
targets by following `dep_targets` and `required_parents` of the nodes stored in the map. -/
inductive Reach (inp : Input) (nodes : SMap Node) : String → Prop where
  | root (t : TargetInfo) : t ∈ inp.build_targets → Reach inp nodes t.full_path
  | dep (p : String) (n : Node) (t : TargetInfo) : Reach inp nodes p →
      nodes.find? p = some n → t ∈ n.dep_targets → Reach inp nodes t.full_path
  | parent (p : String) (n : Node) (t : TargetInfo) : Reach inp nodes p →
      nodes.find? p = some n → t ∈ n.required_parents → Reach inp nodes t.full_path

/-- The invariant of the loop over the queue, at the head of the loop. -/
structure BfsInv (inp : Input) (st : SSet × Graph) : Prop where
  roots : ∀ t ∈ inp.build_targets, t.full_path ∈ st.1 ∨ t.full_path ∈ st.2.to_process
  queued : ∀ p ∈ st.2.already_queued, p ∈ st.1 ∨ p ∈ st.2.to_process
  closed : ∀ p ∈ st.1, ∃ n, st.2.nodes.find? p = some n ∧
    (∀ t ∈ n.dep_targets, t.full_path ∈ st.1 ∨ t.full_path ∈ st.2.to_process) ∧
    (∀ t ∈ n.required_parents, t.full_path ∈ st.1 ∨ t.full_path ∈ st.2.to_process)
  sound : ∀ p, p ∈ st.1 ∨ p ∈ st.2.to_process → Reach inp st.2.nodes p
  keyOk : KeyOk st.2.nodes
  unlinked : Unlinked st.2.nodes

/-- The node `n` with the pointers `ps` appended to its resolved dependencies. -/
def Node.addDeps (n : Node) (ps : List NodePtr) : Node :=
  { n with dependency_nodes := n.dependency_nodes ++ ps }

/-- No plugin expansion is left for the keyword `key` of an attribute object: the file has no
plugin registered for the keyword, or the registered plugin reports no change on the object. -/
def Settled (w : World) (g : Graph) (filename : String) (file_node : Json) (key : String) : Prop :=
  (g.file filename).GetKey ("plugin:" ++ key) = "" ∨
  ∃ node, g.nodes.find? ((g.file filename).GetKey ("plugin:" ++ key)) = some node ∧
    (w.ExpandBuildFileNode node (g.file filename) file_node).1 = false

/-- The ancestor specifications ProcessParent visits from `current`, nearest first
(the path computation of parser.cc 278-284). -/
def ancestorChain (w : World) (inp : Input) : Nat → String → List String
  | 0, _ => []
  | fuel + 1, current =>
    let current_dir := w.PathDirname current
    if current_dir = "." ∨ current_dir = inp.root_dir then []
    else
      let parent_file := w.JoinPath (w.JoinPath current_dir "..") "BUILD"
      parent_file :: ancestorChain w inp fuel parent_file

/-- The value for `k` of the first file of a chain that holds one. -/
def lookupChain (files : SMap BuildFile) (k : String) : List String → Option String
  | [] => none
  | P :: rest =>
    match (((files.find? P).getD (BuildFile.create P)).inherited_env.find? k) with
    | some v => some v
    | none => lookupChain files k rest

/-- Every build file of `g` is still stored, unchanged, in `g1`. -/
def Frame (g g1 : Graph) : Prop :=
  ∀ Y v, g.build_files.find? Y = some v → g1.build_files.find? Y = some v

/-- Every build file of `g` other than `F` is still stored, unchanged, in `g1`, and `F`, when it
is stored in `g`, is stored in `g1` in a state related to its state in `g` by `R`. -/
structure Keep (R : BuildFile → BuildFile → Prop) (F : String) (g g1 : Graph) : Prop where
  frame : ∀ Y v, Y ≠ F → g.build_files.find? Y = some v → g1.build_files.find? Y = some v
  file : ∀ f, g.build_files.find? F = some f → ∃ f1, g1.build_files.find? F = some f1 ∧ R f f1

/-- The relation `R` on the states of a build file is respected by everything AddFile does to
the file it loads, for attribute objects satisfying `D`: parsing a node of the object,
expanding a plugin on it (which keeps `D`), and the two merges. -/
structure Allowed (w : World) (R : BuildFile → BuildFile → Prop) (D : Json → Prop) : Prop where
  refl : ∀ f, R f f
  trans : ∀ a b c, R a b → R b c → R a c
  parse : ∀ obj key file node subnodes file1, D obj → key ∈ obj.getMemberNames →
    ParseNode w file obj key = .ok (node, subnodes, file1) → R file file1
  expand : ∀ node file obj, D obj →
    R file (w.ExpandBuildFileNode node file obj).2.1 ∧ D (w.ExpandBuildFileNode node file obj).2.2
  mergeParent : ∀ f p, R f (f.MergeParent p)
  mergeDependency : ∀ f o, R f (f.MergeDependency o)

/-- The file `F` keeps its name and the value it holds for the key `k`. -/
def KeepsKey (F k : String) (f f1 : BuildFile) : Prop :=
  f.filename = F → f1.filename = F ∧
    ∀ v, f.inherited_env.find? k = some v → f1.inherited_env.find? k = some v

/-- The plugin loop of one attribute object ends after `n` scans from a state: the first `n - 1`
scans report a change, the last one reports none and leaves the final state. -/
inductive PluginRounds (w : World) (filename : String) :
    Nat → Graph × Json → Graph × Json → Prop where
  | last (g : Graph) (file_node : Json) (g1 : Graph) (node1 : Json) :
      scanPlugins w filename file_node.getMemberNames (g, file_node) = .ok (false, g1, node1) →
      PluginRounds w filename 1 (g, file_node) (g1, node1)
  | again (n : Nat) (g : Graph) (file_node : Json) (g1 : Graph) (node1 : Json)
      (r : Graph × Json) :
      scanPlugins w filename file_node.getMemberNames (g, file_node) = .ok (true, g1, node1) →
      PluginRounds w filename n (g1, node1) r →
      PluginRounds w filename (n + 1) (g, file_node) r

/-- The targets on which the loop over the queue (parser.cc 118-124) calls ProcessTarget, in
the order of the calls; the loop is that of `bfs`, and a call that fails is the last one. -/
def processOrder (w : World) (inp : Input) : Nat → Graph → List String
  | 0, _ => []
  | fuel + 1, g =>
    match g.to_process with
    | [] => []
    | key :: _ =>
      match ProcessTarget w inp fuel key g with
      | .error _ => [key]
      | .ok g1 => key :: processOrder w inp fuel { g1 with to_process := g1.to_process.tail }

/-- A resolved dependency edge of a node map: the node stored under `a` holds the pointer `b`
among its `dependency_nodes`. -/
def DepEdge (nodes : SMap Node) (a b : NodePtr) : Prop :=
  ∃ n, nodes.find? a = some n ∧ b ∈ n.dependency_nodes

/-- The resolved dependency edges of a node map are acyclic: no node reaches itself along one
or more edges. -/
def Acyclic (nodes : SMap Node) : Prop :=
  ∀ a, ¬ Relation.TransGen (DepEdge nodes) a a

/-- The concatenation of a list of strings, in order. -/
def concatAll : List String → String
  | [] => ""
  | s :: rest => s ++ concatAll rest

/-- The piece of the link line that stands for one object: the path after a blank, enclosed by
the two sentinels when the object carries the tag `alwayslink`. -/
def linkSegment (r : Resource) : String :=
  if r.has_tag "alwayslink" then " $(LD_FORCE_LINK_START) " ++ r.path ++ " $(LD_FORCE_LINK_END)"
  else " " ++ r.path

/-- A word of the link line: one of the two sentinels, or the path of an object. -/
inductive LinkWord where
  | start : LinkWord
  | path : String → LinkWord
  | stop : LinkWord
deriving DecidableEq, Repr

/-- The text of a word. -/
def LinkWord.render : LinkWord → String
  | .start => "$(LD_FORCE_LINK_START)"
  | .path p => p
  | .stop => "$(LD_FORCE_LINK_END)"

/-- The words that stand for one object. -/
def linkWordsOf (r : Resource) : List LinkWord :=
  if r.has_tag "alwayslink" then [.start, .path r.path, .stop] else [.path r.path]

/-- The words of the link line of a list of objects. -/
def linkWords : List Resource → List LinkWord
  | [] => []
  | r :: rest => linkWordsOf r ++ linkWords rest

/-- Reads a sequence of words back: every path with the flag whether it stands between a START
sentinel and its END sentinel.  A sentinel out of place, or a pair that encloses anything but
one path, has no reading. -/
def readWords : List LinkWord → Option (List (Bool × String))
  | .path p :: rest => (readWords rest).map (fun l => (false, p) :: l)
  | .start :: .path p :: .stop :: rest => (readWords rest).map (fun l => (true, p) :: l)
  | [] => some []
  | _ => none

/-- The number of positions of a text at which a pattern occurs. -/
def occurrences (pat : List Char) : List Char → Nat
  | [] => 0
  | c :: cs => (if pat.isPrefixOf (c :: cs) then 1 else 0) + occurrences pat cs

/-- The setup command S of the cmake script, in the words of the specification, for the
directory `d` the path library joins to `$ROOT_DIR`. -/
def cmakeSetup (join : String → String → String) (d : String) : String :=
  "BASE=" ++ join "$ROOT_DIR" d ++
    "; DEST_DIR=$GEN_DIR; mkdir -p $DEST_DIR/build; STAGING=$DEST_DIR/.staging; cd $GEN_DIR/build"

/-- The user environment U of the cmake script: empty for no entry, otherwise a blank and the
entry for each entry in order, followed by a semicolon and a blank. -/
def cmakeUserEnv (E : List String) : String :=
  if E = [] then "" else concatAll (E.map (fun e => " " ++ e)) ++ "; "

/-- The cmake call C of the cmake script: the fixed command followed by a blank and the
argument for each argument in order. -/
def cmakeCall (A : List String) : String :=
  "cmake -DCMAKE_INSTALL_PREFIX=. -B . $BASE -DCMAKE_CXX_FLAGS=\"$BASIC_CXXFLAGS $USER_CXXFLAGS\" -DCMAKE_C_FLAGS=\"$BASIC_CFLAGS $USER_CFLAGS\"" ++
    concatAll (A.map (fun a => " " ++ a))

/-- The shell-generation subnode of a cmake node at the moment CmakeNode::Parse creates it. -/
def CmakeNode.genCreated (lib : NodeLib) (self : Node) (file : BuildFile) (input : Json) : Node :=
  (NewSubNodeWithCurrentDeps lib "gen_sh" (lib.NodeParse self file input).1 []
    (lib.NodeParse self file input).2).1

/-- The make subnode of a cmake node at the moment CmakeNode::Parse creates it. -/
def CmakeNode.makeCreated (lib : NodeLib) (self : Node) (file : BuildFile) (input : Json) : Node :=
  (NewSubNode lib "make" (lib.NodeParse self file input).1
    (NewSubNodeWithCurrentDeps lib "gen_sh" (lib.NodeParse self file input).1 []
      (lib.NodeParse self file input).2).2.1
    (NewSubNodeWithCurrentDeps lib "gen_sh" (lib.NodeParse self file input).1 []
      (lib.NodeParse self file input).2).2.2).1

/-- The directory a cmake node hands to the path library: the attribute `cmake_dir`, and the
directory of the owning target when the attribute is empty. -/
def CmakeNode.directory (lib : NodeLib) (self : Node) (file : BuildFile) (input : Json) : String :=
  if lib.ParseSingleDirectory input "cmake_dir" = "" then
    lib.dir (lib.NodeParse self file input).1.target
  else lib.ParseSingleDirectory input "cmake_dir"

/-- Parses the given keywords of an attribute object one after the other with
ParseSingleNode. -/
def parseKeys (w : World) (filename : String) (file_node : Json) :
    List String → Graph × List NodePtr → Except Err (Graph × List NodePtr)
  | [], st => .ok st
  | key :: keys, st =>
    match ParseSingleNode w filename file_node key st with
    | .error e => .error e
    | .ok st1 => parseKeys w filename file_node keys st1

/-- The first pass of AddFile over the objects `objs`, started in the state `st`, comes without
a failure to the `config` or `plugin` keyword `key` of the object `obj`, which it is about to
parse in the state `st1`. -/
inductive FirstPassAt (w : World) (filename : String) :
    List Json → Graph × List NodePtr → Json → String → Graph × List NodePtr → Prop where
  | here (obj : Json) (rest : List Json) (st st1 : Graph × List NodePtr)
      (before after : List String) (key : String) :
      obj.isObject = true → obj.getMemberNames = before ++ key :: after →
      (key = "config" ∨ key = "plugin") →
      firstPassKeys w filename obj before st = .ok st1 →
      FirstPassAt w filename (obj :: rest) st obj key st1
  | later (obj : Json) (rest : List Json) (st st2 : Graph × List NodePtr) (obj1 : Json)
      (key : String) (st1 : Graph × List NodePtr) :
      obj.isObject = true →
      firstPassKeys w filename obj obj.getMemberNames st = .ok st2 →
      FirstPassAt w filename rest st2 obj1 key st1 →
      FirstPassAt w filename (obj :: rest) st obj1 key st1

/-- The second pass of AddFile over the objects `objs`, started in the state `st`, comes
without a failure to the keyword `key`, neither `config` nor `plugin`, of the object `obj1` (an
object of the file as the plugin loop left it), which it is about to parse in the state
`st1`. -/
inductive SecondPassAt (w : World) (filename : String) (fuel : Nat) :
    List Json → Graph × List NodePtr → Json → String → Graph × List NodePtr → Prop where
  | here (obj : Json) (rest : List Json) (g : Graph) (all : List NodePtr) (g1 : Graph)
      (obj1 : Json) (before after : List String) (key : String) (st1 : Graph × List NodePtr) :
      expandPlugins w filename fuel (g, obj) = .ok (g1, obj1) →
      obj1.getMemberNames = before ++ key :: after → key ≠ "config" → key ≠ "plugin" →
      secondPassKeys w filename obj1 before (g1, all) = .ok st1 →
      SecondPassAt w filename fuel (obj :: rest) (g, all) obj1 key st1
  | later (obj : Json) (rest : List Json) (g : Graph) (all : List NodePtr) (g1 : Graph)
      (obj1 : Json) (st2 : Graph × List NodePtr) (o : Json) (key : String)
      (st1 : Graph × List NodePtr) :
      expandPlugins w filename fuel (g, obj) = .ok (g1, obj1) →
      secondPassKeys w filename obj1 obj1.getMemberNames (g1, all) = .ok st2 →
      SecondPassAt w filename fuel rest st2 o key st1 →
      SecondPassAt w filename fuel (obj :: rest) (g, all) o key st1

/-- The call of AddFile for the file `F`, not registered in `g`, comes without a failure to the
declaration of the keyword `key` in the object `obj` of `F`, in its first pass or, after the
first pass and the pre-parse loads, in its second pass, and is about to parse it in the state
`st1`. -/
def DeclAt (w : World) (inp : Input) (fuel : Nat) (F : String) (g : Graph) (obj : Json)
    (key : String) (st1 : Graph × List NodePtr) : Prop :=
  g.build_files.contains F = false ∧
  ∃ g1 objs,
    ProcessParent w inp (AddFile w inp fuel) F fuel F (g.setFile F (BuildFile.create F)) =
      .ok g1 ∧
    w.readBuildFile F = some objs ∧
    (FirstPassAt w F objs (g1, []) obj key st1 ∨
     ∃ g2 cfg g3, firstPass w F objs (g1, []) = .ok (g2, cfg) ∧
       preParse w (AddFile w inp fuel) F cfg g2 = .ok g3 ∧
       SecondPassAt w F fuel objs (g3, cfg) obj key st1)

/-- The local vector of AddFile holds pairwise distinct full paths, each of them a key of the
node map. -/
def Tracked (st : Graph × List NodePtr) : Prop :=
  (∀ k ∈ st.2, st.1.nodes.contains k = true) ∧ st.2.Nodup

namespace Example

/-- The characters before the last slash, none when there is no slash. -/
def dirChars : List Char → Option (List Char)
  | [] => none
  | c :: cs =>
    match dirChars cs with
    | some d => some (c :: d)
    | none => if c = '/' then some [] else none

/-- The directory part of a path, `.` when the path has none. -/
def PathDirname (path : String) : String :=
  match dirChars path.data with
  | some d => String.mk d
  | none => "."

/-- Joins two path components and normalises: `..` removes the last component. -/
def JoinPath (a b : String) : String :=
  if b = ".." then PathDirname a
  else if a = "." then b
  else a ++ "/" ++ b

/-- The build file of a target `//dir:name`: `dir/BUILD`, and `BUILD` for the top directory. -/
def build_file (t : TargetInfo) : String :=
  let dir := (t.full_path.data.drop 2).takeWhile (fun c => c ≠ ':')
  if dir = [] then "BUILD" else String.mk dir ++ "/BUILD"

/-- The target `:name` of the build file `dir/BUILD`: `//dir:name`. -/
def mkTarget (rel filename : String) : TargetInfo :=
  if PathDirname filename = "." then ⟨"//" ++ rel⟩ else ⟨"//" ++ PathDirname filename ++ rel⟩

/-- The strings of an array value. -/
def strings : Json → List String
  | .arr xs => xs.filterMap (fun x => match x with
    | .str s => some s
    | _ => none)
  | _ => []

/-- The targets named by an array member of the attributes. -/
def targets (value : Json) (key : String) : List TargetInfo :=
  (strings (value.get key)).map TargetInfo.mk

/-- The three target lists every kind reads. -/
def attrs (value : Json) : NodeAttrs :=
  { dep_targets := targets value "deps", required_parents := targets value "required_parents",
    pre_parse := targets value "pre_parse" }

/-- The string members of an object value. -/
def stringMembers : Json → List (String × String)
  | .obj kvs => kvs.filterMap (fun kv => match kv.2 with
    | .str s => some (kv.1, s)
    | _ => none)
  | _ => []

/-- The effect of a node's `Parse` on its build file. -/
def fileEffect (key : String) (target : TargetInfo) (file : BuildFile) (value : Json) : BuildFile :=
  if key = "config" then
    { file with
      inherited_env :=
        (stringMembers (value.get "env")).foldl (fun env kv => SMap.set env kv.1 kv.2)
          file.inherited_env
      base_dependencies :=
        if (value.get "base").isNull then file.base_dependencies
        else file.base_dependencies.insert target.full_path }
  else if key = "plugin" then
    { file with
      inherited_env :=
        SMap.set file.inherited_env ("plugin:" ++ (value.get "key").asString) target.full_path }
  else file

/-- The `Parse` of every kind of the example repository. -/
def nodeParse (key : String) (target : TargetInfo) (file : BuildFile) (value : Json) :
    Option ParseOut :=
  some
    { attrs := attrs value
      subnodes := (strings (value.get "subnodes")).map (fun n =>
        { target := mkTarget (":" ++ n) file.filename, kind := "gen_sh",
          attrs := { dep_targets := [], required_parents := [], pre_parse := [] } })
      file := fileEffect key target file value }

/-- Renames the members of an object that carry the keyword `key` to `cc_library`. -/
def renameKey (key : String) : Json → Json
  | .obj kvs => .obj (kvs.map (fun kv => if kv.1 = key then ("cc_library", kv.2) else kv))
  | j => j

/-- The keywords a plugin node is registered for in a file. -/
def pluginKeys (node : Node) (file : BuildFile) (names : List String) : List String :=
  names.filter (fun k => file.GetKey ("plugin:" ++ k) = node.target.full_path)

/-- The `ExpandBuildFileNode` of the example plugin: rewrites the first member of the object
that carries a keyword of the plugin, and reports whether there was one. -/
def ExpandBuildFileNode (node : Node) (file : BuildFile) (file_node : Json) :
    Bool × BuildFile × Json :=
  match pluginKeys node file file_node.getMemberNames with
  | [] => (false, file, file_node)
  | k :: _ => (true, file, renameKey k file_node)

/-- The example repository over a table of build files. -/
def world (files : SMap (List Json)) : World :=
  { build_file := build_file, mkTarget := mkTarget, PathDirname := PathDirname,
    JoinPath := JoinPath, readBuildFile := fun filename => files.find? filename,
    NewNode := fun key =>
      decide (key ∈ ["cc_library", "cc_binary", "cmake", "gen_sh", "make", "config", "plugin"]),
    nodeParse := nodeParse, ExpandBuildFileNode := ExpandBuildFileNode,
    PostParse := fun _ => true }

/-- A node declaration `keyword : {name, deps, required_parents}`. -/
def decl (keyword name : String) (deps required_parents : List String) : Json :=
  .obj [(keyword, .obj [("name", .str name), ("deps", .arr (deps.map Json.str)),
    ("required_parents", .arr (required_parents.map Json.str))])]

/-- The user input with the given targets and root directory `.`. -/
def input (targets : List String) : Input :=
  { build_targets := targets.map TargetInfo.mk, root_dir := "." }

/-- Scenario S1 of the specification with one more library, `//lib:other`, that nothing
requests: `//app:main` depends on `//lib:util`. -/
def s1 : World :=
  world [("app/BUILD", [decl "cc_binary" "main" ["//lib:util"] []]),
         ("lib/BUILD", [decl "cc_library" "util" [] [], decl "cc_library" "other" [] []]),
         ("BUILD", [])]

/-- A chain in one build file: `//d:a` depends on `//d:b`, `//d:b` names `//d:c` as required
parent, and `//d:c` depends on nothing. -/
def chain : World :=
  world [("d/BUILD", [decl "cc_library" "a" ["//d:b"] [], decl "cc_library" "b" [] ["//d:c"],
            decl "cc_library" "c" [] []]),
         ("BUILD", [])]

/-- A required parent that depends on its child: `//d:c` depends on `//d:b`, and `//d:b` names
`//d:c` as required parent. -/
def promote : World :=
  world [("d/BUILD", [decl "cc_library" "b" [] ["//d:c"], decl "cc_library" "c" ["//d:b"] []]),
         ("BUILD", [])]

/-- Two children naming the same required parent: `//d:n` depends on `//d:d1` and `//d:d2`, in
this order, and both name `//d:n` as required parent. -/
def twoChildren : World :=
  world [("d/BUILD", [decl "cc_library" "n" ["//d:d1", "//d:d2"] [],
            decl "cc_library" "d1" [] ["//d:n"], decl "cc_library" "d2" [] ["//d:n"]]),
         ("BUILD", [])]

/-- A node declaration `keyword : {name, subnodes}`. -/
def declSub (keyword name : String) (subnodes : List String) : Json :=
  .obj [(keyword, .obj [("name", .str name), ("subnodes", .arr (subnodes.map Json.str))])]

/-- Scenario S6 of the specification: two `cc_library` entries named `x` in `d/BUILD`. -/
def s6 : World :=
  world [("d/BUILD", [decl "cc_library" "x" [] [], decl "cc_library" "x" [] []]),
         ("BUILD", [])]

/-- A build file with a requested library `//d:x` and a node `//d:y` that spawns the subnode
`//d:y_gen`; nothing depends on `//d:y` or on its subnode. -/
def sub : World :=
  world [("d/BUILD", [decl "cc_library" "x" [] [], declSub "cmake" "y" ["y_gen"]]),
         ("BUILD", [])]

/-- A build file whose node `//d:y` spawns the subnode `//d:y_gen`, and a library `//d:x`
that depends on the subnode. -/
def subUsed : World :=
  world [("d/BUILD", [decl "cc_library" "x" ["//d:y_gen"] [], declSub "cmake" "y" ["y_gen"]]),
         ("BUILD", [])]

/-- A build file with a `config` node that makes itself a base dependency of the file, and a
library `//d:x` that declares the dependencies `//d:cfg` and `//d:y`, in this order. -/
def basedDeclared : World :=
  world [("d/BUILD", [.obj [("config", .obj [("name", .str "cfg"), ("base", .bool true)])],
            decl "cc_library" "x" ["//d:cfg", "//d:y"] [], decl "cc_library" "y" [] []]),
         ("BUILD", [])]

/-- Scenario S3 of the specification with one more level: the root `BUILD` sets `cxxflags`
and `opt`, `a/BUILD` sets `cxxflags`, and `a/b/BUILD` declares the library `x`. -/
def inherit : World :=
  world [("BUILD", [.obj [("config", .obj [("name", .str "c"),
            ("env", .obj [("cxxflags", .str "-O2"), ("opt", .str "root")])])]]),
         ("a/BUILD", [.obj [("config", .obj [("name", .str "c"),
            ("env", .obj [("cxxflags", .str "-O1")])])]]),
         ("a/b/BUILD", [decl "cc_library" "x" [] []])]

/-- A root `BUILD` whose `config` node sets `k` and names the pre-parse target `//a/b:x`; the
file `a/BUILD` sets `k` too and declares the library `t`; `a/b/BUILD` declares the library
`x`.  Loading `a/BUILD` first makes the root load `a/b/BUILD` while `a/BUILD` is still being
loaded. -/
def cyclic : World :=
  world [("BUILD", [.obj [("config", .obj [("name", .str "c"),
            ("env", .obj [("k", .str "root")]), ("pre_parse", .arr [.str "//a/b:x"])])]]),
         ("a/BUILD", [.obj [("config", .obj [("name", .str "c"),
            ("env", .obj [("k", .str "a")])])], decl "cc_library" "t" [] []]),
         ("a/b/BUILD", [decl "cc_library" "x" [] []])]

/-- Two directories: `//b:x` depends on `//a:y`. -/
def twoDirs : World :=
  world [("b/BUILD", [decl "cc_library" "x" ["//a:y"] []]),
         ("a/BUILD", [decl "cc_library" "y" [] []]),
         ("BUILD", [])]

/-- The plugin declaration of scenario S5: the plugin `p` for the keyword `my_rule`. -/
def pluginDecl : Json :=
  .obj [("plugin", .obj [("name", .str "p"), ("key", .str "my_rule")])]

/-- The `my_rule` declaration of scenario S5, named `r`. -/
def myRule : Json :=
  .obj [("my_rule", .obj [("name", .str "r")])]

/-- Scenario S5 of the specification: `d/BUILD` declares the plugin `p` for the keyword
`my_rule`, then a `my_rule` node named `r`. -/
def s5 : World :=
  world [("d/BUILD", [pluginDecl, myRule]), ("BUILD", [])]

/-- The graph of scenario S5 once the first pass over `d/BUILD` has parsed the plugin. -/
def s5Registered : Graph :=
  match firstPass s5 "d/BUILD" [pluginDecl, myRule] (Graph.empty, []) with
  | .ok st => st.1
  | .error _ => Graph.empty

/-- The repository of scenario S5 with a plugin whose `ExpandBuildFileNode` reports a change on
every call and rewrites nothing. -/
def eager : World :=
  { s5 with ExpandBuildFileNode := fun _ file file_node => (true, file, file_node) }

/-- The graph of that repository once the first pass over `d/BUILD` has parsed the plugin. -/
def eagerRegistered : Graph :=
  match firstPass eager "d/BUILD" [pluginDecl, myRule] (Graph.empty, []) with
  | .ok st => st.1
  | .error _ => Graph.empty

/-- A `cc_library` declaration without a name. -/
def anonymous : Json :=
  .obj [("cc_library", .obj [("sources", .arr [.str "a.cc"])])]

/-- Scenario S2 of the specification with a second anonymous library: `top/BUILD` declares two
`cc_library` nodes without a `name`. -/
def s2 : World :=
  world [("top/BUILD", [anonymous, anonymous]), ("BUILD", [])]

/-- Two nodes that depend on each other and name each other as required parent: the requested
`//d:u` depends on `//d:x`, `//d:x` depends on `//d:y` and names it as required parent, and
`//d:y` depends on `//d:x` and names it as required parent. -/
def reciprocal : World :=
  world [("d/BUILD", [decl "cc_library" "u" ["//d:x"] [],
            decl "cc_library" "x" ["//d:y"] ["//d:y"],
            decl "cc_library" "y" ["//d:x"] ["//d:x"]]),
         ("BUILD", [])]

/-- The node map of that repository after the link step, for the user target `//d:u`. -/
def reciprocalNodes : SMap Node :=
  match Graph.loop reciprocal (input ["//d:u"]) 10 with
  | .error _ => []
  | .ok (processed_targets, g) =>
    match prune g.nodes (SSet.iter processed_targets) [] with
    | .error _ => []
    | .ok copy =>
      match link (SMap.iter copy) copy with
      | .error _ => []
      | .ok nodes => nodes

/-- The node map of scenario S1 after the parse for the user target `//app:main`. -/
def s1Nodes : SMap Node :=
  match Graph.Parse s1 (input ["//app:main"]) 10 with
  | .ok g => g.nodes
  | .error _ => []

/-- The directory of a target `//dir:name`. -/
def dirOf (t : TargetInfo) : String :=
  String.mk ((t.full_path.data.drop 2).takeWhile (fun c => c ≠ ':'))

/-- The name of a target `//dir:name`. -/
def nameOf (t : TargetInfo) : String :=
  String.mk ((t.full_path.data.dropWhile (fun c => c ≠ ':')).drop 1)

/-- The base class's `Parse` of the example repository: adds the targets of `deps` to the
dependency targets and reads the required parents and the pre-parse targets. -/
def NodeParse (n : Node) (file : BuildFile) (value : Json) : Node × BuildFile :=
  ({ (targets value "deps").foldl Node.AddDependencyTarget n with
     required_parents := targets value "required_parents", pre_parse := targets value "pre_parse" },
   file)

/-- A node library for the example repository: attributes are read as they stand, a subnode of
`//dir:name` is named `name.` followed by the counter, and the make node reads its
dependencies like every node. -/
def lib : NodeLib :=
  { NodeParse := NodeParse,
    ParseSingleDirectory := fun value key => (value.get key).asString,
    ParseRepeatedString := fun value key => strings (value.get key),
    ParseRepeatedStringFlag := fun value key _ => strings (value.get key),
    dir := dirOf,
    JoinPath := JoinPath,
    subnodePrefix := fun t => nameOf t ++ ".",
    subnodeTarget := fun t name => ⟨"//" ++ dirOf t ++ ":" ++ name⟩,
    ParseWithOptions := fun n file value _ _ _ => NodeParse n file value }

/-- The attributes of the cmake node of scenario S4, with a declared dependency and one
environment entry: `cmake{name: "libfoo", deps: ["//z:zlib"], cmake_env: ["A=1"], cmake_args:
["-DFOO=1"]}`. -/
def libfoo : Json :=
  .obj [("name", .str "libfoo"), ("deps", .arr [.str "//z:zlib"]),
    ("cmake_env", .arr [.str "A=1"]), ("cmake_args", .arr [.str "-DFOO=1"])]

/-- The freshly constructed cmake node `//ext:libfoo`. -/
def libfooNode : Node :=
  Node.ofAttrs ⟨"//ext:libfoo"⟩ "cmake" { dep_targets := [], required_parents := [], pre_parse := [] }

/-- The state of scenario S6 when AddFile, loading `d/BUILD` into the empty graph, has parsed
the first library named `x` and comes to the second one. -/
def s6Parsed : Graph × List NodePtr :=
  match ProcessParent s6 (input ["//d:x"]) (AddFile s6 (input ["//d:x"]) 9) "d/BUILD" 9 "d/BUILD"
      (Graph.empty.setFile "d/BUILD" (BuildFile.create "d/BUILD")) with
  | .error _ => (Graph.empty, [])
  | .ok g1 =>
    match secondPassKeys s6 "d/BUILD" (decl "cc_library" "x" [] []) ["cc_library"] (g1, []) with
    | .error _ => (Graph.empty, [])
    | .ok st => st

/-- The node library `lib` with a `ParseWithOptions` that leaves the node state of the make
node as it is. -/
def libPlain : NodeLib :=
  { lib with ParseWithOptions := fun n file _ _ _ _ => (n, file) }

end Example

/-! ## Theorems: ordered containers -/

namespace SMap

variable {β : Type}

theorem find?_set (m : SMap β) (x y : String) (v : β) :
    (m.set x v).find? y = if x = y then some v else m.find? y := by
  induction m with
  | nil => simp [set, find?]
  | cons kv m ih =>
    obtain ⟨k, w⟩ := kv
    by_cases hk : k = x
    · subst hk
      by_cases hy : k = y <;> simp [set, find?, hy]
    · by_cases hy : k = y
      · subst hy
        have : ¬ x = k := fun h => hk h.symm
        simp [set, find?, hk, this]
      · simp [set, find?, hk, hy, ih]

theorem find?_modify (m : SMap β) (x y : String) (f : β → β) :
    (m.modify x f).find? y = if x = y then (m.find? y).map f else m.find? y := by
  induction m with
  | nil => simp [modify, find?]
  | cons kv m ih =>
    obtain ⟨k, w⟩ := kv
    by_cases hk : k = x
    · subst hk
      by_cases hy : k = y <;> simp [modify, find?, hy]
    · by_cases hy : k = y
      · subst hy
        have : ¬ x = k := fun h => hk h.symm
        simp [modify, find?, hk, this]
      · simp [modify, find?, hk, hy, ih]

theorem keys_modify (m : SMap β) (x : String) (f : β → β) : (m.modify x f).keys = m.keys := by
  induction m with
  | nil => rfl
  | cons kv m ih =>
    obtain ⟨k, w⟩ := kv
    by_cases hk : k = x
    · simp [modify, keys, hk]
    · simp only [keys] at ih
      simp [modify, keys, hk, ih]

theorem mem_keys_iff (m : SMap β) (x : String) : x ∈ m.keys ↔ ∃ v, m.find? x = some v := by
  induction m with
  | nil => simp [keys, find?]
  | cons kv m ih =>
    obtain ⟨k, w⟩ := kv
    simp only [keys] at ih
    by_cases hk : k = x
    · simp [keys, find?, hk]
    · have : ¬ x = k := fun h => hk h.symm
      simp [keys, find?, hk, this, ih]

theorem contains_iff (m : SMap β) (x : String) : m.contains x = true ↔ x ∈ m.keys := by
  rw [mem_keys_iff, contains, Option.isSome_iff_exists]

theorem contains_false_iff (m : SMap β) (x : String) : m.contains x = false ↔ m.find? x = none := by
  simp [contains]

theorem keys_set (m : SMap β) (x : String) (v : β) :
    (m.set x v).keys = if x ∈ m.keys then m.keys else m.keys ++ [x] := by
  induction m with
  | nil => simp [set, keys]
  | cons kv m ih =>
    obtain ⟨k, w⟩ := kv
    simp only [keys] at ih
    by_cases hk : k = x
    · simp [set, keys, hk]
    · have : ¬ x = k := fun h => hk h.symm
      by_cases hx : x ∈ List.map Prod.fst m
      · simp [set, keys, hk, this, ih, hx]
      · simp [set, keys, hk, this, ih, hx]

theorem nodup_keys_set (m : SMap β) (x : String) (v : β) (h : m.keys.Nodup) :
    (m.set x v).keys.Nodup := by
  rw [keys_set]
  split
  · exact h
  · rename_i hx
    exact List.Nodup.append h (List.nodup_singleton x) (by simpa using hx)

theorem find?_of_mem (m : SMap β) (h : m.keys.Nodup) (k : String) (v : β) (hm : (k, v) ∈ m) :
    m.find? k = some v := by
  induction m with
  | nil => cases hm
  | cons kv m ih =>
    obtain ⟨k1, w⟩ := kv
    simp only [keys, List.map_cons, List.nodup_cons] at h
    rcases List.mem_cons.1 hm with heq | hin
    · cases heq
      simp [find?]
    · have hne : k1 ≠ k := by
        intro e
        subst e
        exact h.1 (List.mem_map_of_mem Prod.fst hin)
      simp only [find?, hne, if_false]
      exact ih h.2 hin

theorem mem_of_find? (m : SMap β) (k : String) (v : β) (h : m.find? k = some v) : (k, v) ∈ m := by
  induction m with
  | nil => simp [find?] at h
  | cons kv m ih =>
    obtain ⟨k1, w⟩ := kv
    by_cases hk : k1 = k
    · simp [find?, hk] at h
      simp [hk, h]
    · simp [find?, hk] at h
      exact List.mem_cons_of_mem _ (ih h)

theorem iter_perm (m : SMap β) : (m.iter).Perm m := List.perm_insertionSort _ m

theorem mem_iter (m : SMap β) (e : String × β) : e ∈ m.iter ↔ e ∈ m := (iter_perm m).mem_iff

end SMap

theorem SSet.mem_insert (s : SSet) (x y : String) : y ∈ s.insert x ↔ y ∈ s ∨ y = x := by
  unfold SSet.insert
  split
  · constructor
    · exact Or.inl
    · rintro (h | h)
      · exact h
      · subst h; assumption
  · simp

theorem SSet.mem_iter_iff (s : SSet) (x : String) : x ∈ s.iter ↔ x ∈ s :=
  (List.perm_insertionSort _ s).mem_iff

/-! ## Theorems: AddFile extends the graph -/

theorem Ext.refl (g : Graph) : Ext g g :=
  ⟨fun _ _ h => h, rfl, rfl, rfl, fun h => h, fun h => h⟩

theorem Ext.trans {g g1 g2 : Graph} (h1 : Ext g g1) (h2 : Ext g1 g2) : Ext g g2 :=
  ⟨fun k n h => h2.nodes k n (h1.nodes k n h), h2.queued.trans h1.queued,
   h2.queue.trans h1.queue, h2.inputs.trans h1.inputs, fun h => h2.keyOk (h1.keyOk h),
   fun h => h2.unlinked (h1.unlinked h)⟩

theorem Ext.ext_setFile (g : Graph) (filename : String) (f : BuildFile) :
    Ext g (g.setFile filename f) :=
  ⟨fun _ _ h => h, rfl, rfl, rfl, fun h => h, fun h => h⟩

theorem Inv.inv_setFile {g0 : Graph} {st : Graph × List NodePtr} (h : Inv g0 st)
    (filename : String) (f : BuildFile) : Inv g0 (st.1.setFile filename f, st.2) :=
  ⟨h.ext.trans (Ext.ext_setFile _ _ _), h.fresh, h.stored⟩

theorem Inv.ofExt {g0 : Graph} {st : Graph × List NodePtr} (h : Inv g0 st) {g1 : Graph}
    (he : Ext st.1 g1) : Inv g0 (g1, st.2) :=
  ⟨h.ext.trans he, h.fresh, fun k hk => by
    obtain ⟨n, hn⟩ := h.stored k hk
    exact ⟨n, he.nodes k n hn⟩⟩

theorem KeyOk.keyOk_set {nodes : SMap Node} (h : KeyOk nodes) (n : Node) :
    KeyOk (nodes.set n.target.full_path n) := by
  intro k m hk
  rw [SMap.find?_set] at hk
  split at hk
  · rename_i e
    cases hk
    exact e
  · exact h k m hk

theorem KeyOk.keyOk_modify {nodes : SMap Node} (h : KeyOk nodes) (x : String) (f : Node → Node)
    (hf : ∀ n, (f n).target = n.target) : KeyOk (nodes.modify x f) := by
  intro k m hk
  rw [SMap.find?_modify] at hk
  split at hk
  · cases hfind : nodes.find? k with
    | none => simp [hfind] at hk
    | some n0 =>
      simp [hfind] at hk
      subst hk
      rw [hf]
      exact h k n0 hfind
  · exact h k m hk

theorem Unlinked.unlinked_set {nodes : SMap Node} (h : Unlinked nodes) (k : String) (n : Node)
    (hn : n.dependency_nodes = []) : Unlinked (nodes.set k n) := by
  intro k1 m hk
  rw [SMap.find?_set] at hk
  split at hk
  · cases hk
    exact hn
  · exact h k1 m hk

theorem Unlinked.unlinked_modify {nodes : SMap Node} (h : Unlinked nodes) (x : String) (f : Node → Node)
    (hf : ∀ n, (f n).dependency_nodes = n.dependency_nodes) : Unlinked (nodes.modify x f) := by
  intro k m hk
  rw [SMap.find?_modify] at hk
  split at hk
  · cases hfind : nodes.find? k with
    | none => simp [hfind] at hk
    | some n0 =>
      simp [hfind] at hk
      subst hk
      rw [hf]
      exact h k n0 hfind
  · exact h k m hk

theorem saveNodes_inv (g0 : Graph) (l : List Node) (st st1 : Graph × List NodePtr)
    (hl : ∀ n ∈ l, n.dependency_nodes = [])
    (h : Inv g0 st) (hs : saveNodes l st = .ok st1) : Inv g0 st1 := by
  induction l generalizing st with
  | nil =>
    simp only [saveNodes] at hs
    cases hs
    exact h
  | cons n rest ih =>
    obtain ⟨g, all⟩ := st
    simp only [saveNodes] at hs
    split at hs
    · cases hs
    · rename_i hc
      have hnone : g.nodes.find? n.target.full_path = none := by
        simpa [SMap.contains] using hc
      refine ih _ (fun m hm => hl m (List.mem_cons_of_mem _ hm)) ?_ hs
      constructor
      · refine h.ext.trans ⟨?_, rfl, rfl, rfl, fun hk => KeyOk.keyOk_set hk n,
          fun hu => Unlinked.unlinked_set hu _ n (hl n (List.mem_cons_self _ _))⟩
        intro k m hk
        show (g.nodes.set n.target.full_path n).find? k = some m
        rw [SMap.find?_set]
        split
        · rename_i e
          subst e
          rw [hnone] at hk
          cases hk
        · exact hk
      · intro k hk
        rcases List.mem_append.1 hk with hk | hk
        · exact h.fresh k hk
        · simp only [List.mem_singleton] at hk
          subst hk
          cases hg0 : g0.nodes.find? n.target.full_path with
          | none => rfl
          | some m =>
            have := h.ext.nodes _ _ hg0
            simp only at this
            rw [hnone] at this
            cases this
      · intro k hk
        show ∃ m, (g.nodes.set n.target.full_path n).find? k = some m
        rw [SMap.find?_set]
        split
        · exact ⟨n, rfl⟩
        · rcases List.mem_append.1 hk with hk | hk
          · exact h.stored k hk
          · rename_i hne
            simp only [List.mem_singleton] at hk
            exact absurd hk.symm hne

theorem ParseNode_unlinked (w : World) (file : BuildFile) (file_node : Json) (key : String)
    (node : Node) (subnodes : List Node) (file1 : BuildFile)
    (hs : ParseNode w file file_node key = .ok (node, subnodes, file1)) :
    node.dependency_nodes = [] ∧ ∀ n ∈ subnodes, n.dependency_nodes = [] := by
  unfold ParseNode at hs
  simp only at hs
  split at hs
  · cases hs
  · split at hs
    · cases hs
    · split at hs
      · cases hs
      · cases hs
        refine ⟨rfl, ?_⟩
        intro n hn
        obtain ⟨s, _, e⟩ := List.mem_map.1 hn
        rw [← e]
        rfl

theorem ParseSingleNode_inv (w : World) (g0 : Graph) (filename : String) (file_node : Json)
    (key : String) (st st1 : Graph × List NodePtr) (h : Inv g0 st)
    (hs : ParseSingleNode w filename file_node key st = .ok st1) : Inv g0 st1 := by
  unfold ParseSingleNode at hs
  split at hs
  · cases hs
  · rename_i node subnodes file hp
    refine saveNodes_inv g0 _ _ _ ?_ (h.inv_setFile _ _) hs
    obtain ⟨hnode, hsub⟩ := ParseNode_unlinked w _ _ _ _ _ _ hp
    intro n hn
    rcases List.mem_append.1 hn with hn | hn
    · exact hsub n hn
    · simp only [List.mem_singleton] at hn
      exact hn ▸ hnode

theorem firstPassKeys_inv (w : World) (g0 : Graph) (filename : String) (file_node : Json)
    (keys : List String) (st st1 : Graph × List NodePtr) (h : Inv g0 st)
    (hs : firstPassKeys w filename file_node keys st = .ok st1) : Inv g0 st1 := by
  induction keys generalizing st with
  | nil =>
    simp only [firstPassKeys] at hs
    cases hs
    exact h
  | cons key keys ih =>
    simp only [firstPassKeys] at hs
    split at hs
    · split at hs
      · cases hs
      · rename_i st2 hp
        exact ih _ (ParseSingleNode_inv w g0 _ _ _ _ _ h hp) hs
    · exact ih _ h hs

theorem firstPass_inv (w : World) (g0 : Graph) (filename : String)
    (objs : List Json) (st st1 : Graph × List NodePtr) (h : Inv g0 st)
    (hs : firstPass w filename objs st = .ok st1) : Inv g0 st1 := by
  induction objs generalizing st with
  | nil =>
    simp only [firstPass] at hs
    cases hs
    exact h
  | cons o objs ih =>
    simp only [firstPass] at hs
    split at hs
    · cases hs
    · split at hs
      · cases hs
      · rename_i st2 hp
        exact ih _ (firstPassKeys_inv w g0 _ _ _ _ _ h hp) hs

theorem secondPassKeys_inv (w : World) (g0 : Graph) (filename : String) (file_node : Json)
    (keys : List String) (st st1 : Graph × List NodePtr) (h : Inv g0 st)
    (hs : secondPassKeys w filename file_node keys st = .ok st1) : Inv g0 st1 := by
  induction keys generalizing st with
  | nil =>
    simp only [secondPassKeys] at hs
    cases hs
    exact h
  | cons key keys ih =>
    simp only [secondPassKeys] at hs
    split at hs
    · split at hs
      · cases hs
      · rename_i st2 hp
        exact ih _ (ParseSingleNode_inv w g0 _ _ _ _ _ h hp) hs
    · exact ih _ h hs

theorem ExpandPlugin_ext (w : World) (g : Graph) (filename : String) (file_node : Json)
    (key : String) (r : Bool × Graph × Json)
    (hs : ExpandPlugin w g filename file_node key = .ok r) : Ext g r.2.1 := by
  unfold ExpandPlugin at hs
  simp only at hs
  split at hs
  · cases hs
    exact Ext.refl g
  · split at hs
    · cases hs
    · cases hs
      exact Ext.ext_setFile _ _ _

theorem scanPlugins_ext (w : World) (filename : String) (keys : List String)
    (st : Graph × Json) (r : Bool × Graph × Json)
    (hs : scanPlugins w filename keys st = .ok r) : Ext st.1 r.2.1 := by
  induction keys generalizing st with
  | nil =>
    obtain ⟨g, o⟩ := st
    simp only [scanPlugins] at hs
    cases hs
    exact Ext.refl _
  | cons key keys ih =>
    obtain ⟨g, o⟩ := st
    simp only [scanPlugins] at hs
    split at hs
    · cases hs
    · rename_i g1 o1 he
      cases hs
      exact ExpandPlugin_ext w g filename o key _ he
    · rename_i g1 o1 he
      exact (ExpandPlugin_ext w g filename o key _ he).trans (ih _ hs)

theorem expandPlugins_ext (w : World) (filename : String) (fuel : Nat)
    (st st1 : Graph × Json)
    (hs : expandPlugins w filename fuel st = .ok st1) : Ext st.1 st1.1 := by
  induction fuel generalizing st with
  | zero =>
    simp only [expandPlugins] at hs
    cases hs
  | succ fuel ih =>
    obtain ⟨g, o⟩ := st
    simp only [expandPlugins] at hs
    split at hs
    · cases hs
    · rename_i g1 o1 he
      exact (scanPlugins_ext w filename _ _ _ he).trans (ih _ hs)
    · rename_i g1 o1 he
      cases hs
      exact scanPlugins_ext w filename _ _ _ he

theorem secondPass_inv (w : World) (g0 : Graph) (filename : String) (fuel : Nat)
    (objs : List Json) (st st1 : Graph × List NodePtr) (h : Inv g0 st)
    (hs : secondPass w filename fuel objs st = .ok st1) : Inv g0 st1 := by
  induction objs generalizing st with
  | nil =>
    simp only [secondPass] at hs
    cases hs
    exact h
  | cons o objs ih =>
    obtain ⟨g, all⟩ := st
    simp only [secondPass] at hs
    split at hs
    · cases hs
    · rename_i g1 o1 he
      split at hs
      · cases hs
      · rename_i st2 hp
        have h1 : Inv g0 (g1, all) := h.ofExt (expandPlugins_ext w filename fuel _ _ he)
        exact ih _ (secondPassKeys_inv w g0 _ _ _ _ _ h1 hp) hs

theorem preParseTargets_ext (w : World) (addFile : String → Graph → Except Err Graph)
    (hadd : ∀ f g g1, addFile f g = .ok g1 → Ext g g1) (filename : String)
    (ts : List TargetInfo) (g g1 : Graph)
    (hs : preParseTargets w addFile filename ts g = .ok g1) : Ext g g1 := by
  induction ts generalizing g with
  | nil =>
    simp only [preParseTargets] at hs
    cases hs
    exact Ext.refl _
  | cons t ts ih =>
    simp only [preParseTargets] at hs
    split at hs
    · cases hs
    · rename_i g2 ha
      exact ((hadd _ _ _ ha).trans (Ext.ext_setFile _ _ _)).trans (ih _ hs)

theorem preParse_ext (w : World) (addFile : String → Graph → Except Err Graph)
    (hadd : ∀ f g g1, addFile f g = .ok g1 → Ext g g1) (filename : String)
    (ns : List NodePtr) (g g1 : Graph)
    (hs : preParse w addFile filename ns g = .ok g1) : Ext g g1 := by
  induction ns generalizing g with
  | nil =>
    simp only [preParse] at hs
    cases hs
    exact Ext.refl _
  | cons n ns ih =>
    simp only [preParse] at hs
    split at hs
    · cases hs
    · split at hs
      · cases hs
      · rename_i g2 ha
        exact (preParseTargets_ext w addFile hadd filename _ _ _ ha).trans (ih _ hs)

theorem ProcessParent_ext (w : World) (inp : Input) (addFile : String → Graph → Except Err Graph)
    (hadd : ∀ f g g1, addFile f g = .ok g1 → Ext g g1) (child : String) (fuel : Nat)
    (current : String) (g g1 : Graph)
    (hs : ProcessParent w inp addFile child fuel current g = .ok g1) : Ext g g1 := by
  induction fuel generalizing current g with
  | zero =>
    simp only [ProcessParent] at hs
    cases hs
  | succ fuel ih =>
    simp only [ProcessParent] at hs
    split at hs
    · cases hs
      exact Ext.refl _
    · split at hs
      · cases hs
      · rename_i g2 ha
        exact ((hadd _ _ _ ha).trans (Ext.ext_setFile _ _ _)).trans (ih _ _ hs)

theorem find?_wireNodes_of_not_mem (dep : String) (base : TargetInfo) (all : List NodePtr)
    (nodes : SMap Node) (k : String) (hk : k ∉ all) :
    (wireNodes dep base all nodes).find? k = nodes.find? k := by
  induction all generalizing nodes with
  | nil => rfl
  | cons n rest ih =>
    simp only [List.mem_cons, not_or] at hk
    simp only [wireNodes]
    rw [ih _ hk.2]
    split
    · rw [SMap.find?_modify]
      have : ¬ n = k := fun e => hk.1 e.symm
      simp [this]
    · rfl

theorem Node.target_AddDependencyTarget (n : Node) (t : TargetInfo) :
    (n.AddDependencyTarget t).target = n.target := by
  unfold Node.AddDependencyTarget
  split <;> rfl

theorem Node.dependency_nodes_AddDependencyTarget (n : Node) (t : TargetInfo) :
    (n.AddDependencyTarget t).dependency_nodes = n.dependency_nodes := by
  unfold Node.AddDependencyTarget
  split <;> rfl

theorem Unlinked.unlinked_wireNodes (dep : String) (base : TargetInfo) (all : List NodePtr)
    (nodes : SMap Node) (h : Unlinked nodes) : Unlinked (wireNodes dep base all nodes) := by
  induction all generalizing nodes with
  | nil => exact h
  | cons n rest ih =>
    simp only [repobuild.wireNodes]
    apply ih
    split
    · exact h.unlinked_modify _ _ (fun m => Node.dependency_nodes_AddDependencyTarget m base)
    · exact h

theorem KeyOk.keyOk_wireNodes (dep : String) (base : TargetInfo) (all : List NodePtr)
    (nodes : SMap Node) (h : KeyOk nodes) : KeyOk (wireNodes dep base all nodes) := by
  induction all generalizing nodes with
  | nil => exact h
  | cons n rest ih =>
    simp only [repobuild.wireNodes]
    apply ih
    split
    · exact h.keyOk_modify _ _ (fun m => Node.target_AddDependencyTarget m base)
    · exact h

theorem keys_wireNodes (dep : String) (base : TargetInfo) (all : List NodePtr)
    (nodes : SMap Node) : (wireNodes dep base all nodes).keys = nodes.keys := by
  induction all generalizing nodes with
  | nil => rfl
  | cons n rest ih =>
    simp only [wireNodes]
    rw [ih]
    split
    · exact SMap.keys_modify _ _ _
    · rfl

theorem wireBaseDeps_ext (g0 : Graph) (all : List NodePtr) (deps : List String) (g g1 : Graph)
    (h : Inv g0 (g, all)) (hs : wireBaseDeps all deps g = .ok g1) : Ext g0 g1 := by
  induction deps generalizing g with
  | nil =>
    simp only [wireBaseDeps] at hs
    cases hs
    exact h.ext
  | cons d deps ih =>
    simp only [wireBaseDeps] at hs
    split at hs
    · cases hs
    · rename_i base hb
      refine ih _ ?_ hs
      refine ⟨⟨?_, h.ext.queued, h.ext.queue, h.ext.inputs,
        fun hk => (h.ext.keyOk hk).keyOk_wireNodes _ _ _ _,
        fun hu => (h.ext.unlinked hu).unlinked_wireNodes _ _ _ _⟩, h.fresh, ?_⟩
      intro k n hk
      show (wireNodes d base.target all g.nodes).find? k = some n
      rw [find?_wireNodes_of_not_mem]
      · exact h.ext.nodes k n hk
      · intro hmem
        rw [h.fresh k hmem] at hk
        cases hk
      · intro k hk
        obtain ⟨n, hn⟩ := h.stored k hk
        have hkeys : k ∈ SMap.keys (wireNodes d base.target all g.nodes) := by
          rw [keys_wireNodes]
          exact (SMap.mem_keys_iff _ _).2 ⟨n, hn⟩
        exact (SMap.mem_keys_iff _ _).1 hkeys

theorem loadFile_inv (w : World) (inp : Input) (addFile : String → Graph → Except Err Graph)
    (hadd : ∀ f g g1, addFile f g = .ok g1 → Ext g g1) (fuel : Nat) (filename : String)
    (g : Graph) (st : Graph × List NodePtr)
    (hs : loadFile w inp addFile fuel filename g = .ok st) : Inv g st := by
  unfold loadFile at hs
  split at hs
  · cases hs
  · rename_i ga hpp
    split at hs
    · cases hs
    · rename_i objs hread
      split at hs
      · cases hs
      · rename_i gb nodes hfp
        split at hs
        · cases hs
        · rename_i gc hpre
          have e1 : Ext g ga :=
            (Ext.ext_setFile g filename _).trans (ProcessParent_ext w inp _ hadd _ _ _ _ _ hpp)
          have i1 : Inv g (ga, []) := ⟨e1, fun k hk => (by cases hk), fun k hk => (by cases hk)⟩
          have i2 : Inv g (gb, nodes) := firstPass_inv w g filename objs _ _ i1 hfp
          have i3 : Inv g (gc, nodes) := i2.ofExt (preParse_ext w _ hadd filename _ _ _ hpre)
          exact secondPass_inv w g filename fuel objs _ _ i3 hs

theorem AddFile_ext (w : World) (inp : Input) (fuel : Nat) :
    ∀ (filename : String) (g g1 : Graph), AddFile w inp fuel filename g = .ok g1 → Ext g g1 := by
  induction fuel with
  | zero =>
    intro filename g g1 hs
    simp only [AddFile] at hs
    cases hs
  | succ fuel ih =>
    intro filename g g1 hs
    simp only [AddFile] at hs
    split at hs
    · cases hs
      exact Ext.refl g
    · split at hs
      · cases hs
      · rename_i gd nodes1 hload
        exact wireBaseDeps_ext g nodes1 _ gd g1 (loadFile_inv w inp _ ih fuel filename g _ hload) hs

/-! ## Theorems: the loop over the queue -/

theorem Reach.mono {inp : Input} {nodes nodes1 : SMap Node}
    (h : ∀ k n, nodes.find? k = some n → nodes1.find? k = some n) {p : String}
    (hr : Reach inp nodes p) : Reach inp nodes1 p := by
  induction hr with
  | root t ht => exact Reach.root t ht
  | dep p n t _ hn ht ih => exact Reach.dep p n t ih (h p n hn) ht
  | parent p n t _ hn ht ih => exact Reach.parent p n t ih (h p n hn) ht

theorem enqueue_spec (l : List TargetInfo) (g : Graph) :
    (enqueue l g).nodes = g.nodes ∧ (enqueue l g).build_files = g.build_files ∧
    (enqueue l g).inputs = g.inputs ∧
    ∃ new : List String, (enqueue l g).to_process = g.to_process ++ new ∧
      (∀ p ∈ new, ∃ t ∈ l, t.full_path = p) ∧
      (∀ p ∈ (enqueue l g).already_queued, p ∈ g.already_queued ∨ p ∈ new) ∧
      (∀ t ∈ l, t.full_path ∈ (enqueue l g).already_queued) ∧
      (∀ p ∈ g.already_queued, p ∈ (enqueue l g).already_queued) := by
  induction l generalizing g with
  | nil =>
    refine ⟨rfl, rfl, rfl, [], by simp [enqueue], ?_, ?_, ?_, ?_⟩
    · intro p hp; cases hp
    · intro p hp; exact Or.inl hp
    · intro t ht; cases ht
    · intro p hp; exact hp
  | cons d rest ih =>
    simp only [enqueue]
    by_cases hd : d.full_path ∈ g.already_queued
    · simp only [hd, if_true]
      obtain ⟨h1, h2, h3, new, h4, h5, h6, h7, h8⟩ := ih g
      refine ⟨h1, h2, h3, new, h4, ?_, h6, ?_, h8⟩
      · intro p hp
        obtain ⟨t, ht, e⟩ := h5 p hp
        exact ⟨t, List.mem_cons_of_mem _ ht, e⟩
      · intro t ht
        rcases List.mem_cons.1 ht with e | ht
        · subst e; exact h8 _ hd
        · exact h7 t ht
    · simp only [hd, if_false]
      obtain ⟨h1, h2, h3, new, h4, h5, h6, h7, h8⟩ :=
        ih { g with already_queued := g.already_queued.insert d.full_path
                    to_process := g.to_process ++ [d.full_path] }
      refine ⟨h1, h2, h3, d.full_path :: new, ?_, ?_, ?_, ?_, ?_⟩
      · rw [h4]; simp
      · intro p hp
        rcases List.mem_cons.1 hp with e | hp
        · exact ⟨d, List.mem_cons_self _ _, e.symm⟩
        · obtain ⟨t, ht, e⟩ := h5 p hp
          exact ⟨t, List.mem_cons_of_mem _ ht, e⟩
      · intro p hp
        rcases h6 p hp with hq | hq
        · rcases (SSet.mem_insert _ _ _).1 hq with hq | hq
          · exact Or.inl hq
          · exact Or.inr (hq ▸ List.mem_cons_self _ _)
        · exact Or.inr (List.mem_cons_of_mem _ hq)
      · intro t ht
        rcases List.mem_cons.1 ht with e | ht
        · subst e
          exact h8 _ ((SSet.mem_insert _ _ _).2 (Or.inr rfl))
        · exact h7 t ht
      · intro p hp
        exact h8 _ ((SSet.mem_insert _ _ _).2 (Or.inl hp))

theorem ProcessTarget_spec (w : World) (inp : Input) (fuel : Nat) (key : String) (g g2 : Graph)
    (hs : ProcessTarget w inp fuel key g = .ok g2) :
    ∃ g1 n, Ext g g1 ∧ g1.nodes.find? key = some n ∧ g2.nodes = g1.nodes ∧
      g2.build_files = g1.build_files ∧
      ∃ new : List String, g2.to_process = g.to_process ++ new ∧
        (∀ p ∈ new, ∃ t, (t ∈ n.dep_targets ∨ t ∈ n.required_parents) ∧ t.full_path = p) ∧
        (∀ p ∈ g2.already_queued, p ∈ g.already_queued ∨ p ∈ new) ∧
        (∀ t, t ∈ n.dep_targets ∨ t ∈ n.required_parents → t.full_path ∈ g2.already_queued) := by
  unfold ProcessTarget at hs
  simp only at hs
  split at hs
  · cases hs
  · rename_i g1 ha
    have hext := AddFile_ext w inp fuel _ _ _ ha
    unfold ExpandTarget at hs
    split at hs
    · cases hs
    · rename_i n hn
      cases hs
      obtain ⟨a1, a2, _, newa, a4, a5, a6, a7, a8⟩ := enqueue_spec n.dep_targets g1
      obtain ⟨b1, b2, _, newb, b4, b5, b6, b7, b8⟩ :=
        enqueue_spec n.required_parents (enqueue n.dep_targets g1)
      refine ⟨g1, n, hext, hn, b1.trans a1, b2.trans a2, newa ++ newb, ?_, ?_, ?_, ?_⟩
      · rw [b4, a4, hext.queue, List.append_assoc]
      · intro p hp
        rcases List.mem_append.1 hp with hp | hp
        · obtain ⟨t, ht, e⟩ := a5 p hp
          exact ⟨t, Or.inl ht, e⟩
        · obtain ⟨t, ht, e⟩ := b5 p hp
          exact ⟨t, Or.inr ht, e⟩
      · intro p hp
        rcases b6 p hp with hq | hq
        · rcases a6 p hq with hq | hq
          · exact Or.inl (hext.queued ▸ hq)
          · exact Or.inr (List.mem_append_left _ hq)
        · exact Or.inr (List.mem_append_right _ hq)
      · intro t ht
        rcases ht with ht | ht
        · exact b8 _ (a7 t ht)
        · exact b7 t ht

theorem bfs_step_inv (w : World) (inp : Input) (fuel : Nat) (processed : SSet) (g g2 : Graph)
    (key : String) (rest : List String) (hq : g.to_process = key :: rest)
    (h : BfsInv inp (processed, g)) (hs : ProcessTarget w inp fuel key g = .ok g2) :
    BfsInv inp (processed.insert key, { g2 with to_process := g2.to_process.tail }) := by
  obtain ⟨g1, n, hext, hn, hnodes, _, new, hnew, hnewmem, hqd, hall⟩ :=
    ProcessTarget_spec w inp fuel key g g2 hs
  have htail : g2.to_process.tail = rest ++ new := by rw [hnew, hq]; rfl
  have hold : ∀ p, p ∈ processed ∨ p ∈ g.to_process →
      p ∈ processed.insert key ∨ p ∈ rest ++ new := by
    intro p hp
    rcases hp with hp | hp
    · exact Or.inl ((SSet.mem_insert _ _ _).2 (Or.inl hp))
    · rw [hq] at hp
      rcases List.mem_cons.1 hp with e | hp
      · exact Or.inl ((SSet.mem_insert _ _ _).2 (Or.inr e))
      · exact Or.inr (List.mem_append_left _ hp)
  have hedge : ∀ t, t ∈ n.dep_targets ∨ t ∈ n.required_parents →
      t.full_path ∈ processed.insert key ∨ t.full_path ∈ rest ++ new := by
    intro t ht
    rcases hqd _ (hall t ht) with hp | hp
    · exact hold _ (h.queued _ hp)
    · exact Or.inr (List.mem_append_right _ hp)
  have hkeyReach : Reach inp g2.nodes key := by
    rw [hnodes]
    exact Reach.mono hext.nodes (h.sound key (Or.inr (by rw [hq]; exact List.mem_cons_self _ _)))
  constructor
  · intro t ht
    show _ ∨ t.full_path ∈ g2.to_process.tail
    rw [htail]
    exact hold _ (h.roots t ht)
  · intro p hp
    show _ ∨ p ∈ g2.to_process.tail
    rw [htail]
    rcases hqd p hp with hp | hp
    · exact hold _ (h.queued _ hp)
    · exact Or.inr (List.mem_append_right _ hp)
  · intro p hp
    show ∃ m, g2.nodes.find? p = some m ∧
      (∀ t ∈ m.dep_targets, _ ∨ t.full_path ∈ g2.to_process.tail) ∧
      (∀ t ∈ m.required_parents, _ ∨ t.full_path ∈ g2.to_process.tail)
    rw [htail, hnodes]
    rcases (SSet.mem_insert _ _ _).1 hp with hp | hp
    · obtain ⟨m, hm, hd, hr⟩ := h.closed p hp
      exact ⟨m, hext.nodes p m hm, fun t ht => hold _ (hd t ht), fun t ht => hold _ (hr t ht)⟩
    · subst hp
      exact ⟨n, hn, fun t ht => hedge t (Or.inl ht), fun t ht => hedge t (Or.inr ht)⟩
  · intro p hp
    show Reach inp g2.nodes p
    have hp1 : p ∈ processed.insert key ∨ p ∈ rest ++ new := by
      rcases hp with hp | hp
      · exact Or.inl hp
      · exact Or.inr (htail ▸ hp)
    have hcases : (p ∈ processed ∨ p ∈ g.to_process) ∨ p ∈ new := by
      rcases hp1 with hp | hp
      · rcases (SSet.mem_insert _ _ _).1 hp with hp | hp
        · exact Or.inl (Or.inl hp)
        · exact Or.inl (Or.inr (by rw [hq, hp]; exact List.mem_cons_self _ _))
      · rcases List.mem_append.1 hp with hp | hp
        · exact Or.inl (Or.inr (by rw [hq]; exact List.mem_cons_of_mem _ hp))
        · exact Or.inr hp
    rcases hcases with hp | hp
    · rw [hnodes]
      exact Reach.mono hext.nodes (h.sound p hp)
    · obtain ⟨t, ht, e⟩ := hnewmem p hp
      subst e
      rcases ht with ht | ht
      · exact Reach.dep key n t hkeyReach (hnodes ▸ hn) ht
      · exact Reach.parent key n t hkeyReach (hnodes ▸ hn) ht
  · show KeyOk g2.nodes
    rw [hnodes]
    exact hext.keyOk h.keyOk
  · show Unlinked g2.nodes
    rw [hnodes]
    exact hext.unlinked h.unlinked

theorem bfs_inv (w : World) (inp : Input) (fuel : Nat) (st st1 : SSet × Graph)
    (h : BfsInv inp st) (hs : bfs w inp fuel st = .ok st1) :
    BfsInv inp st1 ∧ st1.2.to_process = [] := by
  induction fuel generalizing st with
  | zero =>
    simp only [bfs] at hs
    cases hs
  | succ fuel ih =>
    obtain ⟨processed, g⟩ := st
    simp only [bfs] at hs
    split at hs
    · rename_i hq
      cases hs
      exact ⟨h, hq⟩
    · rename_i key rest hq
      split at hs
      · cases hs
      · rename_i g2 hp
        exact ih _ (bfs_step_inv w inp fuel processed g g2 key rest hq h hp) hs

theorem seed_spec (l : List TargetInfo) (st : SSet × List String) :
    (∀ p ∈ (seed l st).2, p ∈ st.2 ∨ ∃ t ∈ l, t.full_path = p) ∧
    (∀ p ∈ st.2, p ∈ (seed l st).2) ∧
    ((∀ p ∈ st.1, p ∈ st.2) → ∀ t ∈ l, t.full_path ∈ (seed l st).2) := by
  induction l generalizing st with
  | nil =>
    obtain ⟨q, tp⟩ := st
    refine ⟨fun p hp => Or.inl hp, fun p hp => hp, fun _ t ht => by cases ht⟩
  | cons d rest ih =>
    obtain ⟨q, tp⟩ := st
    simp only [seed]
    by_cases hd : d.full_path ∈ q
    · simp only [hd, if_true]
      obtain ⟨h1, h2, h3⟩ := ih (q, tp)
      refine ⟨?_, h2, ?_⟩
      · intro p hp
        rcases h1 p hp with hp | ⟨t, ht, e⟩
        · exact Or.inl hp
        · exact Or.inr ⟨t, List.mem_cons_of_mem _ ht, e⟩
      · intro hsub t ht
        rcases List.mem_cons.1 ht with e | ht
        · subst e
          exact h2 _ (hsub _ hd)
        · exact h3 hsub t ht
    · simp only [hd, if_false]
      obtain ⟨h1, h2, h3⟩ := ih (q.insert d.full_path, tp ++ [d.full_path])
      refine ⟨?_, ?_, ?_⟩
      · intro p hp
        rcases h1 p hp with hp | ⟨t, ht, e⟩
        · rcases List.mem_append.1 hp with hp | hp
          · exact Or.inl hp
          · simp only [List.mem_singleton] at hp
            exact Or.inr ⟨d, List.mem_cons_self _ _, hp.symm⟩
        · exact Or.inr ⟨t, List.mem_cons_of_mem _ ht, e⟩
      · intro p hp
        exact h2 _ (List.mem_append_left _ hp)
      · intro hsub t ht
        have hsub1 : ∀ p ∈ q.insert d.full_path, p ∈ tp ++ [d.full_path] := by
          intro p hp
          rcases (SSet.mem_insert _ _ _).1 hp with hp | hp
          · exact List.mem_append_left _ (hsub p hp)
          · exact List.mem_append_right _ (by simp [hp])
        rcases List.mem_cons.1 ht with e | ht
        · subst e
          exact h2 _ (List.mem_append_right _ (by simp))
        · exact h3 hsub1 t ht

theorem BfsInv.init (inp : Input) :
    BfsInv inp ([], { Graph.empty with to_process := (seed inp.build_targets ([], [])).2 }) := by
  obtain ⟨h1, _, h3⟩ := seed_spec inp.build_targets ([], [])
  constructor
  · intro t ht
    exact Or.inr (h3 (fun p hp => by cases hp) t ht)
  · intro p hp
    cases hp
  · intro p hp
    cases hp
  · intro p hp
    rcases hp with hp | hp
    · cases hp
    · rcases h1 p hp with hp | ⟨t, ht, e⟩
      · cases hp
      · subst e
        exact Reach.root t ht
  · intro k n hk
    simp [Graph.empty, SMap.find?] at hk
  · intro k n hk
    simp [Graph.empty, SMap.find?] at hk

/-- The outcome of the loop over the queue: the processed targets are exactly the closure of the
user targets in the node map the loop leaves, and each of them has a node. -/
theorem bfs_closure (w : World) (inp : Input) (fuel : Nat) (processed : SSet) (g : Graph)
    (hs : Graph.loop w inp fuel = .ok (processed, g)) :
    KeyOk g.nodes ∧ Unlinked g.nodes ∧ (∀ p, p ∈ processed ↔ Reach inp g.nodes p) ∧
    (∀ p ∈ processed, ∃ n, g.nodes.find? p = some n) := by
  unfold Graph.loop at hs
  obtain ⟨hinv, hq⟩ := bfs_inv w inp fuel _ _ (BfsInv.init inp) hs
  simp only at hq
  have hmem : ∀ p, p ∈ processed ∨ p ∈ g.to_process → p ∈ processed := by
    intro p hp
    rcases hp with hp | hp
    · exact hp
    · rw [hq] at hp
      cases hp
  refine ⟨hinv.keyOk, hinv.unlinked, ?_, ?_⟩
  · intro p
    constructor
    · intro hp
      exact hinv.sound p (Or.inl hp)
    · intro hr
      induction hr with
      | root t ht => exact hmem _ (hinv.roots t ht)
      | dep p n t _ hn ht ih =>
        obtain ⟨m, hm, hd, _⟩ := hinv.closed p ih
        simp only at hm
        rw [hn] at hm
        cases hm
        exact hmem _ (hd t ht)
      | parent p n t _ hn ht ih =>
        obtain ⟨m, hm, _, hr⟩ := hinv.closed p ih
        simp only at hm
        rw [hn] at hm
        cases hm
        exact hmem _ (hr t ht)
  · intro p hp
    obtain ⟨m, hm, _, _⟩ := hinv.closed p hp
    exact ⟨m, hm⟩

/-! ## Theorems: pruning, linking, classification -/

theorem prune_spec (nodes : SMap Node) (keys : List String) (copy copy1 : SMap Node)
    (hs : prune nodes keys copy = .ok copy1) :
    (∀ k, copy1.find? k = if k ∈ keys then nodes.find? k else copy.find? k) ∧
    (copy.keys.Nodup → copy1.keys.Nodup) := by
  induction keys generalizing copy with
  | nil =>
    simp only [prune] at hs
    cases hs
    exact ⟨fun k => by simp, fun h => h⟩
  | cons key rest ih =>
    simp only [prune] at hs
    split at hs
    · cases hs
    · rename_i node hn
      obtain ⟨h1, h2⟩ := ih _ hs
      refine ⟨?_, fun h => h2 (SMap.nodup_keys_set _ _ _ h)⟩
      intro k
      rw [h1 k, SMap.find?_set]
      by_cases hk : k ∈ rest
      · simp [hk]
      · by_cases e : key = k
        · subst e
          simp [hk, hn]
        · have e1 : ¬ k = key := fun h => e h.symm
          simp [hk, e, e1]

theorem Node.addDeps_nil (n : Node) : n.addDeps [] = n := by
  cases n
  simp [Node.addDeps]

theorem Node.addDeps_addDeps (n : Node) (a b : List NodePtr) :
    (n.addDeps a).addDeps b = n.addDeps (a ++ b) := by
  simp [Node.addDeps]

theorem linkNode_spec (key : String) (ts : List TargetInfo) (nodes nodes1 : SMap Node)
    (hs : linkNode key ts nodes = .ok nodes1) :
    nodes1.keys = nodes.keys ∧
    (∀ k, nodes1.find? k =
      if key = k then (nodes.find? k).map (fun n => n.addDeps (ts.map TargetInfo.full_path))
      else nodes.find? k) ∧
    (∀ t ∈ ts, t.full_path ∈ nodes.keys) := by
  induction ts generalizing nodes with
  | nil =>
    simp only [linkNode] at hs
    cases hs
    refine ⟨rfl, ?_, fun t ht => by cases ht⟩
    intro k
    split
    · cases h : SMap.find? nodes1 k <;> simp [Node.addDeps_nil]
    · rfl
  | cons t rest ih =>
    simp only [linkNode] at hs
    split at hs
    · rename_i hc
      obtain ⟨h1, h2, h3⟩ := ih _ hs
      rw [SMap.keys_modify] at h1 h3
      refine ⟨h1, ?_, ?_⟩
      · intro k
        rw [h2 k, SMap.find?_modify]
        split
        · cases h : SMap.find? nodes k with
          | none => simp
          | some n =>
            simp only [Option.map_some', List.map_cons]
            rw [show n.AddDependencyNode t.full_path = n.addDeps [t.full_path] from rfl,
              Node.addDeps_addDeps]
            rfl
        · rfl
      · intro t1 ht1
        rcases List.mem_cons.1 ht1 with e | ht1
        · subst e
          exact (SMap.contains_iff _ _).1 hc
        · exact h3 t1 ht1
    · cases hs

theorem link_spec (es : SMap Node) (nodes nodes1 : SMap Node) (hnd : es.keys.Nodup)
    (hs : link es nodes = .ok nodes1) :
    nodes1.keys = nodes.keys ∧
    (∀ k, nodes1.find? k =
      match es.find? k with
      | some n => (nodes.find? k).map (fun m => m.addDeps (n.dep_targets.map TargetInfo.full_path))
      | none => nodes.find? k) ∧
    (∀ k n, es.find? k = some n → ∀ t ∈ n.dep_targets, t.full_path ∈ nodes.keys) := by
  induction es generalizing nodes with
  | nil =>
    simp only [link] at hs
    cases hs
    exact ⟨rfl, fun k => rfl, fun k n h => by simp [SMap.find?] at h⟩
  | cons e rest ih =>
    obtain ⟨key, node⟩ := e
    simp only [link] at hs
    split at hs
    · cases hs
    · rename_i nodes2 hl
      simp only [SMap.keys, List.map_cons, List.nodup_cons] at hnd
      obtain ⟨l1, l2, l3⟩ := linkNode_spec key node.dep_targets nodes nodes2 hl
      obtain ⟨h1, h2, h3⟩ := ih nodes2 hnd.2 hs
      have hrest : ∀ k, key = k → SMap.find? rest k = none := by
        intro k e
        subst e
        cases hf : SMap.find? rest key with
        | none => rfl
        | some v => exact absurd ((SMap.mem_keys_iff rest key).2 ⟨v, hf⟩) hnd.1
      refine ⟨h1.trans l1, ?_, ?_⟩
      · intro k
        rw [h2 k, l2 k]
        by_cases e : key = k
        · simp [SMap.find?, e, hrest k e]
        · simp [SMap.find?, e]
      · intro k n hk t ht
        by_cases e : key = k
        · simp [SMap.find?, e] at hk
          subst hk
          exact l3 t ht
        · simp [SMap.find?, e] at hk
          have := h3 k n hk t ht
          rwa [l1] at this

theorem SMap.nodup_keys_iter {β : Type} (m : SMap β) (h : m.keys.Nodup) :
    (SMap.keys (SMap.iter m)).Nodup :=
  ((SMap.iter_perm m).map Prod.fst).nodup_iff.2 h

theorem SMap.find?_iter {β : Type} (m : SMap β) (h : m.keys.Nodup) (k : String) :
    SMap.find? (SMap.iter m) k = m.find? k := by
  have hi := SMap.nodup_keys_iter m h
  cases hf : m.find? k with
  | none =>
    cases hg : SMap.find? (SMap.iter m) k with
    | none => rfl
    | some v =>
      have := SMap.find?_of_mem m h k v ((SMap.mem_iter m _).1 (SMap.mem_of_find? _ _ _ hg))
      rw [hf] at this
      cases this
  | some v =>
    exact SMap.find?_of_mem _ hi k v ((SMap.mem_iter m _).2 (SMap.mem_of_find? _ _ _ hf))

theorem classify_spec (inp : Input) (nodes : SMap Node) (fuel : Nat)
    (es : List (String × Node)) (acc r : List NodePtr)
    (hs : classify inp nodes fuel es acc = .ok r) :
    (∀ k, k ∈ r ↔ k ∈ acc ∨ ∃ n, (k, n) ∈ es ∧ UserInputHasTarget inp nodes fuel n = .ok true) ∧
    (∀ e ∈ es, ∃ b, UserInputHasTarget inp nodes fuel e.2 = .ok b) := by
  induction es generalizing acc with
  | nil =>
    simp only [classify] at hs
    cases hs
    exact ⟨fun k => by simp, fun e he => by cases he⟩
  | cons e rest ih =>
    obtain ⟨key, node⟩ := e
    simp only [classify] at hs
    split at hs
    · cases hs
    · rename_i b hb
      obtain ⟨h1, h2⟩ := ih _ hs
      constructor
      · intro k
        rw [h1 k]
        constructor
        · rintro (hk | ⟨n, hn, hu⟩)
          · cases b with
            | false => exact Or.inl (by simpa using hk)
            | true =>
              simp only [if_true, List.mem_append, List.mem_singleton] at hk
              rcases hk with hk | hk
              · exact Or.inl hk
              · subst hk
                exact Or.inr ⟨node, List.mem_cons_self _ _, hb⟩
          · exact Or.inr ⟨n, List.mem_cons_of_mem _ hn, hu⟩
        · rintro (hk | ⟨n, hn, hu⟩)
          · left
            cases b <;> simp [hk]
          · rcases List.mem_cons.1 hn with e | hn
            · cases e
              rw [hb] at hu
              cases hu
              left
              simp
            · exact Or.inr ⟨n, hn, hu⟩
      · intro e he
        rcases List.mem_cons.1 he with e1 | he
        · subst e1
          exact ⟨b, hb⟩
        · exact h2 e he

/-- The phases of a successful Graph::Parse. -/
theorem Graph.Parse_phases (w : World) (inp : Input) (fuel : Nat) (g1 : Graph)
    (hs : Graph.Parse w inp fuel = .ok g1) :
    ∃ processed g copy,
      Graph.loop w inp fuel = .ok (processed, g) ∧
      prune g.nodes (SSet.iter processed) [] = .ok copy ∧
      link (SMap.iter copy) copy = .ok g1.nodes ∧
      classify inp g1.nodes fuel (SMap.iter g1.nodes) [] = .ok g1.inputs ∧
      postParse w (SMap.iter g1.nodes) = .ok () ∧
      g1.build_files = g.build_files := by
  unfold Graph.Parse at hs
  split at hs
  · cases hs
  · rename_i processed g hb
    split at hs
    · cases hs
    · rename_i copy hp
      split at hs
      · cases hs
      · rename_i nodes hl
        split at hs
        · cases hs
        · rename_i inputs hc
          split at hs
          · cases hs
          · rename_i hpp
            cases hs
            exact ⟨processed, g, copy, hb, hp, hl, hc, hpp, rfl⟩

/-- The node map a successful Graph::Parse leaves, in terms of the node map `nodes0` at the end
of the loop over the queue: its keys are the closure of the user targets, and each of its nodes
is the node of `nodes0` with its dependency targets resolved. -/
theorem Graph.Parse_nodes_loop (w : World) (inp : Input) (fuel : Nat) (g1 : Graph)
    (hs : Graph.Parse w inp fuel = .ok g1) (processed0 : SSet) (g0 : Graph)
    (hl0 : Graph.loop w inp fuel = .ok (processed0, g0)) :
    KeyOk g0.nodes ∧ Unlinked g0.nodes ∧ g1.nodes.keys.Nodup ∧
      (∀ p, p ∈ g1.nodes.keys ↔ Reach inp g0.nodes p) ∧
      (∀ k, g1.nodes.find? k =
        if k ∈ g1.nodes.keys then
          (g0.nodes.find? k).map (fun m => m.addDeps (m.dep_targets.map TargetInfo.full_path))
        else none) ∧
      (∀ k n, g1.nodes.find? k = some n → ∀ t ∈ n.dep_targets, t.full_path ∈ g1.nodes.keys) := by
  obtain ⟨processed, g, copy, hb, hp, hl, _, _, _⟩ := Graph.Parse_phases w inp fuel g1 hs
  rw [hl0] at hb
  cases hb
  obtain ⟨hk, hu, hreach, hex⟩ := bfs_closure w inp fuel processed0 g0 hl0
  obtain ⟨p1, p2⟩ := prune_spec _ _ _ _ hp
  have hnd : copy.keys.Nodup := p2 List.nodup_nil
  have hcopy : ∀ k, copy.find? k = if k ∈ processed0 then g0.nodes.find? k else none := by
    intro k
    rw [p1 k]
    simp [SSet.mem_iter_iff, SMap.find?]
  have hckeys : ∀ k, k ∈ copy.keys ↔ k ∈ processed0 := by
    intro k
    rw [SMap.mem_keys_iff, hcopy k]
    constructor
    · rintro ⟨v, hv⟩
      by_contra hn
      simp [hn] at hv
    · intro hk
      simpa [hk] using hex k hk
  obtain ⟨l1, l2, l3⟩ := link_spec _ _ _ (SMap.nodup_keys_iter copy hnd) hl
  have hfind : ∀ k, g1.nodes.find? k =
      (copy.find? k).map (fun m => m.addDeps (m.dep_targets.map TargetInfo.full_path)) := by
    intro k
    rw [l2 k, SMap.find?_iter copy hnd]
    cases copy.find? k <;> rfl
  refine ⟨hk, hu, l1 ▸ hnd, ?_, ?_, ?_⟩
  · intro p
    rw [l1, hckeys, hreach]
  · intro k
    rw [hfind k, l1, hcopy k]
    by_cases hk : k ∈ processed0
    · simp [hk, (hckeys k).2 hk]
    · have : k ∉ copy.keys := fun h => hk ((hckeys k).1 h)
      simp [hk, this]
  · intro k n hkn t ht
    rw [hfind k] at hkn
    cases hc : copy.find? k with
    | none => simp [hc] at hkn
    | some m =>
      simp [hc] at hkn
      subst hkn
      rw [l1]
      exact l3 k m ((SMap.find?_iter copy hnd k).trans hc) t ht

theorem Graph.Parse_nodes (w : World) (inp : Input) (fuel : Nat) (g1 : Graph)
    (hs : Graph.Parse w inp fuel = .ok g1) :
    ∃ nodes0 : SMap Node, KeyOk nodes0 ∧ Unlinked nodes0 ∧ g1.nodes.keys.Nodup ∧
      (∀ p, p ∈ g1.nodes.keys ↔ Reach inp nodes0 p) ∧
      (∀ k, g1.nodes.find? k =
        if k ∈ g1.nodes.keys then
          (nodes0.find? k).map (fun m => m.addDeps (m.dep_targets.map TargetInfo.full_path))
        else none) ∧
      (∀ k n, g1.nodes.find? k = some n → ∀ t ∈ n.dep_targets, t.full_path ∈ g1.nodes.keys) := by
  obtain ⟨processed, g, _, hb, _⟩ := Graph.Parse_phases w inp fuel g1 hs
  exact ⟨g.nodes, Graph.Parse_nodes_loop w inp fuel g1 hs processed g hb⟩

/-! ## Theorems: the node map of a successful parse -/

theorem Parser.Parse_graph (w : World) (fuel : Nat) (p0 p : Parser) (inp : Input)
    (h : Parser.Parse w fuel p0 inp = .ok p) :
    ∃ g, Graph.Parse w inp fuel = .ok g ∧ p.all_nodes = g.nodes ∧ p.input_nodes = g.inputs ∧
      p.all_node_vec = pushAll (SMap.iter g.nodes) [] ∧ p.builds = g.build_files := by
  unfold Parser.Parse at h
  simp only at h
  split at h
  · cases h
  · rename_i g hg
    cases h
    exact ⟨g, hg, rfl, rfl, rfl, rfl⟩

/-- Every node a successful parse keeps is stored under the full path of its own target. -/
theorem Graph.Parse_keyOk (w : World) (inp : Input) (fuel : Nat) (g1 : Graph)
    (hs : Graph.Parse w inp fuel = .ok g1) : KeyOk g1.nodes := by
  obtain ⟨nodes0, hk, _, _, _, hfind, _⟩ := Graph.Parse_nodes w inp fuel g1 hs
  intro k n hn
  rw [hfind k] at hn
  split at hn
  · cases h0 : nodes0.find? k with
    | none => simp [h0] at hn
    | some m =>
      simp [h0] at hn
      subst hn
      exact hk k m h0
  · cases hn

theorem Graph.Parse_reach (w : World) (inp : Input) (fuel : Nat) (g1 : Graph)
    (hs : Graph.Parse w inp fuel = .ok g1) (x : String) :
    x ∈ g1.nodes.keys ↔ Reach inp g1.nodes x := by
  obtain ⟨nodes0, _, _, _, hreach, hfind, _⟩ := Graph.Parse_nodes w inp fuel g1 hs
  rw [hreach x]
  constructor
  · intro hr
    induction hr with
    | root t ht => exact Reach.root t ht
    | dep p n t hp hn ht ih =>
      have hf := hfind p
      rw [if_pos ((hreach p).2 hp), hn] at hf
      exact Reach.dep p _ t ih hf ht
    | parent p n t hp hn ht ih =>
      have hf := hfind p
      rw [if_pos ((hreach p).2 hp), hn] at hf
      exact Reach.parent p _ t ih hf ht
  · intro hr
    induction hr with
    | root t ht => exact Reach.root t ht
    | dep p n t _ hn ht ih =>
      have hf := hfind p
      rw [hn] at hf
      split at hf
      · cases h0 : nodes0.find? p with
        | none => simp [h0] at hf
        | some m =>
          simp [h0] at hf
          subst hf
          exact Reach.dep p m t ih h0 ht
      · cases hf
    | parent p n t _ hn ht ih =>
      have hf := hfind p
      rw [hn] at hf
      split at hf
      · cases h0 : nodes0.find? p with
        | none => simp [h0] at hf
        | some m =>
          simp [h0] at hf
          subst hf
          exact Reach.parent p m t ih h0 ht
      · cases hf

/-- The resolved dependencies of every node a successful parse keeps. -/
theorem Graph.Parse_linked (w : World) (inp : Input) (fuel : Nat) (g1 : Graph)
    (hs : Graph.Parse w inp fuel = .ok g1) (k : String) (n : Node)
    (hn : g1.nodes.find? k = some n) :
    n.dependency_nodes = n.dep_targets.map TargetInfo.full_path ∧
    ∀ t ∈ n.dep_targets, ∃ m, g1.nodes.find? t.full_path = some m ∧ m.target = t := by
  obtain ⟨nodes0, _, hu, _, _, hfind, hdeps⟩ := Graph.Parse_nodes w inp fuel g1 hs
  have hkey := Graph.Parse_keyOk w inp fuel g1 hs
  constructor
  · have hf := hfind k
    rw [hn] at hf
    split at hf
    · cases h0 : nodes0.find? k with
      | none => simp [h0] at hf
      | some m =>
        simp [h0] at hf
        subst hf
        simp [Node.addDeps, hu k m h0]
    · cases hf
  · intro t ht
    obtain ⟨m, hm⟩ := (SMap.mem_keys_iff _ _).1 (hdeps k n hn t ht)
    refine ⟨m, hm, ?_⟩
    have := hkey _ m hm
    cases t
    cases hmt : m.target
    simp_all

/-- C1: on every successful parse the key set of `all_nodes` is exactly the BFS closure of the
user targets, the full paths reachable from the user targets through `dep_targets` and
`required_parents`; a full path outside the closure (a node of a loaded file that is neither
requested nor reachable) is not a key of `all_nodes`. -/
theorem C1_all_nodes_is_bfs_closure (w : World) (fuel : Nat) (p0 p : Parser) (inp : Input)
    (h : Parser.Parse w fuel p0 inp = .ok p) (x : String) :
    x ∈ p.all_nodes.keys ↔ Reach inp p.all_nodes x := by
  obtain ⟨g, hg, hn, _, _, _⟩ := Parser.Parse_graph w fuel p0 p inp h
  rw [hn]
  exact Graph.Parse_reach w inp fuel g hg x

/-- Witness for C1: scenario S1 parses, `all_nodes` is the closure of `//app:main`, and the
library `//lib:other` of the loaded file `lib/BUILD` is not in it. -/
theorem C1_witness :
    ∃ p, Parser.Parse Example.s1 10 Parser.create (Example.input ["//app:main"]) = .ok p ∧
      p.all_nodes.keys = ["//app:main", "//lib:util"] ∧
      ("//lib:other" ∈ p.all_nodes.keys ↔
        Reach (Example.input ["//app:main"]) p.all_nodes "//lib:other") :=
  ⟨_, rfl, by decide,
    C1_all_nodes_is_bfs_closure Example.s1 10 Parser.create _ (Example.input ["//app:main"]) rfl
      "//lib:other"⟩

theorem SMap.contains_modify {β : Type} (m : SMap β) (x y : String) (f : β → β) :
    (m.modify x f).contains y = m.contains y := by
  unfold SMap.contains
  rw [SMap.find?_modify]
  split
  · cases m.find? y <;> rfl
  · rfl

/-- The link step of a node fails when one of its dependency targets has no node. -/
theorem linkNode_missing (key : String) (ts : List TargetInfo) (nodes : SMap Node)
    (h : ∃ t ∈ ts, nodes.contains t.full_path = false) :
    ∃ d, linkNode key ts nodes = .error (.cannotFind d key) := by
  induction ts generalizing nodes with
  | nil =>
    obtain ⟨t, ht, _⟩ := h
    cases ht
  | cons t rest ih =>
    simp only [linkNode]
    by_cases hc : nodes.contains t.full_path = true
    · rw [if_pos hc]
      apply ih
      obtain ⟨t1, ht1, hm⟩ := h
      rcases List.mem_cons.1 ht1 with e | ht1
      · subst e
        rw [hc] at hm
        cases hm
      · exact ⟨t1, ht1, by rw [SMap.contains_modify]; exact hm⟩
    · rw [if_neg hc]
      exact ⟨t.full_path, rfl⟩

/-- C2: on every successful parse, the resolved dependencies of every node of `all_nodes` are
its `dep_targets`, in order, each resolved to the node stored in `all_nodes` under the
target's full path, and every such node exists; the link step of a node one of whose
dependency targets has no node fails with the error naming a missing target. -/
theorem C2_dependency_nodes_resolve_dep_targets (w : World) (fuel : Nat) (p0 p : Parser)
    (inp : Input) (h : Parser.Parse w fuel p0 inp = .ok p) (k : String) (n : Node)
    (hn : p.all_nodes.find? k = some n) :
    n.dependency_nodes = n.dep_targets.map TargetInfo.full_path ∧
    (∀ t ∈ n.dep_targets, ∃ m, p.all_nodes.find? t.full_path = some m ∧ m.target = t) ∧
    (∀ (key : String) (ts : List TargetInfo) (nodes : SMap Node),
      (∃ t ∈ ts, nodes.contains t.full_path = false) →
      ∃ d, linkNode key ts nodes = .error (.cannotFind d key)) := by
  obtain ⟨g, hg, hnodes, _, _, _⟩ := Parser.Parse_graph w fuel p0 p inp h
  rw [hnodes] at hn ⊢
  exact ⟨(Graph.Parse_linked w inp fuel g hg k n hn).1,
    (Graph.Parse_linked w inp fuel g hg k n hn).2, linkNode_missing⟩

/-- Witness for C2: in scenario S1 the node `//app:main` has the one resolved dependency
`//lib:util`. -/
theorem C2_witness :
    ∃ p n, Parser.Parse Example.s1 10 Parser.create (Example.input ["//app:main"]) = .ok p ∧
      p.all_nodes.find? "//app:main" = some n ∧
      n.dependency_nodes = ["//lib:util"] ∧
      n.dependency_nodes = n.dep_targets.map TargetInfo.full_path ∧
      ∀ t ∈ n.dep_targets, ∃ m, p.all_nodes.find? t.full_path = some m ∧ m.target = t :=
  ⟨_, _, rfl, rfl, rfl,
    (C2_dependency_nodes_resolve_dep_targets Example.s1 10 Parser.create _
      (Example.input ["//app:main"]) rfl "//app:main" _ rfl).1,
    (C2_dependency_nodes_resolve_dep_targets Example.s1 10 Parser.create _
      (Example.input ["//app:main"]) rfl "//app:main" _ rfl).2.1⟩

/-! ## Theorems: input classification -/

theorem UserInputHasTarget_mono (inp : Input) (nodes : SMap Node) (fuel : Nat) (n : Node)
    (b : Bool) (h : UserInputHasTarget inp nodes fuel n = .ok b) :
    UserInputHasTarget inp nodes (fuel + 1) n = .ok b := by
  induction fuel generalizing n with
  | zero =>
    simp only [UserInputHasTarget] at h
    cases h
  | succ fuel ih =>
    rw [UserInputHasTarget] at h ⊢
    split at h
    · rename_i hc
      rw [if_pos hc]
      exact h
    · rename_i hc
      rw [if_neg hc]
      split at h
      · cases h
      · rename_i child hchild
        exact ih child h
      · exact h

theorem firstNamingChild_some (nodes : SMap Node) (t : TargetInfo) (ps : List NodePtr)
    (c : Node) (h : firstNamingChild nodes t ps = .ok (some c)) :
    ∃ M ∈ ps, nodes.find? M = some c ∧ t ∈ c.required_parents := by
  induction ps with
  | nil =>
    simp only [firstNamingChild] at h
    cases h
  | cons p ps ih =>
    simp only [firstNamingChild] at h
    split at h
    · cases h
    · rename_i child hp
      split at h
      · rename_i hreq
        cases h
        exact ⟨p, List.mem_cons_self _ _, hp, hreq⟩
      · obtain ⟨M, hM, h1, h2⟩ := ih h
        exact ⟨M, List.mem_cons_of_mem _ hM, h1, h2⟩

theorem firstNamingChild_first (nodes : SMap Node) (t : TargetInfo) (pre post : List NodePtr)
    (M : NodePtr) (m : Node) (hm : nodes.find? M = some m) (hreq : t ∈ m.required_parents)
    (hpre : ∀ D ∈ pre, ∃ d, nodes.find? D = some d ∧ t ∉ d.required_parents) :
    firstNamingChild nodes t (pre ++ M :: post) = .ok (some m) := by
  induction pre with
  | nil =>
    simp only [List.nil_append, firstNamingChild, hm, hreq, if_true]
  | cons p pre ih =>
    obtain ⟨d, hd, hnot⟩ := hpre p (List.mem_cons_self _ _)
    simp only [List.cons_append, firstNamingChild, hd, hnot, if_false]
    exact ih (fun D hD => hpre D (List.mem_cons_of_mem _ hD))

/-- The inputs of a successful Graph::Parse: the keys whose node UserInputHasTarget accepts; the
classification of every node returned. -/
theorem Graph.Parse_inputs (w : World) (inp : Input) (fuel : Nat) (g1 : Graph)
    (hs : Graph.Parse w inp fuel = .ok g1) :
    (∀ k, k ∈ g1.inputs ↔
      ∃ n, g1.nodes.find? k = some n ∧ UserInputHasTarget inp g1.nodes fuel n = .ok true) ∧
    (∀ k n, g1.nodes.find? k = some n → ∃ b, UserInputHasTarget inp g1.nodes fuel n = .ok b) := by
  obtain ⟨_, _, _, _, _, _, hc, _, _⟩ := Graph.Parse_phases w inp fuel g1 hs
  obtain ⟨_, _, _, hnd, _, _, _⟩ := Graph.Parse_nodes w inp fuel g1 hs
  obtain ⟨c1, c2⟩ := classify_spec _ _ _ _ _ _ hc
  constructor
  · intro k
    rw [c1 k]
    constructor
    · rintro (hk | ⟨n, hn, hu⟩)
      · cases hk
      · exact ⟨n, SMap.find?_of_mem _ hnd k n ((SMap.mem_iter _ _).1 hn), hu⟩
    · rintro ⟨n, hn, hu⟩
      exact Or.inr ⟨n, (SMap.mem_iter _ _).2 (SMap.mem_of_find? _ _ _ hn), hu⟩
  · intro k n hn
    exact c2 (k, n) ((SMap.mem_iter _ _).2 (SMap.mem_of_find? _ _ _ hn))

/-- One step of the classification on the graph of a successful parse: a node that is not a
user target is an input exactly when the first of its dependencies that names it as required
parent is an input; there must be such a dependency. -/
theorem Graph.Parse_input_step (w : World) (inp : Input) (fuel : Nat) (g1 : Graph)
    (hs : Graph.Parse w inp fuel = .ok g1) (k : String) (n : Node)
    (hn : g1.nodes.find? k = some n) (huser : inp.contains_target n.target.full_path = false) :
    (k ∈ g1.inputs ↔ ∃ c, firstNamingChild g1.nodes n.target n.dependency_nodes = .ok (some c) ∧
      c.target.full_path ∈ g1.inputs) := by
  obtain ⟨i1, i2⟩ := Graph.Parse_inputs w inp fuel g1 hs
  have hkey := Graph.Parse_keyOk w inp fuel g1 hs
  obtain ⟨b, hb⟩ := i2 k n hn
  cases fuel with
  | zero =>
    simp only [UserInputHasTarget] at hb
    cases hb
  | succ fuel =>
    have hb1 := hb
    rw [UserInputHasTarget, huser] at hb1
    simp only [Bool.false_eq_true, if_false] at hb1
    split at hb1
    · cases hb1
    · rename_i child hchild
      obtain ⟨M, _, hM, _⟩ := firstNamingChild_some _ _ _ _ hchild
      have hMk : child.target.full_path = M := hkey M child hM
      have hchild1 := UserInputHasTarget_mono _ _ _ _ _ hb1
      constructor
      · intro hk
        obtain ⟨n1, hn1, hu⟩ := (i1 k).1 hk
        rw [hn] at hn1
        cases hn1
        rw [hb] at hu
        cases hu
        exact ⟨child, hchild, (i1 _).2 ⟨child, hMk ▸ hM, hchild1⟩⟩
      · rintro ⟨c, hc, hcin⟩
        rw [hchild] at hc
        cases hc
        obtain ⟨c1, hc1, hu⟩ := (i1 _).1 hcin
        rw [hMk, hM] at hc1
        cases hc1
        rw [hchild1] at hu
        cases hu
        exact (i1 k).2 ⟨n, hn, hb⟩
    · rename_i hchild
      cases hb1
      constructor
      · intro hk
        obtain ⟨n1, hn1, hu⟩ := (i1 k).1 hk
        rw [hn] at hn1
        cases hn1
        rw [hb] at hu
        cases hu
      · rintro ⟨c, hc, _⟩
        rw [hchild] at hc
        cases hc

theorem Graph.Parse_input_user (w : World) (inp : Input) (fuel : Nat) (g1 : Graph)
    (hs : Graph.Parse w inp fuel = .ok g1) (k : String) (n : Node)
    (hn : g1.nodes.find? k = some n) (huser : inp.contains_target n.target.full_path = true) :
    k ∈ g1.inputs := by
  obtain ⟨i1, i2⟩ := Graph.Parse_inputs w inp fuel g1 hs
  obtain ⟨b, hb⟩ := i2 k n hn
  cases fuel with
  | zero =>
    simp only [UserInputHasTarget] at hb
    cases hb
  | succ fuel =>
    refine (i1 k).2 ⟨n, hn, ?_⟩
    rw [UserInputHasTarget, if_pos huser]

/-- The dependencies listed before a given one all have nodes. -/
theorem Graph.Parse_deps_exist (w : World) (inp : Input) (fuel : Nat) (g1 : Graph)
    (hs : Graph.Parse w inp fuel = .ok g1) (k : String) (n : Node)
    (hn : g1.nodes.find? k = some n) (D : NodePtr) (hD : D ∈ n.dependency_nodes) :
    ∃ d, g1.nodes.find? D = some d := by
  obtain ⟨l1, l2⟩ := Graph.Parse_linked w inp fuel g1 hs k n hn
  rw [l1] at hD
  obtain ⟨t, ht, e⟩ := List.mem_map.1 hD
  obtain ⟨m, hm, _⟩ := l2 t ht
  exact ⟨m, e ▸ hm⟩

/-- Promotion of a required parent on the graph of a successful parse. -/
theorem Graph.Parse_promote (w : World) (inp : Input) (fuel : Nat) (g1 : Graph)
    (hs : Graph.Parse w inp fuel = .ok g1) (C B : String) (nC nB : Node)
    (pre post : List NodePtr)
    (hC : g1.nodes.find? C = some nC) (hB : g1.nodes.find? B = some nB)
    (hBin : B ∈ g1.inputs) (hreq : nC.target ∈ nB.required_parents)
    (hdep : nC.dependency_nodes = pre ++ B :: post)
    (hfirst : ∀ D ∈ pre, ∀ d, g1.nodes.find? D = some d → nC.target ∉ d.required_parents) :
    C ∈ g1.inputs := by
  have hkey := Graph.Parse_keyOk w inp fuel g1 hs
  cases huser : inp.contains_target nC.target.full_path with
  | true => exact Graph.Parse_input_user w inp fuel g1 hs C nC hC huser
  | false =>
    refine (Graph.Parse_input_step w inp fuel g1 hs C nC hC huser).2 ⟨nB, ?_, ?_⟩
    · rw [hdep]
      refine firstNamingChild_first _ _ _ _ _ _ hB hreq ?_
      intro D hD
      obtain ⟨d, hd⟩ := Graph.Parse_deps_exist w inp fuel g1 hs C nC hC D
        (by rw [hdep]; exact List.mem_append_left _ hD)
      exact ⟨d, hd, hfirst D hD d hd⟩
    · rw [hkey B nB hB]
      exact hBin

/-- C3 (as amended): on every successful parse, if `B` is an input node (for instance a target
the user requests), `B.required_parents` contains `C`, and `B` is the first of the resolved
dependencies of `C` that names `C` as required parent, then the node for `C` is in
`input_nodes`. -/
theorem C3_required_parent_promotion (w : World) (fuel : Nat) (p0 p : Parser) (inp : Input)
    (h : Parser.Parse w fuel p0 inp = .ok p) (C B : String) (nC nB : Node)
    (pre post : List NodePtr)
    (hC : p.all_nodes.find? C = some nC) (hB : p.all_nodes.find? B = some nB)
    (hBin : B ∈ p.input_nodes) (hreq : nC.target ∈ nB.required_parents)
    (hdep : nC.dependency_nodes = pre ++ B :: post)
    (hfirst : ∀ D ∈ pre, ∀ d, p.all_nodes.find? D = some d → nC.target ∉ d.required_parents) :
    C ∈ p.input_nodes := by
  obtain ⟨g, hg, hnodes, hinputs, _, _⟩ := Parser.Parse_graph w fuel p0 p inp h
  rw [hnodes] at hC hB hfirst
  rw [hinputs] at hBin ⊢
  exact Graph.Parse_promote w inp fuel g hg C B nC nB pre post hC hB hBin hreq hdep hfirst

/-- Witness for C3 (as amended): the user requests `//d:b`, which names `//d:c` as required
parent, and `//d:c` depends on `//d:b`; `//d:c` is an input node. -/
theorem C3_witness :
    ∃ p nC nB, Parser.Parse Example.promote 10 Parser.create (Example.input ["//d:b"]) = .ok p ∧
      p.all_nodes.find? "//d:c" = some nC ∧ p.all_nodes.find? "//d:b" = some nB ∧
      "//d:b" ∈ p.input_nodes ∧ nC.target ∈ nB.required_parents ∧
      nC.dependency_nodes = [] ++ "//d:b" :: [] ∧ "//d:c" ∈ p.input_nodes :=
  ⟨_, _, _, rfl, rfl, rfl, by decide, by decide, rfl,
    C3_required_parent_promotion Example.promote 10 Parser.create _ (Example.input ["//d:b"]) rfl
      "//d:c" "//d:b" _ _ [] [] rfl rfl (by decide) (by decide) rfl
      (fun D hD => by cases hD)⟩

/-- Counterexample to C3 as stated: the user requests `//d:a`, which depends on `//d:b`, and
`//d:b` names `//d:c` as required parent; the parse succeeds and `//d:c` is not an input
node. -/
theorem C3_counterexample :
    ∃ p nA nB, Parser.Parse Example.chain 10 Parser.create (Example.input ["//d:a"]) = .ok p ∧
      (⟨"//d:a"⟩ : TargetInfo) ∈ (Example.input ["//d:a"]).build_targets ∧
      p.all_nodes.find? "//d:a" = some nA ∧ (⟨"//d:b"⟩ : TargetInfo) ∈ nA.dep_targets ∧
      p.all_nodes.find? "//d:b" = some nB ∧ (⟨"//d:c"⟩ : TargetInfo) ∈ nB.required_parents ∧
      "//d:c" ∈ p.all_nodes.keys ∧ "//d:c" ∉ p.input_nodes :=
  ⟨_, _, _, rfl, by decide, rfl, by decide, rfl, by decide, by decide, by decide⟩

/-- C4 (as amended): on every successful parse and for every node `N` of `all_nodes`: a user
target is an input node; an input node is a user target or has, among its resolved
dependencies, an input node that names `N` as required parent; and `N` is an input node when
the first of its resolved dependencies that names `N` as required parent is an input node.
Nothing is said of a node whose first such dependency is not an input node while a later one
is. -/
theorem C4_input_classification (w : World) (fuel : Nat) (p0 p : Parser) (inp : Input)
    (h : Parser.Parse w fuel p0 inp = .ok p) (N : String) (n : Node)
    (hN : p.all_nodes.find? N = some n) :
    (inp.contains_target N = true → N ∈ p.input_nodes) ∧
    (N ∈ p.input_nodes → inp.contains_target N = true ∨
      ∃ M ∈ n.dependency_nodes, ∃ m, p.all_nodes.find? M = some m ∧
        n.target ∈ m.required_parents ∧ M ∈ p.input_nodes) ∧
    (∀ (M : NodePtr) (m : Node) (pre post : List NodePtr), p.all_nodes.find? M = some m →
      n.target ∈ m.required_parents → M ∈ p.input_nodes → n.dependency_nodes = pre ++ M :: post →
      (∀ D ∈ pre, ∀ d, p.all_nodes.find? D = some d → n.target ∉ d.required_parents) →
      N ∈ p.input_nodes) := by
  obtain ⟨g, hg, hnodes, hinputs, _, _⟩ := Parser.Parse_graph w fuel p0 p inp h
  rw [hnodes] at hN
  rw [hnodes, hinputs]
  have hkey := Graph.Parse_keyOk w inp fuel g hg
  have hNk : n.target.full_path = N := hkey N n hN
  refine ⟨?_, ?_, ?_⟩
  · intro hu
    exact Graph.Parse_input_user w inp fuel g hg N n hN (hNk ▸ hu)
  · intro hin
    cases huser : inp.contains_target N with
    | true => exact Or.inl rfl
    | false =>
      right
      obtain ⟨c, hc, hcin⟩ :=
        (Graph.Parse_input_step w inp fuel g hg N n hN (hNk ▸ huser)).1 hin
      obtain ⟨M, hM, hfind, hreq⟩ := firstNamingChild_some _ _ _ _ hc
      exact ⟨M, hM, c, hfind, hreq, hkey M c hfind ▸ hcin⟩
  · intro M m pre post hM hreq hMin hdep hfirst
    exact Graph.Parse_promote w inp fuel g hg N M n m pre post hN hM hMin hreq hdep hfirst

/-- Witness for C4 (as amended): in the repository of two children with `//d:d1` requested,
`//d:n` is an input node through its first dependency `//d:d1`. -/
theorem C4_witness :
    ∃ p n, Parser.Parse Example.twoChildren 10 Parser.create (Example.input ["//d:d1"]) = .ok p ∧
      p.all_nodes.find? "//d:n" = some n ∧ n.dependency_nodes = ["//d:d1", "//d:d2"] ∧
      "//d:n" ∈ p.input_nodes ∧
      ((Example.input ["//d:d1"]).contains_target "//d:n" = true → "//d:n" ∈ p.input_nodes) ∧
      ("//d:n" ∈ p.input_nodes → (Example.input ["//d:d1"]).contains_target "//d:n" = true ∨
        ∃ M ∈ n.dependency_nodes, ∃ m, p.all_nodes.find? M = some m ∧
          n.target ∈ m.required_parents ∧ M ∈ p.input_nodes) :=
  ⟨_, _, rfl, rfl, rfl, by decide,
    (C4_input_classification Example.twoChildren 10 Parser.create _
      (Example.input ["//d:d1"]) rfl "//d:n" _ rfl).1,
    (C4_input_classification Example.twoChildren 10 Parser.create _
      (Example.input ["//d:d1"]) rfl "//d:n" _ rfl).2.1⟩

/-- Counterexample to C4 as stated: the user requests `//d:b`, an input node whose required
parents contain `//d:c`; `//d:c` is in `all_nodes`, does not depend on `//d:b`, and is not an
input node. -/
theorem C4_counterexample :
    ∃ p nB nC, Parser.Parse Example.chain 10 Parser.create (Example.input ["//d:b"]) = .ok p ∧
      p.all_nodes.find? "//d:b" = some nB ∧ p.all_nodes.find? "//d:c" = some nC ∧
      "//d:b" ∈ p.input_nodes ∧ nC.target ∈ nB.required_parents ∧
      nC.dependency_nodes = [] ∧ "//d:c" ∉ p.input_nodes :=
  ⟨_, _, _, rfl, rfl, rfl, by decide, by decide, rfl, by decide⟩

/-- The early return of UserInputHasTarget (parser.cc 69): `//d:n` depends on `//d:d1` and
`//d:d2`, both name it as required parent, and only `//d:d2` is requested; the loop returns
the classification of `//d:d1`, so `//d:n` is not an input node although its dependency
`//d:d2` is one. -/
theorem UserInputHasTarget_returns_on_first_child :
    ∃ p n m, Parser.Parse Example.twoChildren 10 Parser.create (Example.input ["//d:d2"]) = .ok p ∧
      p.all_nodes.find? "//d:n" = some n ∧ n.dependency_nodes = ["//d:d1", "//d:d2"] ∧
      p.all_nodes.find? "//d:d2" = some m ∧ n.target ∈ m.required_parents ∧
      "//d:d2" ∈ p.input_nodes ∧ "//d:n" ∉ p.input_nodes :=
  ⟨_, _, _, rfl, rfl, rfl, rfl, by decide, by decide, by decide⟩

/-! ## Theorems: duplicate detection -/

theorem saveNodes_ok (l : List Node) (st : Graph × List NodePtr)
    (hfresh : ∀ n ∈ l, n.target.full_path ∉ st.1.nodes.keys)
    (hnd : (l.map (fun n => n.target.full_path)).Nodup) :
    ∃ st1, saveNodes l st = .ok st1 ∧
      (∀ k n, st.1.nodes.find? k = some n → st1.1.nodes.find? k = some n) ∧
      (∀ n ∈ l, st1.1.nodes.find? n.target.full_path = some n) ∧
      st1.2 = st.2 ++ l.map (fun n => n.target.full_path) := by
  induction l generalizing st with
  | nil =>
    refine ⟨st, rfl, fun _ _ h => h, ?_, ?_⟩
    · intro n hn
      cases hn
    · simp
  | cons x rest ih =>
    obtain ⟨g, all⟩ := st
    simp only [List.map_cons, List.nodup_cons] at hnd
    have hx : g.nodes.find? x.target.full_path = none := by
      cases hf : g.nodes.find? x.target.full_path with
      | none => rfl
      | some v =>
        exact absurd ((SMap.mem_keys_iff _ _).2 ⟨v, hf⟩) (hfresh x (List.mem_cons_self _ _))
    have hc : g.nodes.contains x.target.full_path = false := (SMap.contains_false_iff _ _).2 hx
    obtain ⟨st1, h1, h2, h3, h4⟩ :=
      ih ({ g with nodes := g.nodes.set x.target.full_path x }, all ++ [x.target.full_path])
        (by
          intro n hn hmem
          simp only [SMap.keys_set] at hmem
          split at hmem
          · exact hfresh n (List.mem_cons_of_mem _ hn) hmem
          · rcases List.mem_append.1 hmem with hmem | hmem
            · exact hfresh n (List.mem_cons_of_mem _ hn) hmem
            · simp only [List.mem_singleton] at hmem
              exact hnd.1 (List.mem_map.2 ⟨n, hn, hmem⟩))
        hnd.2
    refine ⟨st1, ?_, ?_, ?_, ?_⟩
    · simp only [saveNodes, hc]
      exact h1
    · intro k n hk
      apply h2
      show (g.nodes.set x.target.full_path x).find? k = some n
      rw [SMap.find?_set]
      split
      · rename_i e
        rw [← e, hx] at hk
        cases hk
      · exact hk
    · intro n hn
      rcases List.mem_cons.1 hn with e | hn
      · subst e
        apply h2
        show (g.nodes.set n.target.full_path n).find? n.target.full_path = some n
        rw [SMap.find?_set]
        simp
      · exact h3 n hn
    · rw [h4]
      simp

theorem saveNodes_duplicate (l : List Node) (st : Graph × List NodePtr)
    (pre post : List String) (p : String)
    (hl : l.map (fun n => n.target.full_path) = pre ++ p :: post)
    (hfresh : ∀ q ∈ pre, q ∉ st.1.nodes.keys) (hnd : pre.Nodup)
    (hdup : p ∈ st.1.nodes.keys ∨ p ∈ pre) :
    saveNodes l st = .error (.duplicateTarget p) := by
  induction pre generalizing l st with
  | nil =>
    obtain ⟨g, all⟩ := st
    cases l with
    | nil => simp at hl
    | cons x rest =>
      simp only [List.map_cons, List.nil_append, List.cons.injEq] at hl
      have hp : p ∈ g.nodes.keys := by
        rcases hdup with h | h
        · exact h
        · cases h
      simp only [saveNodes, hl.1, (SMap.contains_iff _ _).2 hp, if_true]
  | cons q pre ih =>
    obtain ⟨g, all⟩ := st
    cases l with
    | nil => simp at hl
    | cons x rest =>
      simp only [List.map_cons, List.cons_append, List.cons.injEq] at hl
      simp only [List.nodup_cons] at hnd
      have hq : g.nodes.contains x.target.full_path = false := by
        rw [hl.1]
        cases hc : g.nodes.contains q with
        | false => rfl
        | true => exact absurd ((SMap.contains_iff _ _).1 hc) (hfresh q (List.mem_cons_self _ _))
      simp only [saveNodes, hq]
      apply ih rest _ hl.2
      · intro r hr hmem
        simp only [SMap.keys_set] at hmem
        split at hmem
        · exact hfresh r (List.mem_cons_of_mem _ hr) hmem
        · rcases List.mem_append.1 hmem with hmem | hmem
          · exact hfresh r (List.mem_cons_of_mem _ hr) hmem
          · simp only [List.mem_singleton] at hmem
            rw [hl.1] at hmem
            exact hnd.1 (hmem ▸ hr)
      · exact hnd.2
      · have hsub : ∀ r, r ∈ g.nodes.keys → r ∈ (g.nodes.set x.target.full_path x).keys := by
          intro r hr
          rw [SMap.keys_set]
          split
          · exact hr
          · exact List.mem_append_left _ hr
        have hself : x.target.full_path ∈ (g.nodes.set x.target.full_path x).keys := by
          rw [SMap.keys_set]
          split
          · assumption
          · simp
        rcases hdup with h | h
        · exact Or.inl (hsub p h)
        · rcases List.mem_cons.1 h with e | h
          · left
            rw [e, ← hl.1]
            exact hself
          · exact Or.inr h

/-! ## Theorems: subnodes and pruning -/

/-- C6 (as amended): on every successful parse, a node that was inserted into the node map
during parsing (every declared node and every synthesised subnode is) is in the final
`all_nodes` exactly when its full path is in the BFS closure of the user targets; it is then a
key of `all_nodes` exactly once and the node stored under it has the same target, which is
that key, and the same kind.  A subnode outside the closure is pruned. -/
theorem C6_subnode_identity (w : World) (fuel : Nat) (p0 p : Parser) (inp : Input)
    (processed : SSet) (g : Graph) (hl : Graph.loop w inp fuel = .ok (processed, g))
    (h : Parser.Parse w fuel p0 inp = .ok p) (k : String) (n : Node)
    (hk : g.nodes.find? k = some n) :
    (k ∈ p.all_nodes.keys ↔ Reach inp g.nodes k) ∧
    (Reach inp g.nodes k → p.all_nodes.keys.count k = 1 ∧
      ∃ n1, p.all_nodes.find? k = some n1 ∧ n1.target = n.target ∧ n1.target.full_path = k ∧
        n1.kind = n.kind) := by
  obtain ⟨g1, hg, hnodes, _, _, _⟩ := Parser.Parse_graph w fuel p0 p inp h
  obtain ⟨hkey, _, hnd, hreach, hfind, _⟩ := Graph.Parse_nodes_loop w inp fuel g1 hg processed g hl
  rw [hnodes]
  refine ⟨hreach k, ?_⟩
  intro hr
  have hmem := (hreach k).2 hr
  refine ⟨List.count_eq_one_of_mem hnd hmem, ?_⟩
  have hf := hfind k
  rw [if_pos hmem, hk] at hf
  exact ⟨_, hf, rfl, hkey k n hk, rfl⟩

/-- Witness for C6 (as amended): the subnode `//d:y_gen` is inserted during parsing, a requested
library depends on it, and it is in `all_nodes` exactly once. -/
theorem C6_witness :
    ∃ processed g p n,
      Graph.loop Example.subUsed (Example.input ["//d:x"]) 10 = .ok (processed, g) ∧
      Parser.Parse Example.subUsed 10 Parser.create (Example.input ["//d:x"]) = .ok p ∧
      g.nodes.find? "//d:y_gen" = some n ∧ p.all_nodes.keys.count "//d:y_gen" = 1 ∧
      ("//d:y_gen" ∈ p.all_nodes.keys ↔
        Reach (Example.input ["//d:x"]) g.nodes "//d:y_gen") :=
  ⟨_, _, _, _, rfl, rfl, rfl, by decide,
    (C6_subnode_identity Example.subUsed 10 Parser.create _ (Example.input ["//d:x"]) _ _ rfl
      rfl "//d:y_gen" _ rfl).1⟩

/-- Counterexample to C6 as stated: parsing the declaration of `//d:y` in the loaded file
`d/BUILD` synthesises the subnode `//d:y_gen`, which is inserted into the node map; the parse
for the requested `//d:x` succeeds and `//d:y_gen` is not in the final `all_nodes`. -/
theorem C6_counterexample :
    ∃ processed g p node subnodes file,
      ParseNode Example.sub (BuildFile.create "d/BUILD") (Example.declSub "cmake" "y" ["y_gen"])
        "cmake" = .ok (node, subnodes, file) ∧
      subnodes.map (fun n => n.target.full_path) = ["//d:y_gen"] ∧
      Graph.loop Example.sub (Example.input ["//d:x"]) 10 = .ok (processed, g) ∧
      "//d:y_gen" ∈ g.nodes.keys ∧
      Parser.Parse Example.sub 10 Parser.create (Example.input ["//d:x"]) = .ok p ∧
      "d/BUILD" ∈ p.builds.keys ∧ "//d:y_gen" ∉ p.all_nodes.keys :=
  ⟨_, _, _, _, _, _, rfl, by decide, rfl, by decide, rfl, by decide, by decide⟩

/-! ## Theorems: the ordered node list -/

theorem lexLe_total (a b : List Nat) : lexLe a b = true ∨ lexLe b a = true := by
  induction a generalizing b with
  | nil => exact Or.inl (by simp [lexLe])
  | cons x xs ih =>
    cases b with
    | nil => exact Or.inr (by simp [lexLe])
    | cons y ys =>
      simp only [lexLe]
      rcases Nat.lt_trichotomy x y with h | h | h
      · simp [h]
      · subst h
        simpa using ih ys
      · have : ¬ x < y := Nat.not_lt.2 (Nat.le_of_lt h)
        simp [h, this]

theorem lexLe_trans (a b c : List Nat) (h1 : lexLe a b = true) (h2 : lexLe b c = true) :
    lexLe a c = true := by
  induction a generalizing b c with
  | nil => simp [lexLe]
  | cons x xs ih =>
    cases b with
    | nil => simp [lexLe] at h1
    | cons y ys =>
      cases c with
      | nil => simp [lexLe] at h2
      | cons z zs =>
        simp only [lexLe] at h1 h2 ⊢
        by_cases hxy : x < y
        · by_cases hyz : y < z
          · simp [Nat.lt_trans hxy hyz]
          · simp only [hyz, if_false] at h2
            by_cases hzy : z < y
            · simp [hzy] at h2
            · have : y = z := Nat.le_antisymm (Nat.not_lt.1 hzy) (Nat.not_lt.1 hyz)
              subst this
              simp [hxy]
        · simp only [hxy, if_false] at h1
          by_cases hyx : y < x
          · simp [hyx] at h1
          · simp only [hyx, if_false] at h1
            have : x = y := Nat.le_antisymm (Nat.not_lt.1 hyx) (Nat.not_lt.1 hxy)
            subst this
            by_cases hxz : x < z
            · simp [hxz]
            · simp only [hxz, if_false] at h2 ⊢
              by_cases hzx : z < x
              · simp [hzx] at h2
              · simp only [hzx, if_false] at h2 ⊢
                exact ih ys zs h1 h2

theorem SMap.sorted_iter {β : Type} (m : SMap β) :
    (SMap.iter m).Sorted (fun a b => strLe a.1 b.1) := by
  haveI : IsTotal (String × β) (fun a b => strLe a.1 b.1) :=
    ⟨fun a b => lexLe_total (codes a.1) (codes b.1)⟩
  haveI : IsTrans (String × β) (fun a b => strLe a.1 b.1) :=
    ⟨fun a b c h1 h2 => lexLe_trans (codes a.1) (codes b.1) (codes c.1) h1 h2⟩
  exact List.sorted_insertionSort _ m

theorem pushAll_eq (es : List (String × Node)) (vec : List NodePtr) :
    pushAll es vec = vec ++ es.map Prod.fst := by
  induction es generalizing vec with
  | nil => simp [pushAll]
  | cons e es ih =>
    obtain ⟨k, n⟩ := e
    simp [pushAll, ih]

/-- C7 (as amended): on every successful Parser::Parse the ordered node list contains every
node of `all_nodes` exactly once, in ascending order of the full paths (the iteration order of
the node map), whatever the order in which the nodes were inserted during parsing. -/
theorem C7_all_nodes_ordered (w : World) (fuel : Nat) (p0 p : Parser) (inp : Input)
    (h : Parser.Parse w fuel p0 inp = .ok p) :
    p.all_node_vec.Perm p.all_nodes.keys ∧ p.all_node_vec.Nodup ∧
    p.all_node_vec.Sorted strLe ∧
    (∀ k, k ∈ p.all_node_vec ↔ ∃ n, p.all_nodes.find? k = some n) := by
  obtain ⟨g, hg, hnodes, _, hvec, _⟩ := Parser.Parse_graph w fuel p0 p inp h
  obtain ⟨_, _, _, hnd, _, _, _⟩ := Graph.Parse_nodes w inp fuel g hg
  have hv : p.all_node_vec = (SMap.iter g.nodes).map Prod.fst := by
    rw [hvec, pushAll_eq]
    simp
  have hperm : p.all_node_vec.Perm p.all_nodes.keys := by
    rw [hv, hnodes]
    exact (SMap.iter_perm g.nodes).map Prod.fst
  refine ⟨hperm, hperm.nodup_iff.2 (hnodes ▸ hnd), ?_, ?_⟩
  · rw [hv]
    exact List.pairwise_map.2 (SMap.sorted_iter g.nodes)
  · intro k
    rw [hperm.mem_iff, SMap.mem_keys_iff]

/-- Witness for C7 (as amended): for `//b:x`, which depends on `//a:y`, the ordered list is
`//a:y`, `//b:x`. -/
theorem C7_witness :
    ∃ p, Parser.Parse Example.twoDirs 10 Parser.create (Example.input ["//b:x"]) = .ok p ∧
      p.all_node_vec = ["//a:y", "//b:x"] ∧
      p.all_node_vec.Perm p.all_nodes.keys ∧ p.all_node_vec.Nodup ∧
      p.all_node_vec.Sorted strLe ∧
      (∀ k, k ∈ p.all_node_vec ↔ ∃ n, p.all_nodes.find? k = some n) :=
  ⟨_, rfl, rfl,
    C7_all_nodes_ordered Example.twoDirs 10 Parser.create _ (Example.input ["//b:x"]) rfl⟩

/-- Counterexample to C7 as stated: for `//b:x`, which depends on `//a:y`, the nodes are
inserted into the node map in the order `//b:x`, `//a:y` during parsing, and the ordered list
of the successful parse is `//a:y`, `//b:x`. -/
theorem C7_counterexample :
    ∃ processed g p,
      Graph.loop Example.twoDirs (Example.input ["//b:x"]) 10 = .ok (processed, g) ∧
      g.nodes.keys = ["//b:x", "//a:y"] ∧
      Parser.Parse Example.twoDirs 10 Parser.create (Example.input ["//b:x"]) = .ok p ∧
      p.all_node_vec = ["//a:y", "//b:x"] ∧ p.all_node_vec ≠ g.nodes.keys :=
  ⟨_, _, _, rfl, rfl, rfl, rfl, by decide⟩

/-! ## Theorems: plugin expansion -/

theorem Graph.file_setFile (g : Graph) (filename : String) (f : BuildFile) :
    (g.setFile filename f).file filename = f := by
  simp [Graph.file, Graph.setFile, SMap.find?_set]

theorem Graph.file_setFile_of_ne (g : Graph) (filename other : String) (f : BuildFile)
    (h : filename ≠ other) : (g.setFile filename f).file other = g.file other := by
  simp [Graph.file, Graph.setFile, SMap.find?_set, h]

theorem ExpandPlugin_false (w : World)
    (hfalse : ∀ node file obj, (w.ExpandBuildFileNode node file obj).1 = false →
      (w.ExpandBuildFileNode node file obj).2 = (file, obj))
    (g : Graph) (filename : String) (obj : Json) (key : String) (g1 : Graph) (obj1 : Json)
    (hs : ExpandPlugin w g filename obj key = .ok (false, g1, obj1)) :
    obj1 = obj ∧ g1.nodes = g.nodes ∧ g1.file filename = g.file filename ∧
    Settled w g filename obj key := by
  unfold ExpandPlugin at hs
  simp only at hs
  split at hs
  · rename_i hempty
    cases hs
    exact ⟨rfl, rfl, rfl, Or.inl hempty⟩
  · split at hs
    · cases hs
    · rename_i node hnode
      simp only [Except.ok.injEq, Prod.mk.injEq] at hs
      obtain ⟨h1, h2, h3⟩ := hs
      have h := hfalse node (g.file filename) obj h1
      refine ⟨?_, ?_, ?_, Or.inr ⟨node, hnode, h1⟩⟩
      · rw [← h3, h]
      · rw [← h2]
        rfl
      · rw [← h2, Graph.file_setFile, h]

theorem Settled.congr (w : World) (g g1 : Graph) (filename : String) (obj : Json) (key : String)
    (hn : g1.nodes = g.nodes) (hf : g1.file filename = g.file filename)
    (h : Settled w g filename obj key) : Settled w g1 filename obj key := by
  unfold Settled at h ⊢
  rw [hn, hf]
  exact h

theorem scanPlugins_false (w : World)
    (hfalse : ∀ node file obj, (w.ExpandBuildFileNode node file obj).1 = false →
      (w.ExpandBuildFileNode node file obj).2 = (file, obj))
    (filename : String) (keys : List String) (g : Graph) (obj : Json) (g1 : Graph) (obj1 : Json)
    (hs : scanPlugins w filename keys (g, obj) = .ok (false, g1, obj1)) :
    obj1 = obj ∧ g1.nodes = g.nodes ∧ g1.file filename = g.file filename ∧
    ∀ key ∈ keys, Settled w g filename obj key := by
  induction keys generalizing g obj with
  | nil =>
    simp only [scanPlugins] at hs
    cases hs
    exact ⟨rfl, rfl, rfl, fun key hk => by cases hk⟩
  | cons key keys ih =>
    simp only [scanPlugins] at hs
    split at hs
    · cases hs
    · cases hs
    · rename_i g2 obj2 he
      obtain ⟨e1, e2, e3, e4⟩ := ExpandPlugin_false w hfalse g filename obj key g2 obj2 he
      obtain ⟨i1, i2, i3, i4⟩ := ih g2 obj2 hs
      subst e1
      refine ⟨i1, i2.trans e2, i3.trans e3, ?_⟩
      intro k hk
      rcases List.mem_cons.1 hk with e | hk
      · subst e
        exact e4
      · exact Settled.congr w g2 g filename _ k e2.symm e3.symm (i4 k hk)

theorem expandPlugins_settled (w : World)
    (hfalse : ∀ node file obj, (w.ExpandBuildFileNode node file obj).1 = false →
      (w.ExpandBuildFileNode node file obj).2 = (file, obj))
    (filename : String) (fuel : Nat) (g : Graph) (obj : Json) (g1 : Graph) (obj1 : Json)
    (hs : expandPlugins w filename fuel (g, obj) = .ok (g1, obj1)) :
    ∀ key ∈ obj1.getMemberNames, Settled w g1 filename obj1 key := by
  induction fuel generalizing g obj with
  | zero =>
    simp only [expandPlugins] at hs
    cases hs
  | succ fuel ih =>
    simp only [expandPlugins] at hs
    split at hs
    · cases hs
    · rename_i g2 obj2 he
      exact ih g2 obj2 hs
    · rename_i g2 obj2 he
      cases hs
      obtain ⟨e1, e2, e3, e4⟩ := scanPlugins_false w hfalse filename _ g obj g1 obj1 he
      subst e1
      intro key hk
      exact Settled.congr w g g1 filename _ key e2 e3 (e4 key hk)

/-- C10: provided a plugin that reports no change has changed nothing, whenever the plugin loop
of an attribute object terminates, every keyword of the rewritten object is settled: the file
has no plugin registered for it, or the registered plugin reports no change on the object; and
the second pass parses the keywords of an object only in the state its plugin loop ended in. -/
theorem C10_plugin_fixpoint (w : World) (filename : String) (fuel : Nat)
    (hfalse : ∀ node file obj, (w.ExpandBuildFileNode node file obj).1 = false →
      (w.ExpandBuildFileNode node file obj).2 = (file, obj)) :
    (∀ g obj g1 obj1, expandPlugins w filename fuel (g, obj) = .ok (g1, obj1) →
      ∀ key ∈ obj1.getMemberNames, Settled w g1 filename obj1 key) ∧
    (∀ obj rest g all st, secondPass w filename fuel (obj :: rest) (g, all) = .ok st →
      ∃ g1 obj1 st1, expandPlugins w filename fuel (g, obj) = .ok (g1, obj1) ∧
        (∀ key ∈ obj1.getMemberNames, Settled w g1 filename obj1 key) ∧
        secondPassKeys w filename obj1 obj1.getMemberNames (g1, all) = .ok st1 ∧
        secondPass w filename fuel rest st1 = .ok st) := by
  refine ⟨fun g obj g1 obj1 hs => expandPlugins_settled w hfalse filename fuel g obj g1 obj1 hs, ?_⟩
  intro obj rest g all st hs
  simp only [secondPass] at hs
  split at hs
  · cases hs
  · rename_i g1 obj1 he
    split at hs
    · cases hs
    · rename_i st1 hk
      exact ⟨g1, obj1, st1, he, expandPlugins_settled w hfalse filename fuel g obj g1 obj1 he,
        hk, hs⟩

theorem Example.ExpandBuildFileNode_false (node : Node) (file : BuildFile) (obj : Json)
    (h : (Example.ExpandBuildFileNode node file obj).1 = false) :
    (Example.ExpandBuildFileNode node file obj).2 = (file, obj) := by
  unfold Example.ExpandBuildFileNode at h ⊢
  split
  · rfl
  · rename_i k ks hk
    rw [hk] at h
    cases h

/-- Witness for C10: in scenario S5, after the first pass has registered the plugin `//d:p`, the
plugin loop of the `my_rule` object ends with the single keyword `cc_library`, which is
settled; the parse of `//d:r` then yields a `cc_library` node. -/
theorem C10_witness :
    ∃ g1 obj1 p n,
      Example.s5Registered.nodes.keys = ["//d:p"] ∧
      expandPlugins Example.s5 "d/BUILD" 5 (Example.s5Registered, Example.myRule) =
        .ok (g1, obj1) ∧
      obj1.getMemberNames = ["cc_library"] ∧
      (∀ key ∈ obj1.getMemberNames, Settled Example.s5 g1 "d/BUILD" obj1 key) ∧
      Parser.Parse Example.s5 10 Parser.create (Example.input ["//d:r"]) = .ok p ∧
      p.all_nodes.find? "//d:r" = some n ∧ n.kind = "cc_library" := by
  refine ⟨_, _, _, _, rfl, rfl, rfl, ?_, rfl, rfl, rfl⟩
  exact (C10_plugin_fixpoint Example.s5 "d/BUILD" 5
    (fun node file obj h => Example.ExpandBuildFileNode_false node file obj h)).1
    Example.s5Registered Example.myRule _ _ rfl

/-! ## Theorems: base-dependency wiring -/

/-- The wiring on a node that already declares the base dependency, with the de-duplicating
AddDependencyTarget of the data model: `//d:cfg` is a base dependency of `d/BUILD` and the
library `//d:x` declares the dependencies `//d:cfg`, `//d:y`; after AddFile its dependency
targets are still `//d:cfg`, `//d:y`, the base dependency is not added a second time. -/
theorem Example.basedDeclared_wiring :
    ∃ g4 all g1 n4 n1,
      loadFile Example.basedDeclared (Example.input [])
        (AddFile Example.basedDeclared (Example.input []) 5) 5 "d/BUILD" Graph.empty =
        .ok (g4, all) ∧
      AddFile Example.basedDeclared (Example.input []) 6 "d/BUILD" Graph.empty = .ok g1 ∧
      "//d:x" ∈ all ∧ "//d:cfg" ∈ (g1.file "d/BUILD").base_dependencies ∧
      g4.nodes.find? "//d:x" = some n4 ∧ n4.dep_targets = [⟨"//d:cfg"⟩, ⟨"//d:y"⟩] ∧
      g1.nodes.find? "//d:x" = some n1 ∧ n1.dep_targets = [⟨"//d:cfg"⟩, ⟨"//d:y"⟩] :=
  ⟨_, _, _, _, _, rfl, rfl, by decide, by decide, rfl, rfl, rfl, rfl⟩

/-! ## Theorems: what AddFile does to the build files -/

theorem Graph.file_of_find? (g : Graph) (F : String) (f : BuildFile)
    (h : g.build_files.find? F = some f) : g.file F = f := by
  simp [Graph.file, h]

theorem Keep.rfl_of_allowed {w : World} {R : BuildFile → BuildFile → Prop} {D : Json → Prop}
    (hA : Allowed w R D) (F : String) (g : Graph) : Keep R F g g :=
  ⟨fun _ _ _ h => h, fun f h => ⟨f, h, hA.refl f⟩⟩

theorem Keep.trans_of_allowed {w : World} {R : BuildFile → BuildFile → Prop} {D : Json → Prop}
    (hA : Allowed w R D) {F : String} {g g1 g2 : Graph} (h1 : Keep R F g g1)
    (h2 : Keep R F g1 g2) : Keep R F g g2 := by
  constructor
  · intro Y v hY h
    exact h2.frame Y v hY (h1.frame Y v hY h)
  · intro f h
    obtain ⟨f1, hf1, r1⟩ := h1.file f h
    obtain ⟨f2, hf2, r2⟩ := h2.file f1 hf1
    exact ⟨f2, hf2, hA.trans _ _ _ r1 r2⟩

theorem Keep.of_files_eq {w : World} {R : BuildFile → BuildFile → Prop} {D : Json → Prop}
    (hA : Allowed w R D) (F : String) {g g1 : Graph} (h : g1.build_files = g.build_files) :
    Keep R F g g1 := by
  constructor
  · intro Y v _ hv
    rw [h]
    exact hv
  · intro f hf
    exact ⟨f, by rw [h]; exact hf, hA.refl f⟩

theorem Keep.of_frame {w : World} {R : BuildFile → BuildFile → Prop} {D : Json → Prop}
    (hA : Allowed w R D) (F : String) {g g1 : Graph} (h : Frame g g1) : Keep R F g g1 :=
  ⟨fun Y v _ hv => h Y v hv, fun f hf => ⟨f, h F f hf, hA.refl f⟩⟩

theorem Keep.of_setFile {R : BuildFile → BuildFile → Prop} (F : String) (g : Graph)
    (x : BuildFile) (h : R (g.file F) x) : Keep R F g (g.setFile F x) := by
  constructor
  · intro Y v hY hv
    show (g.build_files.set F x).find? Y = some v
    rw [SMap.find?_set, if_neg (fun e => hY e.symm)]
    exact hv
  · intro f hf
    refine ⟨x, ?_, ?_⟩
    · show (g.build_files.set F x).find? F = some x
      rw [SMap.find?_set, if_pos rfl]
    · rw [Graph.file_of_find? g F f hf] at h
      exact h

theorem saveNodes_files (l : List Node) (st st1 : Graph × List NodePtr)
    (hs : saveNodes l st = .ok st1) : st1.1.build_files = st.1.build_files := by
  induction l generalizing st with
  | nil =>
    simp only [saveNodes] at hs
    cases hs
    rfl
  | cons n rest ih =>
    obtain ⟨g, all⟩ := st
    simp only [saveNodes] at hs
    split at hs
    · cases hs
    · have h := ih _ hs
      exact h

theorem ParseSingleNode_keep {w : World} {R : BuildFile → BuildFile → Prop} {D : Json → Prop}
    (hA : Allowed w R D) (F : String) (obj : Json) (key : String) (st st1 : Graph × List NodePtr)
    (hD : D obj) (hkey : key ∈ obj.getMemberNames)
    (hs : ParseSingleNode w F obj key st = .ok st1) : Keep R F st.1 st1.1 := by
  unfold ParseSingleNode at hs
  split at hs
  · cases hs
  · rename_i node subnodes file hp
    have h1 : Keep R F st.1 (st.1.setFile F file) :=
      Keep.of_setFile F st.1 file (hA.parse obj key _ node subnodes file hD hkey hp)
    exact Keep.trans_of_allowed hA h1 (Keep.of_files_eq hA F (saveNodes_files _ _ _ hs))

theorem firstPassKeys_keep {w : World} {R : BuildFile → BuildFile → Prop} {D : Json → Prop}
    (hA : Allowed w R D) (F : String) (obj : Json) (keys : List String)
    (st st1 : Graph × List NodePtr) (hD : D obj) (hkeys : ∀ key ∈ keys, key ∈ obj.getMemberNames)
    (hs : firstPassKeys w F obj keys st = .ok st1) : Keep R F st.1 st1.1 := by
  induction keys generalizing st with
  | nil =>
    simp only [firstPassKeys] at hs
    cases hs
    exact Keep.rfl_of_allowed hA F _
  | cons key keys ih =>
    simp only [firstPassKeys] at hs
    have hrest : ∀ k ∈ keys, k ∈ obj.getMemberNames :=
      fun k hk => hkeys k (List.mem_cons_of_mem _ hk)
    split at hs
    · split at hs
      · cases hs
      · rename_i st2 hp
        exact Keep.trans_of_allowed hA
          (ParseSingleNode_keep hA F obj key st st2 hD (hkeys key (List.mem_cons_self _ _)) hp)
          (ih st2 hrest hs)
    · exact ih st hrest hs

theorem secondPassKeys_keep {w : World} {R : BuildFile → BuildFile → Prop} {D : Json → Prop}
    (hA : Allowed w R D) (F : String) (obj : Json) (keys : List String)
    (st st1 : Graph × List NodePtr) (hD : D obj) (hkeys : ∀ key ∈ keys, key ∈ obj.getMemberNames)
    (hs : secondPassKeys w F obj keys st = .ok st1) : Keep R F st.1 st1.1 := by
  induction keys generalizing st with
  | nil =>
    simp only [secondPassKeys] at hs
    cases hs
    exact Keep.rfl_of_allowed hA F _
  | cons key keys ih =>
    simp only [secondPassKeys] at hs
    have hrest : ∀ k ∈ keys, k ∈ obj.getMemberNames :=
      fun k hk => hkeys k (List.mem_cons_of_mem _ hk)
    split at hs
    · split at hs
      · cases hs
      · rename_i st2 hp
        exact Keep.trans_of_allowed hA
          (ParseSingleNode_keep hA F obj key st st2 hD (hkeys key (List.mem_cons_self _ _)) hp)
          (ih st2 hrest hs)
    · exact ih st hrest hs

theorem firstPass_keep {w : World} {R : BuildFile → BuildFile → Prop} {D : Json → Prop}
    (hA : Allowed w R D) (F : String) (objs : List Json) (st st1 : Graph × List NodePtr)
    (hD : ∀ obj ∈ objs, D obj) (hs : firstPass w F objs st = .ok st1) :
    Keep R F st.1 st1.1 := by
  induction objs generalizing st with
  | nil =>
    simp only [firstPass] at hs
    cases hs
    exact Keep.rfl_of_allowed hA F _
  | cons o objs ih =>
    simp only [firstPass] at hs
    split at hs
    · cases hs
    · split at hs
      · cases hs
      · rename_i st2 hp
        exact Keep.trans_of_allowed hA
          (firstPassKeys_keep hA F o _ st st2 (hD o (List.mem_cons_self _ _)) (fun _ h => h) hp)
          (ih st2 (fun obj h => hD obj (List.mem_cons_of_mem _ h)) hs)

theorem ExpandPlugin_keep {w : World} {R : BuildFile → BuildFile → Prop} {D : Json → Prop}
    (hA : Allowed w R D) (F : String) (g : Graph) (obj : Json) (key : String)
    (r : Bool × Graph × Json) (hD : D obj) (hs : ExpandPlugin w g F obj key = .ok r) :
    Keep R F g r.2.1 ∧ D r.2.2 := by
  unfold ExpandPlugin at hs
  simp only at hs
  split at hs
  · cases hs
    exact ⟨Keep.rfl_of_allowed hA F g, hD⟩
  · split at hs
    · cases hs
    · rename_i node hnode
      cases hs
      exact ⟨Keep.of_setFile F g _ (hA.expand node (g.file F) obj hD).1,
        (hA.expand node (g.file F) obj hD).2⟩

theorem scanPlugins_keep {w : World} {R : BuildFile → BuildFile → Prop} {D : Json → Prop}
    (hA : Allowed w R D) (F : String) (keys : List String) (st : Graph × Json)
    (r : Bool × Graph × Json) (hD : D st.2) (hs : scanPlugins w F keys st = .ok r) :
    Keep R F st.1 r.2.1 ∧ D r.2.2 := by
  induction keys generalizing st with
  | nil =>
    obtain ⟨g, o⟩ := st
    simp only [scanPlugins] at hs
    cases hs
    exact ⟨Keep.rfl_of_allowed hA F g, hD⟩
  | cons key keys ih =>
    obtain ⟨g, o⟩ := st
    simp only [scanPlugins] at hs
    split at hs
    · cases hs
    · rename_i g1 o1 he
      cases hs
      exact ExpandPlugin_keep hA F g o key _ hD he
    · rename_i g1 o1 he
      obtain ⟨k1, d1⟩ := ExpandPlugin_keep hA F g o key _ hD he
      obtain ⟨k2, d2⟩ := ih (g1, o1) d1 hs
      exact ⟨Keep.trans_of_allowed hA k1 k2, d2⟩

theorem expandPlugins_keep {w : World} {R : BuildFile → BuildFile → Prop} {D : Json → Prop}
    (hA : Allowed w R D) (F : String) (fuel : Nat) (st st1 : Graph × Json) (hD : D st.2)
    (hs : expandPlugins w F fuel st = .ok st1) : Keep R F st.1 st1.1 ∧ D st1.2 := by
  induction fuel generalizing st with
  | zero =>
    simp only [expandPlugins] at hs
    cases hs
  | succ fuel ih =>
    obtain ⟨g, o⟩ := st
    simp only [expandPlugins] at hs
    split at hs
    · cases hs
    · rename_i g1 o1 he
      obtain ⟨k1, d1⟩ := scanPlugins_keep hA F _ (g, o) _ hD he
      obtain ⟨k2, d2⟩ := ih (g1, o1) d1 hs
      exact ⟨Keep.trans_of_allowed hA k1 k2, d2⟩
    · rename_i g1 o1 he
      cases hs
      exact scanPlugins_keep hA F _ (g, o) _ hD he

theorem secondPass_keep {w : World} {R : BuildFile → BuildFile → Prop} {D : Json → Prop}
    (hA : Allowed w R D) (F : String) (fuel : Nat) (objs : List Json)
    (st st1 : Graph × List NodePtr) (hD : ∀ obj ∈ objs, D obj)
    (hs : secondPass w F fuel objs st = .ok st1) : Keep R F st.1 st1.1 := by
  induction objs generalizing st with
  | nil =>
    simp only [secondPass] at hs
    cases hs
    exact Keep.rfl_of_allowed hA F _
  | cons o objs ih =>
    obtain ⟨g, all⟩ := st
    simp only [secondPass] at hs
    split at hs
    · cases hs
    · rename_i g1 o1 he
      split at hs
      · cases hs
      · rename_i st2 hp
        obtain ⟨k1, d1⟩ := expandPlugins_keep hA F fuel (g, o) (g1, o1)
          (hD o (List.mem_cons_self _ _)) he
        have k2 := secondPassKeys_keep hA F o1 _ (g1, all) st2 d1 (fun _ h => h) hp
        exact Keep.trans_of_allowed hA (Keep.trans_of_allowed hA k1 k2)
          (ih st2 (fun obj h => hD obj (List.mem_cons_of_mem _ h)) hs)

theorem preParseTargets_keep {w : World} {R : BuildFile → BuildFile → Prop} {D : Json → Prop}
    (hA : Allowed w R D) (addFile : String → Graph → Except Err Graph)
    (hadd : ∀ f g g1, addFile f g = .ok g1 → Frame g g1) (F : String)
    (ts : List TargetInfo) (g g1 : Graph)
    (hs : preParseTargets w addFile F ts g = .ok g1) : Keep R F g g1 := by
  induction ts generalizing g with
  | nil =>
    simp only [preParseTargets] at hs
    cases hs
    exact Keep.rfl_of_allowed hA F _
  | cons t ts ih =>
    simp only [preParseTargets] at hs
    split at hs
    · cases hs
    · rename_i g2 ha
      exact Keep.trans_of_allowed hA
        (Keep.trans_of_allowed hA (Keep.of_frame hA F (hadd _ _ _ ha))
          (Keep.of_setFile F g2 _ (hA.mergeDependency _ _)))
        (ih _ hs)

theorem preParse_keep {w : World} {R : BuildFile → BuildFile → Prop} {D : Json → Prop}
    (hA : Allowed w R D) (addFile : String → Graph → Except Err Graph)
    (hadd : ∀ f g g1, addFile f g = .ok g1 → Frame g g1) (F : String)
    (ns : List NodePtr) (g g1 : Graph)
    (hs : preParse w addFile F ns g = .ok g1) : Keep R F g g1 := by
  induction ns generalizing g with
  | nil =>
    simp only [preParse] at hs
    cases hs
    exact Keep.rfl_of_allowed hA F _
  | cons n ns ih =>
    simp only [preParse] at hs
    split at hs
    · cases hs
    · split at hs
      · cases hs
      · rename_i g2 ha
        exact Keep.trans_of_allowed hA (preParseTargets_keep hA addFile hadd F _ _ _ ha) (ih _ hs)

theorem ProcessParent_keep {w : World} {R : BuildFile → BuildFile → Prop} {D : Json → Prop}
    (hA : Allowed w R D) (inp : Input) (addFile : String → Graph → Except Err Graph)
    (hadd : ∀ f g g1, addFile f g = .ok g1 → Frame g g1) (F : String) (fuel : Nat)
    (current : String) (g g1 : Graph)
    (hs : ProcessParent w inp addFile F fuel current g = .ok g1) : Keep R F g g1 := by
  induction fuel generalizing current g with
  | zero =>
    simp only [ProcessParent] at hs
    cases hs
  | succ fuel ih =>
    simp only [ProcessParent] at hs
    split at hs
    · cases hs
      exact Keep.rfl_of_allowed hA F _
    · split at hs
      · cases hs
      · rename_i g2 ha
        exact Keep.trans_of_allowed hA
          (Keep.trans_of_allowed hA (Keep.of_frame hA F (hadd _ _ _ ha))
            (Keep.of_setFile F g2 _ (hA.mergeParent _ _)))
          (ih _ _ hs)

theorem wireBaseDeps_files (all : List NodePtr) (ds : List String) (g g1 : Graph)
    (hs : wireBaseDeps all ds g = .ok g1) : g1.build_files = g.build_files := by
  induction ds generalizing g with
  | nil =>
    simp only [wireBaseDeps] at hs
    cases hs
    rfl
  | cons d ds ih =>
    simp only [wireBaseDeps] at hs
    split at hs
    · cases hs
    · have h := ih _ hs
      exact h

/-- The passes of AddFile after the ancestors are merged respect an allowed relation. -/
theorem passes_keep {w : World} {R : BuildFile → BuildFile → Prop} {D : Json → Prop}
    (hA : Allowed w R D) (addFile : String → Graph → Except Err Graph)
    (hadd : ∀ f g g1, addFile f g = .ok g1 → Frame g g1) (F : String) (fuel : Nat)
    (objs : List Json) (hD : ∀ obj ∈ objs, D obj) (ga gb gc : Graph) (nodes : List NodePtr)
    (st : Graph × List NodePtr)
    (h1 : firstPass w F objs (ga, []) = .ok (gb, nodes))
    (h2 : preParse w addFile F nodes gb = .ok gc)
    (h3 : secondPass w F fuel objs (gc, nodes) = .ok st) : Keep R F ga st.1 :=
  Keep.trans_of_allowed hA
    (Keep.trans_of_allowed hA (firstPass_keep hA F objs _ _ hD h1)
      (preParse_keep hA addFile hadd F nodes gb gc h2))
    (secondPass_keep hA F fuel objs _ _ hD h3)

theorem Allowed.trivial (w : World) : Allowed w (fun _ _ => True) (fun _ => True) :=
  ⟨fun _ => True.intro, fun _ _ _ _ _ => True.intro, fun _ _ _ _ _ _ _ _ _ => True.intro,
   fun _ _ _ _ => ⟨True.intro, True.intro⟩, fun _ _ => True.intro, fun _ _ => True.intro⟩

theorem loadFile_keep_trivial (w : World) (inp : Input)
    (addFile : String → Graph → Except Err Graph)
    (hadd : ∀ f g g1, addFile f g = .ok g1 → Frame g g1) (fuel : Nat) (F : String)
    (g : Graph) (st : Graph × List NodePtr)
    (hs : loadFile w inp addFile fuel F g = .ok st) :
    Keep (fun _ _ => True) F (g.setFile F (BuildFile.create F)) st.1 := by
  have hA := Allowed.trivial w
  unfold loadFile at hs
  split at hs
  · cases hs
  · rename_i ga hpp
    split at hs
    · cases hs
    · rename_i objs hread
      split at hs
      · cases hs
      · rename_i gb nodes hfp
        split at hs
        · cases hs
        · rename_i gc hpre
          exact Keep.trans_of_allowed hA
            (ProcessParent_keep hA inp addFile hadd F fuel F _ ga hpp)
            (passes_keep hA addFile hadd F fuel objs (fun _ _ => True.intro) ga gb gc nodes st
              hfp hpre hs)

/-- AddFile leaves every build file that was loaded before the call unchanged, and the file it
was called for is loaded when it returns. -/
theorem AddFile_frame (w : World) (inp : Input) (fuel : Nat) :
    ∀ (F : String) (g g1 : Graph), AddFile w inp fuel F g = .ok g1 →
      Frame g g1 ∧ ∃ f, g1.build_files.find? F = some f := by
  induction fuel with
  | zero =>
    intro F g g1 hs
    simp only [AddFile] at hs
    cases hs
  | succ fuel ih =>
    intro F g g1 hs
    simp only [AddFile] at hs
    split at hs
    · rename_i hc
      cases hs
      exact ⟨fun _ _ h => h, Option.isSome_iff_exists.1 hc⟩
    · rename_i hc
      have hnone : g.build_files.find? F = none := by
        simpa [SMap.contains] using hc
      split at hs
      · cases hs
      · rename_i gd nodes1 hload
        have hk := loadFile_keep_trivial w inp _ (fun f g g1 h => (ih f g g1 h).1) fuel F g _ hload
        have hfiles := wireBaseDeps_files _ _ _ _ hs
        constructor
        · intro Y v hv
          have hY : Y ≠ F := by
            intro e
            rw [e, hnone] at hv
            cases hv
          rw [hfiles]
          apply hk.frame Y v hY
          show (g.build_files.set F _).find? Y = some v
          rw [SMap.find?_set, if_neg (fun e => hY e.symm)]
          exact hv
        · obtain ⟨f1, hf1, _⟩ := hk.file (BuildFile.create F)
            (by show (g.build_files.set F _).find? F = some _
                rw [SMap.find?_set, if_pos rfl])
          exact ⟨f1, by rw [hfiles]; exact hf1⟩

/-! ## Theorems: ancestor inheritance -/

theorem BuildFile.mergeEnv_find? (env other : SMap String) (k : String) :
    (BuildFile.mergeEnv env other).find? k =
      match env.find? k with
      | some v => some v
      | none => other.find? k := by
  induction other generalizing env with
  | nil =>
    simp only [BuildFile.mergeEnv, SMap.find?]
    cases env.find? k <;> rfl
  | cons e other ih =>
    obtain ⟨k1, v1⟩ := e
    simp only [BuildFile.mergeEnv]
    rw [ih]
    by_cases hc : SMap.contains env k1 = true
    · simp only [hc, if_true]
      cases hk : env.find? k with
      | some v => rfl
      | none =>
        simp only [SMap.find?]
        by_cases e : k1 = k
        · subst e
          simp [SMap.contains, hk] at hc
        · simp [e]
    · have hc1 : SMap.contains env k1 = false := by simpa using hc
      simp only [hc1, Bool.false_eq_true, if_false]
      rw [SMap.find?_set]
      by_cases e : k1 = k
      · subst e
        have hnone : env.find? k1 = none := by
          simpa [SMap.contains] using hc
        simp [hnone, SMap.find?]
      · simp only [e, if_false, Bool.false_eq_true]
        cases env.find? k with
        | some v => rfl
        | none => simp [SMap.find?, e]

theorem lookupChain_congr (files files1 : SMap BuildFile) (k : String) (chain : List String)
    (h : ∀ P ∈ chain, files1.find? P = files.find? P) :
    lookupChain files1 k chain = lookupChain files k chain := by
  induction chain with
  | nil => rfl
  | cons P rest ih =>
    simp only [lookupChain]
    rw [h P (List.mem_cons_self _ _), ih (fun Q hQ => h Q (List.mem_cons_of_mem _ hQ))]

theorem lookupChain_split (g : Graph) (k v : String) (pre post : List String) (P : String)
    (hpre : ∀ Q ∈ pre, (g.file Q).inherited_env.find? k = none)
    (hP : (g.file P).inherited_env.find? k = some v) :
    lookupChain g.build_files k (pre ++ P :: post) = some v := by
  induction pre with
  | nil =>
    simp only [List.nil_append, lookupChain]
    unfold Graph.file at hP
    rw [hP]
  | cons Q pre ih =>
    have hq := hpre Q (List.mem_cons_self _ _)
    unfold Graph.file at hq
    simp only [List.cons_append, lookupChain]
    rw [hq]
    exact ih (fun Q1 h => hpre Q1 (List.mem_cons_of_mem _ h))

/-- The state of the child after ProcessParent: its name is unchanged, and for every key it
holds the value it held before or else the value of the nearest ancestor that holds one; every
ancestor is loaded. -/
theorem ProcessParent_env (w : World) (inp : Input)
    (addFile : String → Graph → Except Err Graph)
    (hadd : ∀ f g g1, addFile f g = .ok g1 →
      Frame g g1 ∧ ∃ x, g1.build_files.find? f = some x)
    (F k : String) (fuel : Nat) (current : String) (g g1 : Graph)
    (hF : ∃ f, g.build_files.find? F = some f)
    (hself : F ∉ ancestorChain w inp fuel current)
    (hs : ProcessParent w inp addFile F fuel current g = .ok g1) :
    (g1.file F).filename = (g.file F).filename ∧
    ((g1.file F).inherited_env.find? k =
      match (g.file F).inherited_env.find? k with
      | some v => some v
      | none => lookupChain g1.build_files k (ancestorChain w inp fuel current)) ∧
    (∀ P ∈ ancestorChain w inp fuel current, ∃ f, g1.build_files.find? P = some f) := by
  induction fuel generalizing current g with
  | zero =>
    simp only [ProcessParent] at hs
    cases hs
  | succ fuel ih =>
    simp only [ProcessParent] at hs
    simp only [ancestorChain] at hself ⊢
    split at hs
    · rename_i hstop
      cases hs
      rw [if_pos hstop]
      refine ⟨rfl, ?_, fun P hP => by cases hP⟩
      simp only [lookupChain]
      generalize SMap.find? (Graph.file g1 F).inherited_env k = o
      cases o <;> rfl
    · rename_i hstop
      rw [if_neg hstop] at hself ⊢
      simp only [List.mem_cons, not_or] at hself
      obtain ⟨hFp, hFrest⟩ := hself
      split at hs
      · cases hs
      · rename_i g2 ha
        obtain ⟨hframe, x, hx⟩ := hadd _ _ _ ha
        obtain ⟨f, hf⟩ := hF
        have hf2 : g2.build_files.find? F = some f := hframe F f hf
        have hfileF : g2.file F = g.file F := by
          rw [Graph.file_of_find? g2 F f hf2, Graph.file_of_find? g F f hf]
        have hloaded3 : ∃ f3, (g2.setFile F ((g2.file F).MergeParent
            (g2.file (w.JoinPath (w.JoinPath (w.PathDirname current) "..") "BUILD")))).build_files.find?
              F = some f3 :=
          ⟨(g2.file F).MergeParent
            (g2.file (w.JoinPath (w.JoinPath (w.PathDirname current) "..") "BUILD")), by
            show (g2.build_files.set F _).find? F = some _
            rw [SMap.find?_set, if_pos rfl]⟩
        obtain ⟨i1, i2, i3⟩ := ih _ _ hloaded3 hFrest hs
        have hkeep := ProcessParent_keep (Allowed.trivial w) inp addFile
          (fun f g g1 h => (hadd f g g1 h).1) F fuel _ _ g1 hs
        have hparent1 : g1.build_files.find?
            (w.JoinPath (w.JoinPath (w.PathDirname current) "..") "BUILD") = some x := by
          apply hkeep.frame _ x (fun e => hFp e.symm)
          show (g2.build_files.set F _).find? _ = some x
          rw [SMap.find?_set, if_neg hFp]
          exact hx
        rw [Graph.file_setFile] at i1 i2
        refine ⟨?_, ?_, ?_⟩
        · have hname : ((g2.file F).MergeParent
              (g2.file (w.JoinPath (w.JoinPath (w.PathDirname current) "..") "BUILD"))).filename =
              (g2.file F).filename := rfl
          exact i1.trans (hname.trans (congrArg BuildFile.filename hfileF))
        · rw [i2]
          simp only [BuildFile.MergeParent, BuildFile.mergeEnv_find?, lookupChain, hparent1,
            Option.getD_some]
          rw [hfileF, Graph.file_of_find? g2 _ x hx]
          cases (g.file F).inherited_env.find? k with
          | some v => rfl
          | none => cases x.inherited_env.find? k <;> rfl
        · intro P hP
          rcases List.mem_cons.1 hP with e | hP
          · exact ⟨x, e ▸ hparent1⟩
          · exact i3 P hP

theorem KeepsKey.allowed (w : World) (F k : String) (D : Json → Prop)
    (hclosed : ∀ node file obj, D obj → D (w.ExpandBuildFileNode node file obj).2.2)
    (hexpand : ∀ node file obj, D obj → file.filename = F →
      (w.ExpandBuildFileNode node file obj).2.1.filename = F ∧
      (w.ExpandBuildFileNode node file obj).2.1.inherited_env.find? k =
        file.inherited_env.find? k)
    (hparse : ∀ obj key target file out, D obj → key ∈ obj.getMemberNames →
      file.filename = F → w.nodeParse key target file (obj.get key) = some out →
      out.file.filename = F ∧ out.file.inherited_env.find? k = file.inherited_env.find? k) :
    Allowed w (KeepsKey F k) D := by
  constructor
  · intro f hf
    exact ⟨hf, fun v hv => hv⟩
  · intro a b c hab hbc ha
    obtain ⟨hb, h1⟩ := hab ha
    obtain ⟨hc, h2⟩ := hbc hb
    exact ⟨hc, fun v hv => h2 v (h1 v hv)⟩
  · intro obj key file node subnodes file1 hD hkey hp hfile
    unfold ParseNode at hp
    simp only at hp
    split at hp
    · cases hp
    · split at hp
      · cases hp
      · split at hp
        · cases hp
        · rename_i out hout
          simp only [Except.ok.injEq, Prod.mk.injEq] at hp
          obtain ⟨_, _, hfile1⟩ := hp
          subst hfile1
          have hnamed : (if (!(((obj.get key).get "name").isNull)) = true
              then (((obj.get key).get "name").asString, file)
              else file.NextName "auto_").2.filename = F ∧
              (if (!(((obj.get key).get "name").isNull)) = true
              then (((obj.get key).get "name").asString, file)
              else file.NextName "auto_").2.inherited_env = file.inherited_env := by
            split
            · exact ⟨hfile, rfl⟩
            · exact ⟨hfile, rfl⟩
          obtain ⟨o1, o2⟩ := hparse obj key _ _ out hD hkey hnamed.1 hout
          refine ⟨o1, fun v hv => ?_⟩
          rw [o2, hnamed.2]
          exact hv
  · intro node file obj hD
    refine ⟨?_, hclosed node file obj hD⟩
    intro hfile
    obtain ⟨e1, e2⟩ := hexpand node file obj hD hfile
    exact ⟨e1, fun v hv => by rw [e2]; exact hv⟩
  · intro f p hf
    refine ⟨hf, fun v hv => ?_⟩
    simp only [BuildFile.MergeParent, BuildFile.mergeEnv_find?, hv]
  · intro f o hf
    refine ⟨hf, fun v hv => ?_⟩
    simp only [BuildFile.MergeDependency, BuildFile.mergeEnv_find?, hv]

/-- C8 (as amended): let AddFile load `F`, and let no declaration of `F` (also after plugin
rewriting; the attribute objects satisfying `D`) change what `F` holds for the key `k`.  When
AddFile returns, every ancestor specification of `F` is stored in the graph, and if `P` is the
nearest ancestor that at that moment holds a value for `k` (no ancestor before it in the
chain, nearest first, holds one), `F` holds the value of `P`; when only the root holds a
value, that is the root's value.  An ancestor whose own AddFile is still running then has
merged or parsed only part of what it will hold. -/
theorem C8_ancestor_inheritance (w : World) (inp : Input) (fuel : Nat) (F k v : String)
    (g g1 : Graph) (D : Json → Prop)
    (hnew : g.build_files.contains F = false)
    (h : AddFile w inp (fuel + 1) F g = .ok g1)
    (hself : F ∉ ancestorChain w inp fuel F)
    (hobjs : ∀ objs, w.readBuildFile F = some objs → ∀ obj ∈ objs, D obj)
    (hclosed : ∀ node file obj, D obj → D (w.ExpandBuildFileNode node file obj).2.2)
    (hexpand : ∀ node file obj, D obj → file.filename = F →
      (w.ExpandBuildFileNode node file obj).2.1.filename = F ∧
      (w.ExpandBuildFileNode node file obj).2.1.inherited_env.find? k =
        file.inherited_env.find? k)
    (hparse : ∀ obj key target file out, D obj → key ∈ obj.getMemberNames →
      file.filename = F → w.nodeParse key target file (obj.get key) = some out →
      out.file.filename = F ∧ out.file.inherited_env.find? k = file.inherited_env.find? k)
    (pre post : List String) (P : String)
    (hchain : ancestorChain w inp fuel F = pre ++ P :: post)
    (hpre : ∀ Q ∈ pre, (g1.file Q).inherited_env.find? k = none)
    (hP : (g1.file P).inherited_env.find? k = some v) :
    (g1.file F).inherited_env.find? k = some v ∧
    ∀ Q ∈ ancestorChain w inp fuel F, Q ∈ g1.build_files.keys := by
  have hA := KeepsKey.allowed w F k D hclosed hexpand hparse
  have hadd := AddFile_frame w inp fuel
  simp only [AddFile] at h
  split at h
  · rename_i hc
    rw [hnew] at hc
    cases hc
  split at h
  · cases h
  · rename_i gd nodes1 hload
    have hfiles := wireBaseDeps_files _ _ _ _ h
    unfold loadFile at hload
    split at hload
    · cases hload
    · rename_i ga hpp
      split at hload
      · cases hload
      · rename_i objs hread
        split at hload
        · cases hload
        · rename_i gb nodes hfp
          split at hload
          · cases hload
          · rename_i gc hpre1
            have hF0 : ∃ f, (g.setFile F (BuildFile.create F)).build_files.find? F = some f := by
              refine ⟨BuildFile.create F, ?_⟩
              show (g.build_files.set F _).find? F = some _
              rw [SMap.find?_set, if_pos rfl]
            obtain ⟨e1, e2, e3⟩ := ProcessParent_env w inp _ hadd F k fuel F _ ga hF0 hself hpp
            rw [Graph.file_setFile] at e1 e2
            have hkeep : Keep (KeepsKey F k) F ga gd :=
              passes_keep hA _ (fun f g g1 hh => (hadd f g g1 hh).1) F fuel objs
                (hobjs objs hread) ga gb gc nodes _ hfp hpre1 hload
            have hsame : ∀ Q ∈ ancestorChain w inp fuel F,
                g1.build_files.find? Q = ga.build_files.find? Q := by
              intro Q hQ
              obtain ⟨f, hf⟩ := e3 Q hQ
              have hne : Q ≠ F := fun e => hself (e ▸ hQ)
              rw [hfiles, hf]
              exact hkeep.frame Q f hne hf
            have hlook : lookupChain ga.build_files k (ancestorChain w inp fuel F) = some v := by
              rw [← lookupChain_congr ga.build_files g1.build_files k _ hsame, hchain]
              exact lookupChain_split g1 k v pre post P hpre hP
            have hFa : (ga.file F).inherited_env.find? k = some v := by
              rw [e2]
              show (match SMap.find? (BuildFile.create F).inherited_env k with
                | some v => some v
                | none => lookupChain ga.build_files k (ancestorChain w inp fuel F)) = some v
              simp only [BuildFile.create, SMap.find?]
              exact hlook
            obtain ⟨fa, hfa, _⟩ := (ProcessParent_keep (Allowed.trivial w) inp _
              (fun f g g1 hh => (hadd f g g1 hh).1) F fuel F _ ga hpp).file _ hF0.choose_spec
            obtain ⟨fd, hfd, hR⟩ := hkeep.file fa hfa
            have hfaeq : ga.file F = fa := Graph.file_of_find? ga F fa hfa
            have hfdeq : g1.file F = fd := by
              apply Graph.file_of_find?
              rw [hfiles]
              exact hfd
            rw [hfaeq] at e1 hFa
            constructor
            · rw [hfdeq]
              exact (hR e1).2 v hFa
            · intro Q hQ
              obtain ⟨f, hf⟩ := e3 Q hQ
              exact (SMap.mem_keys_iff _ _).2 ⟨f, by rw [hsame Q hQ]; exact hf⟩

theorem Example.renameKey_decl (k : String)
    (hk : k ∈ ["cc_library"]) :
    Example.renameKey k (Example.decl "cc_library" "x" [] []) =
      Example.decl "cc_library" "x" [] [] := by
  simp only [List.mem_singleton] at hk
  subst hk
  rfl

theorem Example.ExpandBuildFileNode_decl (node : Node) (file : BuildFile) :
    Example.ExpandBuildFileNode node file (Example.decl "cc_library" "x" [] []) =
      ((Example.ExpandBuildFileNode node file (Example.decl "cc_library" "x" [] [])).1, file,
        Example.decl "cc_library" "x" [] []) := by
  unfold Example.ExpandBuildFileNode
  split
  · rfl
  · rename_i k ks hk
    have hmem : k ∈ Example.pluginKeys node file
        (Example.decl "cc_library" "x" [] []).getMemberNames := by
      rw [hk]
      exact List.mem_cons_self _ _
    have hk1 : k ∈ ["cc_library"] := (List.mem_filter.1 hmem).1
    rw [Example.renameKey_decl k hk1]

/-- Witness for C8: in the repository of scenario S3 with the intermediate file `a/BUILD`, the
ancestors of `a/b/BUILD` are `a/BUILD` and `BUILD`; both hold `cxxflags`, and `a/b/BUILD`
holds the value `-O1` of the nearer one; `opt`, which only the root declares, reaches
`a/b/BUILD` with the root's value. -/
theorem C8_witness :
    ∃ g1, AddFile Example.inherit (Example.input []) 6 "a/b/BUILD" Graph.empty = .ok g1 ∧
      ancestorChain Example.inherit (Example.input []) 5 "a/b/BUILD" = ["a/BUILD", "BUILD"] ∧
      (g1.file "a/BUILD").inherited_env.find? "cxxflags" = some "-O1" ∧
      (g1.file "BUILD").inherited_env.find? "cxxflags" = some "-O2" ∧
      (g1.file "BUILD").inherited_env.find? "opt" = some "root" ∧
      (g1.file "a/b/BUILD").inherited_env.find? "opt" = some "root" ∧
      ((g1.file "a/b/BUILD").inherited_env.find? "cxxflags" = some "-O1" ∧
        ∀ Q ∈ ancestorChain Example.inherit (Example.input []) 5 "a/b/BUILD",
          Q ∈ g1.build_files.keys) := by
  refine ⟨_, rfl, rfl, rfl, rfl, rfl, rfl, ?_⟩
  refine C8_ancestor_inheritance Example.inherit (Example.input []) 5 "a/b/BUILD" "cxxflags"
    "-O1" Graph.empty _ (fun obj => obj = Example.decl "cc_library" "x" [] []) rfl rfl
    (by decide) ?_ ?_ ?_ ?_ [] ["BUILD"] "a/BUILD" rfl (fun Q hQ => by cases hQ) rfl
  · intro objs hobjs obj hobj
    have h0 : Example.inherit.readBuildFile "a/b/BUILD" =
        some [Example.decl "cc_library" "x" [] []] := rfl
    rw [h0] at hobjs
    cases hobjs
    simpa using hobj
  · intro node file obj hD
    subst hD
    rw [show Example.inherit.ExpandBuildFileNode = Example.ExpandBuildFileNode from rfl,
      Example.ExpandBuildFileNode_decl]
  · intro node file obj hD hfile
    subst hD
    rw [show Example.inherit.ExpandBuildFileNode = Example.ExpandBuildFileNode from rfl,
      Example.ExpandBuildFileNode_decl]
    exact ⟨hfile, rfl⟩
  · intro obj key target file out hD hkey hfile hout
    subst hD
    have hk : key = "cc_library" := by simpa [Example.decl, Json.getMemberNames] using hkey
    subst hk
    have hout1 : Example.nodeParse "cc_library" target file
        ((Example.decl "cc_library" "x" [] []).get "cc_library") = some out := hout
    simp only [Example.nodeParse, Option.some.injEq] at hout1
    subst hout1
    exact ⟨hfile, rfl⟩

/-- Counterexample to C8 as stated: `//a:t` is requested, so `a/BUILD` is loaded first; its
ancestor, the root, names the pre-parse target `//a/b:x`, so `a/b/BUILD` is loaded while
`a/BUILD` has not yet parsed its `config`.  When the parse has succeeded, the ancestors
`a/BUILD` and `BUILD` of `a/b/BUILD` hold `a` and `root` for `k`, and `a/b/BUILD`, which
declares nothing for `k`, holds `root`, the value of the farther ancestor. -/
theorem C8_counterexample :
    ∃ p fa fr f,
      Parser.Parse Example.cyclic 10 Parser.create (Example.input ["//a:t"]) = .ok p ∧
      ancestorChain Example.cyclic (Example.input ["//a:t"]) 5 "a/b/BUILD" =
        ["a/BUILD", "BUILD"] ∧
      p.builds.find? "a/BUILD" = some fa ∧ fa.inherited_env.find? "k" = some "a" ∧
      p.builds.find? "BUILD" = some fr ∧ fr.inherited_env.find? "k" = some "root" ∧
      p.builds.find? "a/b/BUILD" = some f ∧ f.inherited_env.find? "k" = some "root" :=
  ⟨_, _, _, _, rfl, rfl, rfl, rfl, rfl, rfl, rfl, rfl⟩

/-! ## The plugin loop has no bound -/

theorem ExpandPlugin_error (w : World) (g : Graph) (filename : String) (obj : Json)
    (key : String) (e : Err) (hs : ExpandPlugin w g filename obj key = .error e) :
    ∃ t, e = .checkFailed t := by
  unfold ExpandPlugin at hs
  simp only at hs
  split at hs
  · cases hs
  · split at hs
    · cases hs
      exact ⟨_, rfl⟩
    · cases hs

theorem scanPlugins_error (w : World) (filename : String) (keys : List String) (g : Graph)
    (obj : Json) (e : Err) (hs : scanPlugins w filename keys (g, obj) = .error e) :
    ∃ t, e = .checkFailed t := by
  induction keys generalizing g obj with
  | nil =>
    simp only [scanPlugins] at hs
    cases hs
  | cons key keys ih =>
    simp only [scanPlugins] at hs
    split at hs
    · rename_i e1 he
      cases hs
      exact ExpandPlugin_error w g filename obj key e he
    · cases hs
    · exact ih _ _ hs

theorem expandPlugins_of_rounds (w : World) (filename : String) (n : Nat)
    (st r : Graph × Json) (h : PluginRounds w filename n st r) :
    ∀ fuel, n ≤ fuel → expandPlugins w filename fuel st = .ok r := by
  induction h with
  | last g obj g1 obj1 hscan =>
    intro fuel hf
    obtain ⟨k, rfl⟩ : ∃ k, fuel = k + 1 := ⟨fuel - 1, by omega⟩
    simp only [expandPlugins, hscan]
  | again n g obj g1 obj1 r hscan _ ih =>
    intro fuel hf
    obtain ⟨k, rfl⟩ : ∃ k, fuel = k + 1 := ⟨fuel - 1, by omega⟩
    simp only [expandPlugins, hscan]
    exact ih k (by omega)

theorem rounds_of_expandPlugins (w : World) (filename : String) (fuel : Nat) :
    ∀ (st r : Graph × Json), expandPlugins w filename fuel st = .ok r →
      ∃ n, n ≤ fuel ∧ PluginRounds w filename n st r := by
  induction fuel with
  | zero =>
    intro st r hs
    simp only [expandPlugins] at hs
    cases hs
  | succ fuel ih =>
    intro st r hs
    obtain ⟨g, obj⟩ := st
    simp only [expandPlugins] at hs
    split at hs
    · cases hs
    · rename_i g1 obj1 hscan
      obtain ⟨n, hn, hr⟩ := ih _ _ hs
      exact ⟨n + 1, by omega, PluginRounds.again n g obj g1 obj1 r hscan hr⟩
    · rename_i g1 obj1 hscan
      cases hs
      exact ⟨1, by omega, PluginRounds.last g obj g1 obj1 hscan⟩

theorem expandPlugins_error (w : World) (filename : String) (fuel : Nat) :
    ∀ (st : Graph × Json) (e : Err), expandPlugins w filename fuel st = .error e →
      e = .fuel ∨ ∃ t, e = .checkFailed t := by
  induction fuel with
  | zero =>
    intro st e hs
    simp only [expandPlugins] at hs
    cases hs
    exact Or.inl rfl
  | succ fuel ih =>
    intro st e hs
    obtain ⟨g, obj⟩ := st
    simp only [expandPlugins] at hs
    split at hs
    · rename_i e1 hscan
      cases hs
      exact Or.inr (scanPlugins_error w filename _ g obj e hscan)
    · exact ih _ _ hs
    · cases hs

/-- C11 (as amended): the plugin loop of an attribute object has no bound on its rounds and no
error of its own.  It returns exactly when, after some number `n` of scans that the budget
allows, the first `n - 1` scans each found a plugin reporting a change and the last scan found
none; the only failure it raises is the check of a registered plugin target that has no node
(running out of the recursion budget apart). -/
theorem C11_plugin_loop_unbounded (w : World) (filename : String) (fuel : Nat)
    (st : Graph × Json) :
    (∀ r, expandPlugins w filename fuel st = .ok r ↔
      ∃ n, n ≤ fuel ∧ PluginRounds w filename n st r) ∧
    (∀ e, expandPlugins w filename fuel st = .error e → e = .fuel ∨ ∃ t, e = .checkFailed t) :=
  ⟨fun r => ⟨rounds_of_expandPlugins w filename fuel st r,
    fun ⟨n, hn, hr⟩ => expandPlugins_of_rounds w filename n st r hr fuel hn⟩,
   expandPlugins_error w filename fuel st⟩

theorem Example.eager_scan :
    scanPlugins Example.eager "d/BUILD" Example.myRule.getMemberNames
      (Example.eagerRegistered, Example.myRule) =
      .ok (true, Example.eagerRegistered, Example.myRule) := by
  rfl

theorem Example.eager_loops (fuel : Nat) :
    expandPlugins Example.eager "d/BUILD" fuel (Example.eagerRegistered, Example.myRule) =
      .error .fuel := by
  induction fuel with
  | zero => rfl
  | succ fuel ih =>
    simp only [expandPlugins, Example.eager_scan]
    exact ih

/-- Counterexample for C11: in `d/BUILD` of scenario S5 with a plugin that reports a change on
every call, the plugin `//d:p` is registered for `my_rule`, a scan of the `my_rule` object
reports a change and leaves the state as it was, and for every number of rounds the loop has
neither ended nor failed: it is still running. -/
theorem C11_counterexample :
    (Example.eagerRegistered.file "d/BUILD").GetKey "plugin:my_rule" = "//d:p" ∧
    scanPlugins Example.eager "d/BUILD" Example.myRule.getMemberNames
      (Example.eagerRegistered, Example.myRule) =
      .ok (true, Example.eagerRegistered, Example.myRule) ∧
    ∀ fuel, expandPlugins Example.eager "d/BUILD" fuel
      (Example.eagerRegistered, Example.myRule) = .error .fuel :=
  ⟨rfl, Example.eager_scan, Example.eager_loops⟩

/-! ## Node naming -/

theorem digitChar_toNat : ∀ d, d < 10 → (Nat.digitChar d).toNat - 48 = d := by decide

theorem toDigitsCore_decode (fuel : Nat) :
    ∀ (n : Nat) (ds : List Char), n < fuel →
      (Nat.toDigitsCore 10 fuel n ds).foldl (fun acc c => 10 * acc + (c.toNat - 48)) 0 =
        ds.foldl (fun acc c => 10 * acc + (c.toNat - 48)) n := by
  induction fuel with
  | zero =>
    intro n ds h
    omega
  | succ fuel ih =>
    intro n ds h
    have hd : (Nat.digitChar (n % 10)).toNat - 48 = n % 10 :=
      digitChar_toNat (n % 10) (Nat.mod_lt n (by decide))
    simp only [Nat.toDigitsCore]
    split
    · rename_i h0
      simp only [List.foldl_cons, hd]
      have : n = n % 10 := by omega
      rw [← this]
      simp
    · rename_i h0
      rw [ih (n / 10) _ (by omega)]
      simp only [List.foldl_cons, hd]
      have : 10 * (n / 10) + n % 10 = n := Nat.div_add_mod n 10
      rw [this]

theorem toString_decode (n : Nat) :
    (toString n).data.foldl (fun acc c => 10 * acc + (c.toNat - 48)) 0 = n := by
  show (Nat.toDigitsCore 10 (n + 1) n []).foldl _ 0 = n
  rw [toDigitsCore_decode (n + 1) n [] (by omega)]
  rfl

theorem toString_ne (m n : Nat) (h : m ≠ n) : toString m ≠ toString n := by
  intro e
  apply h
  rw [← toString_decode m, ← toString_decode n, e]

theorem BuildFile.NextName_ne (f f2 : BuildFile) (pre : String)
    (h : f.next_auto_id ≠ f2.next_auto_id) : (f.NextName pre).1 ≠ (f2.NextName pre).1 := by
  intro e
  simp only [BuildFile.NextName] at e
  have e1 := congrArg String.data e
  simp only [String.data_append] at e1
  have e2 := List.append_cancel_left e1
  exact toString_ne _ _ h (String.ext e2)

theorem ParseNode_ok (w : World) (file : BuildFile) (obj : Json) (key : String) (node : Node)
    (subs : List Node) (file1 : BuildFile)
    (hs : ParseNode w file obj key = .ok (node, subs, file1)) :
    (((obj.get key).get "name").isNull = true ∨ ((obj.get key).get "name").isString = true) ∧
    w.NewNode key = true ∧
    ∃ named : String × BuildFile,
      named = (if !((obj.get key).get "name").isNull then (((obj.get key).get "name").asString, file)
        else file.NextName "auto_") ∧
      node.target = w.mkTarget (":" ++ named.1) file.filename ∧ node.kind = key ∧
      ∃ out, w.nodeParse key (w.mkTarget (":" ++ named.1) file.filename) named.2 (obj.get key) =
        some out ∧ file1 = out.file := by
  unfold ParseNode at hs
  simp only at hs
  split at hs
  · cases hs
  · rename_i hname
    split at hs
    · cases hs
    · rename_i hnew
      split at hs
      · cases hs
      · rename_i out hout
        cases hs
        refine ⟨?_, by simpa using hnew, _, rfl, rfl, rfl, out, hout, rfl⟩
        cases h1 : ((obj.get key).get "name").isNull
        · cases h2 : ((obj.get key).get "name").isString
          · simp [h1, h2] at hname
          · exact Or.inr rfl
        · exact Or.inl rfl

theorem ParseNode_anonymous (w : World)
    (hmono : ∀ k t f v out, w.nodeParse k t f v = some out →
      f.next_auto_id ≤ out.file.next_auto_id)
    (file : BuildFile) (obj : Json) (key : String) (node : Node)
    (subs : List Node) (file1 : BuildFile) (hnull : (obj.get key).get "name" = .null)
    (hs : ParseNode w file obj key = .ok (node, subs, file1)) :
    node.target = w.mkTarget (":" ++ ("auto_" ++ toString file.next_auto_id)) file.filename ∧
    file.next_auto_id < file1.next_auto_id := by
  obtain ⟨_, _, named, hnamed, ht, _, out, hout, hf⟩ := ParseNode_ok w file obj key node subs file1 hs
  rw [hnull] at hnamed
  simp only [Json.isNull, Bool.not_true, Bool.false_eq_true, if_false] at hnamed
  subst hnamed
  refine ⟨ht, ?_⟩
  have := hmono _ _ _ _ _ hout
  subst hf
  simp only [BuildFile.NextName] at this
  omega

theorem Example.dirChars_build (dir : List Char) :
    Example.dirChars (dir ++ ['/', 'B', 'U', 'I', 'L', 'D']) = some dir := by
  induction dir with
  | nil => rfl
  | cons c cs ih =>
    show (match Example.dirChars (cs ++ ['/', 'B', 'U', 'I', 'L', 'D']) with
      | some d => some (c :: d)
      | none => if c = '/' then some [] else none) = some (c :: cs)
    rw [ih]

theorem Example.mkTarget_dir (dir rel : String) (h : dir ≠ ".") :
    Example.mkTarget rel (dir ++ "/BUILD") = ⟨"//" ++ dir ++ rel⟩ := by
  have hd : Example.PathDirname (dir ++ "/BUILD") = dir := by
    show (match Example.dirChars (dir.data ++ ['/', 'B', 'U', 'I', 'L', 'D']) with
      | some d => String.mk d
      | none => ".") = dir
    rw [Example.dirChars_build]
  simp only [Example.mkTarget, hd, if_neg h]

theorem Example.nodeParse_counter (k : String) (t : TargetInfo) (f : BuildFile) (v : Json)
    (out : ParseOut) (h : Example.nodeParse k t f v = some out) :
    f.next_auto_id ≤ out.file.next_auto_id := by
  simp only [Example.nodeParse, Option.some.injEq] at h
  subst h
  simp only [Example.fileEffect]
  split
  · exact Nat.le_refl _
  · split <;> exact Nat.le_refl _

/-- C12: ParseNode names a node as follows, provided the `Parse` of a kind never lowers the
counter of synthesised names.  A string `name` n gives the target `TargetInfo(":" + n,
filename)`.  An absent `name` gives the name `auto_` followed by the file's counter, the
counter is higher afterwards, and every anonymous node parsed later in the file gets a
different name; with a counter of 0 in `dir/BUILD` the full path is `//dir:auto_0` under the
canonical target form.  A `name` that is neither absent nor a string, or a keyword unknown to
the builder set, makes the parse fail, and a parse that yields a node had neither. -/
theorem C12_node_naming (w : World)
    (hmono : ∀ k t f v out, w.nodeParse k t f v = some out →
      f.next_auto_id ≤ out.file.next_auto_id)
    (file : BuildFile) (obj : Json) (key : String) :
    (∀ n node subs file1, (obj.get key).get "name" = .str n →
      ParseNode w file obj key = .ok (node, subs, file1) →
      node.target = w.mkTarget (":" ++ n) file.filename) ∧
    (∀ node subs file1, (obj.get key).get "name" = .null →
      ParseNode w file obj key = .ok (node, subs, file1) →
      node.target = w.mkTarget (":" ++ (file.NextName "auto_").1) file.filename ∧
      (file.NextName "auto_").1 = "auto_" ++ toString file.next_auto_id ∧
      file.next_auto_id < file1.next_auto_id ∧
      (∀ dir, w.mkTarget = Example.mkTarget → dir ≠ "." → file.filename = dir ++ "/BUILD" →
        file.next_auto_id = 0 → node.target.full_path = "//" ++ dir ++ ":auto_0") ∧
      ∀ file2 obj2 key2 node2 subs2 file3, file1.next_auto_id ≤ file2.next_auto_id →
        (obj2.get key2).get "name" = .null →
        ParseNode w file2 obj2 key2 = .ok (node2, subs2, file3) →
        node2.target = w.mkTarget (":" ++ (file2.NextName "auto_").1) file2.filename ∧
        (file2.NextName "auto_").1 ≠ (file.NextName "auto_").1) ∧
    (((obj.get key).get "name").isNull = false → ((obj.get key).get "name").isString = false →
      ParseNode w file obj key = .error (.nameNotString file.filename)) ∧
    (w.NewNode key = false → ∃ e, ParseNode w file obj key = .error e) ∧
    (∀ node subs file1, ParseNode w file obj key = .ok (node, subs, file1) →
      w.NewNode key = true ∧
      (((obj.get key).get "name").isNull = true ∨ ((obj.get key).get "name").isString = true)) := by
  refine ⟨?_, ?_, ?_, ?_, ?_⟩
  · intro n node subs file1 hname hs
    obtain ⟨_, _, named, hnamed, ht, _⟩ := ParseNode_ok w file obj key node subs file1 hs
    rw [hname] at hnamed
    simp only [Json.isNull, Json.asString, Bool.not_false, if_true] at hnamed
    subst hnamed
    exact ht
  · intro node subs file1 hname hs
    obtain ⟨ht, hlt⟩ := ParseNode_anonymous w hmono file obj key node subs file1 hname hs
    refine ⟨ht, rfl, hlt, ?_, ?_⟩
    · intro dir hw hdir hfile h0
      rw [ht, hw, hfile, h0, Example.mkTarget_dir dir _ hdir]
      rfl
    · intro file2 obj2 key2 node2 subs2 file3 hle hname2 hs2
      obtain ⟨ht2, _⟩ := ParseNode_anonymous w hmono file2 obj2 key2 node2 subs2 file3 hname2 hs2
      exact ⟨ht2, BuildFile.NextName_ne file2 file "auto_" (by omega)⟩
  · intro h1 h2
    unfold ParseNode
    simp only [h1, h2, Bool.not_false, Bool.and_self, if_true]
  · intro hnew
    unfold ParseNode
    simp only
    split
    · exact ⟨_, rfl⟩
    · simp only [hnew, Bool.not_false, if_true]
      exact ⟨_, rfl⟩
  · intro node subs file1 hs
    obtain ⟨h1, h2, _⟩ := ParseNode_ok w file obj key node subs file1 hs
    exact ⟨h2, h1⟩

/-- Witness for C12: in scenario S2 the first anonymous `cc_library` of `top/BUILD` gets the
full path `//top:auto_0` and leaves the counter at 1, and the next anonymous node gets
`//top:auto_1`. -/
theorem C12_witness :
    ∃ node subs file1 node2 subs2 file3,
      ParseNode Example.s2 (BuildFile.create "top/BUILD") Example.anonymous "cc_library" =
        .ok (node, subs, file1) ∧
      node.target.full_path = "//top:auto_0" ∧ file1.next_auto_id = 1 ∧
      ParseNode Example.s2 file1 Example.anonymous "cc_library" = .ok (node2, subs2, file3) ∧
      node2.target.full_path = "//top:auto_1" ∧
      (node2.target = Example.s2.mkTarget (":" ++ (file1.NextName "auto_").1) file1.filename ∧
        (file1.NextName "auto_").1 ≠ ((BuildFile.create "top/BUILD").NextName "auto_").1) := by
  refine ⟨_, _, _, _, _, _, rfl, rfl, rfl, rfl, rfl, ?_⟩
  exact (C12_node_naming Example.s2 (fun k t f v out h => Example.nodeParse_counter k t f v out h)
    (BuildFile.create "top/BUILD") Example.anonymous "cc_library").2.1 _ _ _ rfl rfl
    |>.2.2.2.2 _ Example.anonymous "cc_library" _ _ _ (Nat.le_refl _) rfl rfl

/-! ## Parsing twice -/

/-- C14: Parser::Parse first resets the four containers of the Parser to empty, so its outcome
does not depend on the state the Parser was in; in particular a second call on the Parser left
by a successful first call, with the same input and repository, yields the very same state:
the same node map with the same `dep_targets` lists, the same input nodes, the same ordered
node list and the same build files. -/
theorem C14_parse_idempotent (w : World) (fuel : Nat) (p : Parser) (inp : Input) :
    p.Reset = { input_nodes := [], all_nodes := [], all_node_vec := [], builds := [] } ∧
    (∀ q, Parser.Parse w fuel q inp = Parser.Parse w fuel p inp) ∧
    (∀ p1, Parser.Parse w fuel p inp = .ok p1 →
      ∃ p2, Parser.Parse w fuel p1 inp = .ok p2 ∧ p2 = p1 ∧
        p2.all_nodes.keys = p1.all_nodes.keys ∧ p2.input_nodes = p1.input_nodes ∧
        (∀ k, (p2.all_nodes.find? k).map Node.dep_targets =
          (p1.all_nodes.find? k).map Node.dep_targets) ∧
        p2.builds.keys = p1.builds.keys) := by
  refine ⟨rfl, fun q => rfl, ?_⟩
  intro p1 h
  have h2 : Parser.Parse w fuel p1 inp = .ok p1 := h
  exact ⟨p1, h2, rfl, rfl, rfl, fun _ => rfl, rfl⟩

/-- Witness for C14: parsing scenario S1 twice in succession with the same Parser gives the
same state both times. -/
theorem C14_witness :
    ∃ p1, Parser.Parse Example.s1 10 Parser.create (Example.input ["//app:main"]) = .ok p1 ∧
      p1.all_nodes.keys = ["//app:main", "//lib:util"] ∧
      ∃ p2, Parser.Parse Example.s1 10 p1 (Example.input ["//app:main"]) = .ok p2 ∧ p2 = p1 ∧
        p2.all_nodes.keys = p1.all_nodes.keys ∧ p2.input_nodes = p1.input_nodes ∧
        (∀ k, (p2.all_nodes.find? k).map Node.dep_targets =
          (p1.all_nodes.find? k).map Node.dep_targets) ∧
        p2.builds.keys = p1.builds.keys := by
  refine ⟨_, rfl, rfl, ?_⟩
  exact (C14_parse_idempotent Example.s1 10 Parser.create (Example.input ["//app:main"])).2.2 _ rfl

/-! ## Queueing of user targets -/

/-- C16: evaluation of the code at the failing input.  With the user targets `//b:x` and
`//a:y`, where `//b:x` depends on `//a:y`, seeding queues both and records them only in its
local set; processing `//b:x` finds `//a:y` absent from `already_queued` and pushes it a
second time, so ProcessTarget runs twice on `//a:y`. -/
theorem C16_user_target_processed_twice :
    (seed (Example.input ["//b:x", "//a:y"]).build_targets ([], [])).2 = ["//b:x", "//a:y"] ∧
    (∃ g1, ProcessTarget Example.twoDirs (Example.input ["//b:x", "//a:y"]) 9 "//b:x"
        { Graph.empty with to_process := ["//b:x", "//a:y"] } = .ok g1 ∧
      g1.to_process = ["//b:x", "//a:y", "//a:y"] ∧ g1.already_queued = ["//a:y"]) ∧
    processOrder Example.twoDirs (Example.input ["//b:x", "//a:y"]) 10
        { Graph.empty with to_process := ["//b:x", "//a:y"] } = ["//b:x", "//a:y", "//a:y"] ∧
    ∃ r, Graph.loop Example.twoDirs (Example.input ["//b:x", "//a:y"]) 10 = .ok r ∧
      r.2.already_queued = ["//a:y"] :=
  ⟨rfl, ⟨_, rfl, rfl, rfl⟩, rfl, ⟨_, rfl, rfl⟩⟩

/-! ## The link check after a completed loop -/

theorem prune_ok (nodes : SMap Node) (keys : List String) (copy : SMap Node)
    (h : ∀ k ∈ keys, ∃ n, nodes.find? k = some n) :
    ∃ copy1, prune nodes keys copy = .ok copy1 := by
  induction keys generalizing copy with
  | nil => exact ⟨copy, rfl⟩
  | cons key rest ih =>
    obtain ⟨n, hn⟩ := h key (List.mem_cons_self _ _)
    simp only [prune, hn]
    exact ih _ (fun k hk => h k (List.mem_cons_of_mem _ hk))

theorem linkNode_ok (key : String) (ts : List TargetInfo) (nodes : SMap Node)
    (h : ∀ t ∈ ts, nodes.contains t.full_path = true) :
    ∃ nodes1, linkNode key ts nodes = .ok nodes1 := by
  induction ts generalizing nodes with
  | nil => exact ⟨nodes, rfl⟩
  | cons t rest ih =>
    simp only [linkNode, h t (List.mem_cons_self _ _), if_true]
    apply ih
    intro t1 ht1
    rw [SMap.contains_modify]
    exact h t1 (List.mem_cons_of_mem _ ht1)

theorem link_ok (es : List (String × Node)) (nodes : SMap Node)
    (h : ∀ e ∈ es, ∀ t ∈ e.2.dep_targets, nodes.contains t.full_path = true) :
    ∃ nodes1, link es nodes = .ok nodes1 := by
  induction es generalizing nodes with
  | nil => exact ⟨nodes, rfl⟩
  | cons e rest ih =>
    obtain ⟨key, node⟩ := e
    obtain ⟨nodes1, h1⟩ := linkNode_ok key node.dep_targets nodes
      (h (key, node) (List.mem_cons_self _ _))
    simp only [link, h1]
    apply ih
    intro e1 he1 t ht
    have hk := (linkNode_spec key node.dep_targets nodes nodes1 h1).1
    rw [SMap.contains_iff, hk, ← SMap.contains_iff]
    exact h e1 (List.mem_cons_of_mem _ he1) t ht

theorem firstNamingChild_error (nodes : SMap Node) (t : TargetInfo) (ps : List NodePtr)
    (e : Err) (h : firstNamingChild nodes t ps = .error e) : ∃ p, e = .checkFailed p := by
  induction ps with
  | nil =>
    simp only [firstNamingChild] at h
    cases h
  | cons p ps ih =>
    simp only [firstNamingChild] at h
    split at h
    · cases h
      exact ⟨p, rfl⟩
    · split at h
      · cases h
      · exact ih h

theorem UserInputHasTarget_error (inp : Input) (nodes : SMap Node) (fuel : Nat) :
    ∀ (node : Node) (e : Err), UserInputHasTarget inp nodes fuel node = .error e →
      e = .fuel ∨ ∃ p, e = .checkFailed p := by
  induction fuel with
  | zero =>
    intro node e h
    simp only [UserInputHasTarget] at h
    cases h
    exact Or.inl rfl
  | succ fuel ih =>
    intro node e h
    simp only [UserInputHasTarget] at h
    split at h
    · cases h
    · split at h
      · rename_i e1 hc
        cases h
        exact Or.inr (firstNamingChild_error nodes _ _ e hc)
      · exact ih _ _ h
      · cases h

theorem classify_error (inp : Input) (nodes : SMap Node) (fuel : Nat)
    (es : List (String × Node)) (acc : List NodePtr) (e : Err)
    (h : classify inp nodes fuel es acc = .error e) : e = .fuel ∨ ∃ p, e = .checkFailed p := by
  induction es generalizing acc with
  | nil =>
    simp only [classify] at h
    cases h
  | cons x rest ih =>
    obtain ⟨key, node⟩ := x
    simp only [classify] at h
    split at h
    · rename_i e1 hu
      cases h
      exact UserInputHasTarget_error inp nodes fuel node e hu
    · exact ih _ h

theorem postParse_error (w : World) (es : List (String × Node)) (e : Err)
    (h : postParse w es = .error e) : ∃ k, e = .postParse k := by
  induction es with
  | nil =>
    simp only [postParse] at h
    cases h
  | cons x rest ih =>
    obtain ⟨key, node⟩ := x
    simp only [postParse] at h
    split at h
    · exact ih h
    · cases h
      exact ⟨key, rfl⟩

theorem ExpandTarget_missing (target : TargetInfo) (g : Graph)
    (h : g.nodes.find? target.full_path = none) :
    ExpandTarget target g = .error (.couldNotFindTarget target.full_path) := by
  simp only [ExpandTarget, h]

/-- C19: when the loop over the queue completes, every processed target has a node (a target
without one stops the loop in ExpandTarget), processing a target never changes a node that is
already stored, pruning succeeds and keeps the processed nodes as the loop left them, every
dependency target of every node that survives pruning has a node in the pruned map, and the
link step succeeds; so the parse never fails with the link step's `Cannot find dependency`. -/
theorem C19_link_check_unreachable (w : World) (inp : Input) (fuel : Nat) (processed : SSet)
    (g : Graph) (hl : Graph.loop w inp fuel = .ok (processed, g)) :
    (∀ t : TargetInfo, g.nodes.find? t.full_path = none →
      ExpandTarget t g = .error (.couldNotFindTarget t.full_path)) ∧
    (∀ p ∈ processed, ∃ n, g.nodes.find? p = some n) ∧
    (∀ k key ga gb, ProcessTarget w inp k key ga = .ok gb →
      ∀ x n, ga.nodes.find? x = some n → gb.nodes.find? x = some n) ∧
    ∃ copy nodes, prune g.nodes (SSet.iter processed) [] = .ok copy ∧
      (∀ k n, copy.find? k = some n → g.nodes.find? k = some n ∧
        ∀ t ∈ n.dep_targets, ∃ m, copy.find? t.full_path = some m) ∧
      link (SMap.iter copy) copy = .ok nodes ∧
      ∀ a b, Graph.Parse w inp fuel ≠ .error (.cannotFind a b) := by
  obtain ⟨_, _, hreach, hex⟩ := bfs_closure w inp fuel processed g hl
  refine ⟨fun t h => ExpandTarget_missing t g h, hex, ?_, ?_⟩
  · intro k key ga gb hpt x n hx
    obtain ⟨g1, _, hext, _, hnodes, _⟩ := ProcessTarget_spec w inp k key ga gb hpt
    rw [hnodes]
    exact hext.nodes x n hx
  obtain ⟨copy, hp⟩ := prune_ok g.nodes (SSet.iter processed) []
    (fun k hk => hex k ((SSet.mem_iter_iff _ _).1 hk))
  obtain ⟨hfind, hnd⟩ := prune_spec _ _ _ _ hp
  have hnodup : copy.keys.Nodup := hnd List.nodup_nil
  have hcopy : ∀ k n, copy.find? k = some n → g.nodes.find? k = some n ∧ k ∈ processed := by
    intro k n hn
    rw [hfind k] at hn
    split at hn
    · rename_i hk
      exact ⟨hn, (SSet.mem_iter_iff _ _).1 hk⟩
    · simp [SMap.find?] at hn
  have hdeps : ∀ k n, copy.find? k = some n →
      ∀ t ∈ n.dep_targets, ∃ m, copy.find? t.full_path = some m := by
    intro k n hn t ht
    obtain ⟨hg, hk⟩ := hcopy k n hn
    have hr : t.full_path ∈ processed :=
      (hreach _).2 (Reach.dep k n t ((hreach k).1 hk) hg ht)
    obtain ⟨m, hm⟩ := hex _ hr
    refine ⟨m, ?_⟩
    rw [hfind, if_pos ((SSet.mem_iter_iff _ _).2 hr)]
    exact hm
  obtain ⟨nodes, hlink⟩ := link_ok (SMap.iter copy) copy (by
    intro e he t ht
    have hm : e ∈ copy := (SMap.mem_iter copy e).1 he
    have hf : copy.find? e.1 = some e.2 := SMap.find?_of_mem copy hnodup e.1 e.2 hm
    obtain ⟨m, hm⟩ := hdeps e.1 e.2 hf t ht
    simp only [SMap.contains, hm, Option.isSome_some])
  refine ⟨copy, nodes, hp, fun k n hn => ⟨(hcopy k n hn).1, hdeps k n hn⟩, hlink, ?_⟩
  intro a b he
  unfold Graph.Parse at he
  simp only [hl, hp, hlink] at he
  split at he
  · rename_i e hc
    cases he
    rcases classify_error inp nodes fuel _ _ _ hc with h | ⟨p, h⟩ <;> cases h
  · split at he
    · rename_i e hc
      cases he
      obtain ⟨k, h⟩ := postParse_error w _ _ hc
      cases h
    · cases he

/-- Witness for C19: in scenario S1 the loop completes with the nodes of both build files, the
pruned map holds `//app:main` and its dependency `//lib:util`, and the link step succeeds. -/
theorem C19_witness :
    ∃ processed g, Graph.loop Example.s1 (Example.input ["//app:main"]) 10 = .ok (processed, g) ∧
      processed = ["//app:main", "//lib:util"] ∧
      ∃ copy nodes, prune g.nodes (SSet.iter processed) [] = .ok copy ∧
        (∀ k n, copy.find? k = some n → g.nodes.find? k = some n ∧
          ∀ t ∈ n.dep_targets, ∃ m, copy.find? t.full_path = some m) ∧
        link (SMap.iter copy) copy = .ok nodes ∧
        ∀ a b, Graph.Parse Example.s1 (Example.input ["//app:main"]) 10 ≠
          .error (.cannotFind a b) := by
  refine ⟨_, _, rfl, rfl, ?_⟩
  exact (C19_link_check_unreachable Example.s1 (Example.input ["//app:main"]) 10 _ _ rfl).2.2.2

/-! ## Termination of the input classification -/

theorem firstNamingChild_ok (nodes : SMap Node) (t : TargetInfo) (ps : List NodePtr)
    (h : ∀ p ∈ ps, ∃ m, nodes.find? p = some m) :
    ∃ r, firstNamingChild nodes t ps = .ok r := by
  induction ps with
  | nil => exact ⟨none, rfl⟩
  | cons p ps ih =>
    obtain ⟨m, hm⟩ := h p (List.mem_cons_self _ _)
    simp only [firstNamingChild, hm]
    split
    · exact ⟨_, rfl⟩
    · exact ih (fun q hq => h q (List.mem_cons_of_mem _ hq))

theorem UserInputHasTarget_terminates (inp : Input) (nodes : SMap Node) (hacyc : Acyclic nodes)
    (hvalid : ∀ a b, DepEdge nodes a b → ∃ m, nodes.find? b = some m) (fuel : Nat) :
    ∀ (visited : List NodePtr) (k : NodePtr) (node : Node), visited.Nodup →
      (∀ v ∈ visited, v ∈ nodes.keys ∧ Relation.TransGen (DepEdge nodes) v k) →
      nodes.find? k = some node → nodes.keys.length ≤ fuel + visited.length →
      ∃ b, UserInputHasTarget inp nodes fuel node = .ok b := by
  induction fuel with
  | zero =>
    intro visited k node hnd hvis hk hlen
    exfalso
    have hnot : k ∉ visited := fun hmem => hacyc k (hvis k hmem).2
    have hsub : (k :: visited) ⊆ nodes.keys := by
      intro x hx
      rcases List.mem_cons.1 hx with e | hx
      · subst e
        exact (SMap.mem_keys_iff nodes x).2 ⟨node, hk⟩
      · exact (hvis x hx).1
    have hle := (List.subperm_of_subset (List.nodup_cons.2 ⟨hnot, hnd⟩) hsub).length_le
    simp only [List.length_cons] at hle
    omega
  | succ fuel ih =>
    intro visited k node hnd hvis hk hlen
    simp only [UserInputHasTarget]
    split
    · exact ⟨true, rfl⟩
    · obtain ⟨r, hr⟩ := firstNamingChild_ok nodes node.target node.dependency_nodes
        (fun p hp => hvalid k p ⟨node, hk, hp⟩)
      rw [hr]
      cases r with
      | none => exact ⟨false, rfl⟩
      | some child =>
        simp only
        obtain ⟨M, hM, hfind, _⟩ := firstNamingChild_some nodes _ _ child hr
        have hedge : DepEdge nodes k M := ⟨node, hk, hM⟩
        have hnot : k ∉ visited := fun hmem => hacyc k (hvis k hmem).2
        refine ih (k :: visited) M child (List.nodup_cons.2 ⟨hnot, hnd⟩) ?_ hfind ?_
        · intro v hv
          rcases List.mem_cons.1 hv with e | hv
          · subst e
            exact ⟨(SMap.mem_keys_iff nodes v).2 ⟨node, hk⟩, Relation.TransGen.single hedge⟩
          · exact ⟨(hvis v hv).1, Relation.TransGen.tail (hvis v hv).2 hedge⟩
        · simp only [List.length_cons]
          omega

theorem Acyclic.of_rank (nodes : SMap Node) (rank : NodePtr → Nat)
    (h : ∀ a b, DepEdge nodes a b → rank b < rank a) : Acyclic nodes := by
  have hlt : ∀ a b, Relation.TransGen (DepEdge nodes) a b → rank b < rank a := by
    intro a b hab
    induction hab with
    | single e => exact h _ _ e
    | tail _ e ih => exact Nat.lt_trans (h _ _ e) ih
  intro a ha
  exact Nat.lt_irrefl _ (hlt a a ha)

theorem Example.reciprocal_loops :
    ∃ x y, Example.reciprocalNodes.find? "//d:x" = some x ∧
      Example.reciprocalNodes.find? "//d:y" = some y ∧
      x.dependency_nodes = ["//d:y"] ∧ y.dependency_nodes = ["//d:x"] ∧
      x.target ∈ y.required_parents ∧ y.target ∈ x.required_parents ∧
      ∀ fuel, UserInputHasTarget (Example.input ["//d:u"]) Example.reciprocalNodes fuel x =
          .error .fuel ∧
        UserInputHasTarget (Example.input ["//d:u"]) Example.reciprocalNodes fuel y =
          .error .fuel := by
  refine ⟨_, _, rfl, rfl, rfl, rfl, by decide, by decide, ?_⟩
  intro fuel
  induction fuel with
  | zero => exact ⟨rfl, rfl⟩
  | succ fuel ih => exact ⟨ih.2, ih.1⟩

/-- C20: UserInputHasTarget on a node N that the user did not request recurses only into the
first node C among `dependency_nodes(N)` whose required parents contain N's target, and returns
false when there is none.  Hence, when the resolved dependency edges of a node map are acyclic
(and every resolved dependency is a node of the map), the call returns for every node of the
map within a recursion depth of the number of nodes.  No visited set guards the recursion: on
two nodes that depend on each other and name each other as required parent, neither requested,
the call does not return for any recursion budget. -/
theorem C20_classification_termination (inp : Input) (nodes : SMap Node) :
    (∀ fuel node, inp.contains_target node.target.full_path = false →
      (∀ child, firstNamingChild nodes node.target node.dependency_nodes = .ok (some child) →
        UserInputHasTarget inp nodes (fuel + 1) node = UserInputHasTarget inp nodes fuel child ∧
        ∃ C ∈ node.dependency_nodes, nodes.find? C = some child ∧
          node.target ∈ child.required_parents) ∧
      (firstNamingChild nodes node.target node.dependency_nodes = .ok none →
        UserInputHasTarget inp nodes (fuel + 1) node = .ok false)) ∧
    (Acyclic nodes → (∀ a b, DepEdge nodes a b → ∃ m, nodes.find? b = some m) →
      ∀ k node, nodes.find? k = some node → ∀ fuel, nodes.keys.length ≤ fuel →
        ∃ b, UserInputHasTarget inp nodes fuel node = .ok b) ∧
    (∃ x y, Example.reciprocalNodes.find? "//d:x" = some x ∧
      Example.reciprocalNodes.find? "//d:y" = some y ∧
      x.dependency_nodes = ["//d:y"] ∧ y.dependency_nodes = ["//d:x"] ∧
      x.target ∈ y.required_parents ∧ y.target ∈ x.required_parents ∧
      ∀ fuel, UserInputHasTarget (Example.input ["//d:u"]) Example.reciprocalNodes fuel x =
          .error .fuel ∧
        UserInputHasTarget (Example.input ["//d:u"]) Example.reciprocalNodes fuel y =
          .error .fuel) := by
  refine ⟨?_, ?_, Example.reciprocal_loops⟩
  · intro fuel node hreq
    constructor
    · intro child hc
      refine ⟨?_, firstNamingChild_some nodes _ _ child hc⟩
      simp only [UserInputHasTarget, hreq, hc, Bool.false_eq_true, if_false]
    · intro hc
      simp only [UserInputHasTarget, hreq, hc, Bool.false_eq_true, if_false]
  · intro hacyc hvalid k node hk fuel hfuel
    exact UserInputHasTarget_terminates inp nodes hacyc hvalid fuel [] k node List.nodup_nil
      (fun v hv => by cases hv) hk (by simpa using hfuel)

theorem Example.s1Nodes_edge (a b : NodePtr) (h : DepEdge Example.s1Nodes a b) :
    a = "//app:main" ∧ b = "//lib:util" := by
  obtain ⟨n, hn, hb⟩ := h
  have hmem := SMap.mem_of_find? _ _ _ hn
  have he : Example.s1Nodes =
      [("//app:main", ⟨⟨"//app:main"⟩, "cc_binary", [⟨"//lib:util"⟩], [], [], ["//lib:util"]⟩),
       ("//lib:util", ⟨⟨"//lib:util"⟩, "cc_library", [], [], [], []⟩)] := rfl
  rw [he] at hmem
  simp only [List.mem_cons, Prod.mk.injEq, List.mem_singleton, List.not_mem_nil, or_false] at hmem
  rcases hmem with ⟨h1, h2⟩ | ⟨h1, h2⟩
  · subst h2
    simp only [List.mem_singleton] at hb
    exact ⟨h1, hb⟩
  · subst h2
    cases hb

/-- Witness for C20: the node map of scenario S1 has the single dependency edge from
`//app:main` to `//lib:util`, so it is acyclic, and the classification of `//lib:util` returns
(with the answer false) within a depth of two, the number of nodes. -/
theorem C20_witness :
    Acyclic Example.s1Nodes ∧ Example.s1Nodes.keys.length = 2 ∧
    ∃ node, Example.s1Nodes.find? "//lib:util" = some node ∧
      UserInputHasTarget (Example.input ["//app:main"]) Example.s1Nodes 2 node = .ok false ∧
      ∃ b, UserInputHasTarget (Example.input ["//app:main"]) Example.s1Nodes 2 node = .ok b := by
  have hacyc : Acyclic Example.s1Nodes :=
    Acyclic.of_rank _ (fun k => if k = "//app:main" then 1 else 0) (fun a b h => by
      obtain ⟨ha, hb⟩ := Example.s1Nodes_edge a b h
      subst ha
      subst hb
      decide)
  refine ⟨hacyc, rfl, _, rfl, rfl, ?_⟩
  exact (C20_classification_termination (Example.input ["//app:main"]) Example.s1Nodes).2.1
    hacyc (fun a b h => by
      obtain ⟨_, hb⟩ := Example.s1Nodes_edge a b h
      subst hb
      exact ⟨_, rfl⟩) "//lib:util" _ rfl 2 (Nat.le_refl _)

/-! ## The link line of a cc_binary -/

theorem concatAll_append (a b : List String) :
    concatAll (a ++ b) = concatAll a ++ concatAll b := by
  induction a with
  | nil => simp [concatAll]
  | cons s rest ih => simp [concatAll, ih, String.append_assoc]

theorem CCBinaryNode.obj_list_eq (rs : List Resource) :
    ∀ acc, CCBinaryNode.obj_list rs acc = acc ++ concatAll (rs.map linkSegment) := by
  induction rs with
  | nil =>
    intro acc
    simp [CCBinaryNode.obj_list, concatAll]
  | cons r rest ih =>
    intro acc
    simp only [CCBinaryNode.obj_list, List.map_cons, concatAll, linkSegment]
    rw [ih]
    cases r.has_tag "alwayslink" <;> simp [String.append_assoc]

theorem linkSegment_words (r : Resource) :
    linkSegment r = concatAll ((linkWordsOf r).map (fun w => " " ++ w.render)) := by
  unfold linkSegment linkWordsOf
  cases r.has_tag "alwayslink"
  · simp [concatAll, LinkWord.render]
  · simp only [if_true, List.map_cons, List.map_nil, concatAll, LinkWord.render,
      String.append_assoc, String.append_empty]
    rfl

theorem concatAll_linkWords (rs : List Resource) :
    concatAll (rs.map linkSegment) =
      concatAll ((linkWords rs).map (fun w => " " ++ w.render)) := by
  induction rs with
  | nil => rfl
  | cons r rest ih =>
    simp only [List.map_cons, concatAll, linkWords, List.map_append, concatAll_append, ih,
      linkSegment_words]

theorem readWords_linkWords (rs : List Resource) :
    readWords (linkWords rs) = some (rs.map (fun r => (r.has_tag "alwayslink", r.path))) := by
  induction rs with
  | nil => rfl
  | cons r rest ih =>
    simp only [linkWords, linkWordsOf, List.map_cons]
    cases r.has_tag "alwayslink"
    · simp [readWords, ih]
    · simp [readWords, ih]

theorem count_start_linkWords (rs : List Resource) :
    (linkWords rs).count .start = (rs.filter (fun r => r.has_tag "alwayslink")).length ∧
    (linkWords rs).count .stop = (rs.filter (fun r => r.has_tag "alwayslink")).length := by
  induction rs with
  | nil => exact ⟨rfl, rfl⟩
  | cons r rest ih =>
    simp only [linkWords, linkWordsOf, List.count_append, List.filter_cons, ih.1, ih.2]
    cases r.has_tag "alwayslink"
    · simp [List.count_cons]
    · simp [List.count_cons]
      omega

theorem paths_linkWords (rs : List Resource) :
    (linkWords rs).filterMap (fun w => match w with
      | .path p => some p
      | _ => none) = rs.map Resource.path := by
  induction rs with
  | nil => rfl
  | cons r rest ih =>
    simp only [linkWords, linkWordsOf, List.filterMap_append, ih, List.map_cons]
    cases r.has_tag "alwayslink"
    · simp [List.filterMap_cons]
    · simp [List.filterMap_cons]

theorem occurrences_skip (p : List Char) (xs tail : List Char) (h : '$' ∉ xs) :
    occurrences ('$' :: p) (xs ++ tail) = occurrences ('$' :: p) tail := by
  induction xs with
  | nil => rfl
  | cons c cs ih =>
    have hc : ('$' == c) = false := by
      simp only [beq_eq_false_iff_ne, ne_eq]
      intro e
      exact h (e ▸ List.mem_cons_self _ _)
    simp only [List.cons_append, occurrences, List.isPrefixOf, hc, Bool.false_and,
      Bool.false_eq_true, if_false, Nat.zero_add]
    exact ih (fun hm => h (List.mem_cons_of_mem _ hm))

theorem occurrences_segment (r : Resource) (tail : List Char) (h : '$' ∉ r.path.data) :
    occurrences "$(LD_FORCE_LINK_START)".data ((linkSegment r).data ++ tail) =
      (if r.has_tag "alwayslink" then 1 else 0) +
        occurrences "$(LD_FORCE_LINK_START)".data tail ∧
    occurrences "$(LD_FORCE_LINK_END)".data ((linkSegment r).data ++ tail) =
      (if r.has_tag "alwayslink" then 1 else 0) +
        occurrences "$(LD_FORCE_LINK_END)".data tail := by
  unfold linkSegment
  cases r.has_tag "alwayslink"
  · simp only [Bool.false_eq_true, if_false, String.data_append, Nat.zero_add]
    constructor
    · show occurrences _ (' ' :: (r.path.data ++ tail)) = _
      simp only [occurrences, List.isPrefixOf]
      simp only [show ('$' == ' ') = false by decide, Bool.false_and, Bool.false_eq_true,
        if_false, Nat.zero_add]
      exact occurrences_skip _ _ _ h
    · show occurrences _ (' ' :: (r.path.data ++ tail)) = _
      simp only [occurrences, List.isPrefixOf]
      simp only [show ('$' == ' ') = false by decide, Bool.false_and, Bool.false_eq_true,
        if_false, Nat.zero_add]
      exact occurrences_skip _ _ _ h
  · simp only [if_true, String.data_append, List.append_assoc]
    constructor
    · simp [occurrences, List.isPrefixOf]
      rw [occurrences_skip _ _ _ h]
      simp [occurrences, List.isPrefixOf]
    · simp [occurrences, List.isPrefixOf]
      rw [occurrences_skip _ _ _ h]
      simp [occurrences, List.isPrefixOf]

theorem occurrences_obj_list (rs : List Resource) (h : ∀ r ∈ rs, '$' ∉ r.path.data) :
    occurrences "$(LD_FORCE_LINK_START)".data (concatAll (rs.map linkSegment)).data =
      (rs.filter (fun r => r.has_tag "alwayslink")).length ∧
    occurrences "$(LD_FORCE_LINK_END)".data (concatAll (rs.map linkSegment)).data =
      (rs.filter (fun r => r.has_tag "alwayslink")).length := by
  induction rs with
  | nil => exact ⟨rfl, rfl⟩
  | cons r rest ih =>
    obtain ⟨i1, i2⟩ := ih (fun x hx => h x (List.mem_cons_of_mem _ hx))
    obtain ⟨s1, s2⟩ := occurrences_segment r (concatAll (rest.map linkSegment)).data
      (h r (List.mem_cons_self _ _))
    simp only [List.map_cons, concatAll, String.data_append, List.filter_cons]
    rw [s1, s2, i1, i2]
    cases r.has_tag "alwayslink"
    · simp
    · simp
      omega

/-- C15: the object list that WriteLink builds is the concatenation, in the order of the
objects, of a blank and the path for an object without the tag `alwayslink`, and of a blank,
the START sentinel, a blank, the path, a blank and the END sentinel for an object with it.
Read as a sequence of words, it holds every path once and in the order of the objects, the
path of an object stands between a START and its END exactly when the object is tagged and
then alone, and there are as many START as END sentinels as tagged objects; for paths without
a dollar sign that is also the number of places at which the text of each sentinel occurs in
the string. -/
theorem C15_link_line (rs : List Resource) :
    CCBinaryNode.obj_list rs "" = concatAll (rs.map linkSegment) ∧
    (∀ r, linkSegment r =
      if r.has_tag "alwayslink" then " $(LD_FORCE_LINK_START) " ++ r.path ++ " $(LD_FORCE_LINK_END)"
      else " " ++ r.path) ∧
    CCBinaryNode.obj_list rs "" = concatAll ((linkWords rs).map (fun w => " " ++ w.render)) ∧
    readWords (linkWords rs) = some (rs.map (fun r => (r.has_tag "alwayslink", r.path))) ∧
    (linkWords rs).filterMap (fun w => match w with
      | .path p => some p
      | _ => none) = rs.map Resource.path ∧
    (linkWords rs).count .start = (rs.filter (fun r => r.has_tag "alwayslink")).length ∧
    (linkWords rs).count .stop = (rs.filter (fun r => r.has_tag "alwayslink")).length ∧
    ((∀ r ∈ rs, '$' ∉ r.path.data) →
      occurrences "$(LD_FORCE_LINK_START)".data (CCBinaryNode.obj_list rs "").data =
        (rs.filter (fun r => r.has_tag "alwayslink")).length ∧
      occurrences "$(LD_FORCE_LINK_END)".data (CCBinaryNode.obj_list rs "").data =
        (rs.filter (fun r => r.has_tag "alwayslink")).length) := by
  have h0 : CCBinaryNode.obj_list rs "" = concatAll (rs.map linkSegment) := by
    rw [CCBinaryNode.obj_list_eq]
    simp
  refine ⟨h0, fun r => rfl, ?_, readWords_linkWords rs, paths_linkWords rs,
    (count_start_linkWords rs).1, (count_start_linkWords rs).2, ?_⟩
  · rw [h0, concatAll_linkWords]
  · intro h
    rw [h0]
    exact occurrences_obj_list rs h

/-- Witness for C15: the link line of an untagged, a tagged and another untagged object. -/
theorem C15_witness :
    CCBinaryNode.obj_list [⟨"a.o", []⟩, ⟨"b.o", ["alwayslink"]⟩, ⟨"c.o", ["x"]⟩] "" =
      " a.o $(LD_FORCE_LINK_START) b.o $(LD_FORCE_LINK_END) c.o" ∧
    readWords (linkWords [⟨"a.o", []⟩, ⟨"b.o", ["alwayslink"]⟩, ⟨"c.o", ["x"]⟩]) =
      some [(false, "a.o"), (true, "b.o"), (false, "c.o")] ∧
    occurrences "$(LD_FORCE_LINK_START)".data
      (CCBinaryNode.obj_list [⟨"a.o", []⟩, ⟨"b.o", ["alwayslink"]⟩, ⟨"c.o", ["x"]⟩] "").data = 1 ∧
    occurrences "$(LD_FORCE_LINK_END)".data
      (CCBinaryNode.obj_list [⟨"a.o", []⟩, ⟨"b.o", ["alwayslink"]⟩, ⟨"c.o", ["x"]⟩] "").data = 1 :=
  ⟨by decide, by decide,
   (C15_link_line [⟨"a.o", []⟩, ⟨"b.o", ["alwayslink"]⟩, ⟨"c.o", ["x"]⟩]).2.2.2.2.2.2.2
     (by decide)⟩

/-! ## The subnodes and the script of a cmake node -/

theorem Node.mem_AddDependencyTarget (n : Node) (t : TargetInfo) :
    t ∈ (n.AddDependencyTarget t).dep_targets ∧
    (n.AddDependencyTarget t).target = n.target ∧ (n.AddDependencyTarget t).kind = n.kind ∧
    ∀ x ∈ n.dep_targets, x ∈ (n.AddDependencyTarget t).dep_targets := by
  unfold Node.AddDependencyTarget
  split
  · rename_i h
    exact ⟨h, rfl, rfl, fun _ hx => hx⟩
  · exact ⟨List.mem_append_right _ (List.mem_singleton_self _), rfl, rfl,
      fun _ hx => List.mem_append_left _ hx⟩

theorem foldl_blank (xs : List String) (acc : String) :
    xs.foldl (fun s it => s ++ (" " ++ it)) acc = acc ++ concatAll (xs.map (fun e => " " ++ e)) := by
  induction xs generalizing acc with
  | nil => simp [concatAll]
  | cons x rest ih =>
    simp only [List.foldl_cons, List.map_cons, concatAll, ih, String.append_assoc]

theorem CmakeNode.user_env_eq (E : List String) : CmakeNode.user_env E = cmakeUserEnv E := by
  unfold CmakeNode.user_env cmakeUserEnv
  cases E with
  | nil => rfl
  | cons e rest =>
    simp only [List.isEmpty_cons, Bool.not_false, if_true, foldl_blank, String.empty_append]
    rw [if_neg (by simp)]

theorem CmakeNode.cmake_cmd_eq (A : List String) : CmakeNode.cmake_cmd A = cmakeCall A := by
  unfold CmakeNode.cmake_cmd cmakeCall
  rw [foldl_blank]

/-- C13: CmakeNode::Parse registers exactly two subnodes with the cmake node, first the
shell-generation subnode (GenSh), then the make subnode (Make).  The shell-generation subnode
is the node NewSubNodeWithCurrentDeps creates and keeps that state; its `dep_targets` are those
the cmake node has at that moment, after its own `Node::Parse`.  The make subnode is the node
NewSubNode creates, with no dependency targets, to which the target of the shell-generation
subnode is added and which is then parsed by `ParseWithOptions`.  So, provided
`ParseWithOptions` keeps the target, the kind and the dependency targets a make node has, the
make subnode's `dep_targets` contain the shell-generation subnode's target after Parse, and
when `ParseWithOptions` leaves the dependency targets as they are, that target is the only
one: the make subnode inherits nothing from the cmake node. -/
theorem C13_cmake_subnodes (lib : NodeLib) (self : Node) (file : BuildFile) (input : Json)
    (hopts : ∀ n f v a b c, (lib.ParseWithOptions n f v a b c).1.target = n.target ∧
      (lib.ParseWithOptions n f v a b c).1.kind = n.kind ∧
      ∀ t ∈ n.dep_targets, t ∈ (lib.ParseWithOptions n f v a b c).1.dep_targets) :
    (CmakeNode.Parse lib self file input).node = (lib.NodeParse self file input).1 ∧
    (CmakeNode.Parse lib self file input).subnodes =
      [(CmakeNode.Parse lib self file input).gen.node.target,
       (CmakeNode.Parse lib self file input).make.node.target] ∧
    (CmakeNode.Parse lib self file input).gen.node = CmakeNode.genCreated lib self file input ∧
    (CmakeNode.Parse lib self file input).gen.node.kind = "gen_sh" ∧
    (CmakeNode.Parse lib self file input).make.node.kind = "make" ∧
    (CmakeNode.genCreated lib self file input).dep_targets =
      (lib.NodeParse self file input).1.dep_targets ∧
    (CmakeNode.makeCreated lib self file input).dep_targets = [] ∧
    (CmakeNode.Parse lib self file input).gen.node.target ∈
      (CmakeNode.Parse lib self file input).make.node.dep_targets ∧
    CmakeNode.genCreated lib self file input =
      (NewSubNodeWithCurrentDeps lib "gen_sh" (CmakeNode.Parse lib self file input).node []
        (lib.NodeParse self file input).2).1 ∧
    CmakeNode.makeCreated lib self file input =
      (NewSubNode lib "make" (CmakeNode.Parse lib self file input).node
        [(CmakeNode.Parse lib self file input).gen.node.target]
        (NewSubNodeWithCurrentDeps lib "gen_sh" (CmakeNode.Parse lib self file input).node []
          (lib.NodeParse self file input).2).2.2).1 ∧
    (CmakeNode.Parse lib self file input).make.node =
      (lib.ParseWithOptions
        ((CmakeNode.makeCreated lib self file input).AddDependencyTarget
          (CmakeNode.Parse lib self file input).gen.node.target)
        (NewSubNode lib "make" (CmakeNode.Parse lib self file input).node
          [(CmakeNode.Parse lib self file input).gen.node.target]
          (NewSubNodeWithCurrentDeps lib "gen_sh" (CmakeNode.Parse lib self file input).node []
            (lib.NodeParse self file input).2).2.2).2.2
        input (CmakeNode.Parse lib self file input).make.preinstall_cmd "$STAGING"
        CmakeNode.postinstall_cmd).1 ∧
    ((CmakeNode.makeCreated lib self file input).AddDependencyTarget
        (CmakeNode.Parse lib self file input).gen.node.target).dep_targets =
      [(CmakeNode.Parse lib self file input).gen.node.target] ∧
    ((∀ n f v a b c, (lib.ParseWithOptions n f v a b c).1.dep_targets = n.dep_targets) →
      (CmakeNode.Parse lib self file input).make.node.dep_targets =
        [(CmakeNode.Parse lib self file input).gen.node.target]) := by
  obtain ⟨h1, h2, h3⟩ := hopts
    ((CmakeNode.makeCreated lib self file input).AddDependencyTarget
      (CmakeNode.genCreated lib self file input).target)
    (NewSubNode lib "make" (lib.NodeParse self file input).1
      (NewSubNodeWithCurrentDeps lib "gen_sh" (lib.NodeParse self file input).1 []
        (lib.NodeParse self file input).2).2.1
      (NewSubNodeWithCurrentDeps lib "gen_sh" (lib.NodeParse self file input).1 []
        (lib.NodeParse self file input).2).2.2).2.2
    input (CmakeNode.build_setup (lib.JoinPath "$ROOT_DIR" (CmakeNode.directory lib self file input)))
    "$STAGING" CmakeNode.postinstall_cmd
  obtain ⟨m1, m2, m3, _⟩ := Node.mem_AddDependencyTarget
    (CmakeNode.makeCreated lib self file input) (CmakeNode.genCreated lib self file input).target
  refine ⟨rfl, ?_, rfl, rfl, ?_, rfl, rfl, ?_, rfl, rfl, rfl, rfl, ?_⟩
  · show [_, _] = [_, _]
    congr 2
    exact (h1.trans m2).symm
  · exact h2.trans m3
  · exact h3 _ m1
  · intro hexact
    exact hexact _ _ _ _ _ _

theorem Node.foldl_AddDependencyTarget (ts : List TargetInfo) (n : Node) :
    (ts.foldl Node.AddDependencyTarget n).target = n.target ∧
    (ts.foldl Node.AddDependencyTarget n).kind = n.kind ∧
    ∀ x ∈ n.dep_targets, x ∈ (ts.foldl Node.AddDependencyTarget n).dep_targets := by
  induction ts generalizing n with
  | nil => exact ⟨rfl, rfl, fun _ h => h⟩
  | cons t rest ih =>
    obtain ⟨i1, i2, i3⟩ := ih (n.AddDependencyTarget t)
    obtain ⟨_, m2, m3, m4⟩ := Node.mem_AddDependencyTarget n t
    exact ⟨i1.trans m2, i2.trans m3, fun x hx => i3 x (m4 x hx)⟩

theorem Example.lib_ParseWithOptions (n : Node) (f : BuildFile) (v : Json) (a b c : String) :
    (Example.lib.ParseWithOptions n f v a b c).1.target = n.target ∧
    (Example.lib.ParseWithOptions n f v a b c).1.kind = n.kind ∧
    ∀ t ∈ n.dep_targets, t ∈ (Example.lib.ParseWithOptions n f v a b c).1.dep_targets :=
  Node.foldl_AddDependencyTarget (Example.targets v "deps") n

theorem Example.libPlain_ParseWithOptions (n : Node) (f : BuildFile) (v : Json)
    (a b c : String) :
    (Example.libPlain.ParseWithOptions n f v a b c).1.target = n.target ∧
    (Example.libPlain.ParseWithOptions n f v a b c).1.kind = n.kind ∧
    ∀ t ∈ n.dep_targets, t ∈ (Example.libPlain.ParseWithOptions n f v a b c).1.dep_targets :=
  ⟨rfl, rfl, fun _ h => h⟩

/-- Witness for C13: the cmake node `//ext:libfoo` of scenario S4, declared with the dependency
`//z:zlib`, registers the subnodes `//ext:libfoo.0` and `//ext:libfoo.1`; the first is created
with the dependency `//z:zlib`, the second with none, and after Parse the second depends on
the first.  With a `ParseWithOptions` that reads the declared dependencies the make subnode
ends with both, with one that leaves the node as it is, with the first subnode alone. -/
theorem C13_witness :
    (CmakeNode.Parse Example.lib Example.libfooNode (BuildFile.create "ext/BUILD")
      Example.libfoo).subnodes = [⟨"//ext:libfoo.0"⟩, ⟨"//ext:libfoo.1"⟩] ∧
    (CmakeNode.Parse Example.lib Example.libfooNode (BuildFile.create "ext/BUILD")
      Example.libfoo).node.dep_targets = [⟨"//z:zlib"⟩] ∧
    (CmakeNode.genCreated Example.lib Example.libfooNode (BuildFile.create "ext/BUILD")
      Example.libfoo).dep_targets = [⟨"//z:zlib"⟩] ∧
    (CmakeNode.makeCreated Example.lib Example.libfooNode (BuildFile.create "ext/BUILD")
      Example.libfoo).dep_targets = [] ∧
    (CmakeNode.Parse Example.lib Example.libfooNode (BuildFile.create "ext/BUILD")
      Example.libfoo).make.node.dep_targets = [⟨"//ext:libfoo.0"⟩, ⟨"//z:zlib"⟩] ∧
    (CmakeNode.Parse Example.lib Example.libfooNode (BuildFile.create "ext/BUILD")
      Example.libfoo).gen.node.target ∈
      (CmakeNode.Parse Example.lib Example.libfooNode (BuildFile.create "ext/BUILD")
        Example.libfoo).make.node.dep_targets ∧
    (CmakeNode.Parse Example.libPlain Example.libfooNode (BuildFile.create "ext/BUILD")
      Example.libfoo).node.dep_targets = [⟨"//z:zlib"⟩] ∧
    (CmakeNode.Parse Example.libPlain Example.libfooNode (BuildFile.create "ext/BUILD")
      Example.libfoo).make.node.dep_targets =
      [(CmakeNode.Parse Example.libPlain Example.libfooNode (BuildFile.create "ext/BUILD")
        Example.libfoo).gen.node.target] :=
  ⟨rfl, rfl, rfl, rfl, rfl,
   (C13_cmake_subnodes Example.lib Example.libfooNode (BuildFile.create "ext/BUILD")
     Example.libfoo Example.lib_ParseWithOptions).2.2.2.2.2.2.2.1,
   rfl,
   (C13_cmake_subnodes Example.libPlain Example.libfooNode (BuildFile.create "ext/BUILD")
     Example.libfoo Example.libPlain_ParseWithOptions).2.2.2.2.2.2.2.2.2.2.2.2
     (fun _ _ _ _ _ _ => rfl)⟩

/-- C18: the script CmakeNode::Parse gives to the shell-generation subnode is S, a semicolon
and a blank, U, `CC=$CC CXX=$CXX ` and a blank, and C, where S is the setup command for the
attribute `cmake_dir` (the directory of the owning target when it is empty) joined to
`$ROOT_DIR`, U holds the entries of `cmake_env` and C the cmake call with the entries of
`cmake_args`; the make subnode is parsed with the pre-install command S, the install prefix
`$STAGING` and the post-install command of cmake.cc 78-90. -/
theorem C18_cmake_command (lib : NodeLib) (self : Node) (file : BuildFile) (input : Json) :
    (CmakeNode.Parse lib self file input).gen.build_cmd =
      cmakeSetup lib.JoinPath (CmakeNode.directory lib self file input) ++ "; " ++
        cmakeUserEnv (lib.ParseRepeatedString input "cmake_env") ++ "CC=$CC CXX=$CXX " ++ " " ++
        cmakeCall (lib.ParseRepeatedStringFlag input "cmake_args" true) ∧
    (CmakeNode.Parse lib self file input).gen.make_name = "Cmake" ∧
    (CmakeNode.Parse lib self file input).gen.clean_cmd = "" ∧
    (CmakeNode.Parse lib self file input).make.preinstall_cmd =
      cmakeSetup lib.JoinPath (CmakeNode.directory lib self file input) ∧
    (CmakeNode.Parse lib self file input).make.dest_dir = "$STAGING" ∧
    (∃ make0 file0, (CmakeNode.Parse lib self file input).make.node =
      (lib.ParseWithOptions make0 file0 input
        (cmakeSetup lib.JoinPath (CmakeNode.directory lib self file input)) "$STAGING"
        CmakeNode.postinstall_cmd).1) := by
  refine ⟨?_, rfl, rfl, rfl, rfl, _, _, rfl⟩
  show CmakeNode.build_setup _ ++ "; " ++ (CmakeNode.user_env _ ++ "CC=$CC CXX=$CXX ") ++ " " ++
    CmakeNode.cmake_cmd _ = _
  rw [CmakeNode.user_env_eq, CmakeNode.cmake_cmd_eq]
  simp only [String.append_assoc]
  rfl

set_option maxRecDepth 100000 in
/-- Witness for C18: the script and the make options of the cmake node `//ext:libfoo` with the
environment entry `A=1` and the argument `-DFOO=1`. -/
theorem C18_witness :
    (CmakeNode.Parse Example.lib Example.libfooNode (BuildFile.create "ext/BUILD")
      Example.libfoo).gen.build_cmd =
      "BASE=$ROOT_DIR/ext; DEST_DIR=$GEN_DIR; mkdir -p $DEST_DIR/build; STAGING=$DEST_DIR/.staging; cd $GEN_DIR/build;  A=1; CC=$CC CXX=$CXX  cmake -DCMAKE_INSTALL_PREFIX=. -B . $BASE -DCMAKE_CXX_FLAGS=\"$BASIC_CXXFLAGS $USER_CXXFLAGS\" -DCMAKE_C_FLAGS=\"$BASIC_CFLAGS $USER_CFLAGS\" -DFOO=1" ∧
    (CmakeNode.Parse Example.lib Example.libfooNode (BuildFile.create "ext/BUILD")
      Example.libfoo).make.preinstall_cmd =
      "BASE=$ROOT_DIR/ext; DEST_DIR=$GEN_DIR; mkdir -p $DEST_DIR/build; STAGING=$DEST_DIR/.staging; cd $GEN_DIR/build" ∧
    (CmakeNode.Parse Example.lib Example.libfooNode (BuildFile.create "ext/BUILD")
      Example.libfoo).make.dest_dir = "$STAGING" :=
  ⟨(C18_cmake_command Example.lib Example.libfooNode (BuildFile.create "ext/BUILD")
      Example.libfoo).1.trans rfl,
   (C18_cmake_command Example.lib Example.libfooNode (BuildFile.create "ext/BUILD")
      Example.libfoo).2.2.2.1.trans rfl,
   rfl⟩

/-! ## The order of the two passes -/

theorem firstPassKeys_filter (w : World) (F : String) (obj : Json) (keys : List String) :
    ∀ st, firstPassKeys w F obj keys st =
      parseKeys w F obj (keys.filter (fun k => decide (k = "config" ∨ k = "plugin"))) st := by
  induction keys with
  | nil => intro st; rfl
  | cons key keys ih =>
    intro st
    by_cases hk : key = "config" ∨ key = "plugin"
    · simp only [firstPassKeys, if_pos hk, List.filter_cons, decide_eq_true hk, if_true, parseKeys]
      cases ParseSingleNode w F obj key st with
      | error e => rfl
      | ok st1 => exact ih st1
    · simp only [firstPassKeys, if_neg hk, List.filter_cons, decide_eq_false hk,
        Bool.false_eq_true, if_false]
      exact ih st

theorem secondPassKeys_filter (w : World) (F : String) (obj : Json) (keys : List String) :
    ∀ st, secondPassKeys w F obj keys st =
      parseKeys w F obj (keys.filter (fun k => decide (k ≠ "config" ∧ k ≠ "plugin"))) st := by
  induction keys with
  | nil => intro st; rfl
  | cons key keys ih =>
    intro st
    by_cases hk : key ≠ "config" ∧ key ≠ "plugin"
    · simp only [secondPassKeys, if_pos hk, List.filter_cons, decide_eq_true hk, if_true,
        parseKeys]
      cases ParseSingleNode w F obj key st with
      | error e => rfl
      | ok st1 => exact ih st1
    · simp only [secondPassKeys, if_neg hk, List.filter_cons, decide_eq_false hk,
        Bool.false_eq_true, if_false]
      exact ih st

theorem loadFile_phases (w : World) (inp : Input) (addFile : String → Graph → Except Err Graph)
    (fuel : Nat) (F : String) (g : Graph) (st : Graph × List NodePtr)
    (hs : loadFile w inp addFile fuel F g = .ok st) :
    ∃ g1 objs g2 cfg g3,
      ProcessParent w inp addFile F fuel F (g.setFile F (BuildFile.create F)) = .ok g1 ∧
      w.readBuildFile F = some objs ∧
      firstPass w F objs (g1, []) = .ok (g2, cfg) ∧
      preParse w addFile F cfg g2 = .ok g3 ∧
      secondPass w F fuel objs (g3, cfg) = .ok st := by
  unfold loadFile at hs
  split at hs
  · cases hs
  · rename_i g1 h1
    split at hs
    · cases hs
    · rename_i objs h2
      split at hs
      · cases hs
      · rename_i g2 cfg h3
        split at hs
        · cases hs
        · rename_i g3 h4
          exact ⟨g1, objs, g2, cfg, g3, h1, h2, h3, h4, hs⟩

theorem firstPassKeys_append (w : World) (F : String) (obj : Json) (a b : List String) :
    ∀ st, firstPassKeys w F obj (a ++ b) st =
      match firstPassKeys w F obj a st with
      | .error e => .error e
      | .ok st1 => firstPassKeys w F obj b st1 := by
  induction a with
  | nil => intro st; rfl
  | cons key keys ih =>
    intro st
    simp only [List.cons_append, firstPassKeys]
    split
    · cases ParseSingleNode w F obj key st with
      | error e => rfl
      | ok st1 => exact ih st1
    · exact ih st

theorem secondPassKeys_append (w : World) (F : String) (obj : Json) (a b : List String) :
    ∀ st, secondPassKeys w F obj (a ++ b) st =
      match secondPassKeys w F obj a st with
      | .error e => .error e
      | .ok st1 => secondPassKeys w F obj b st1 := by
  induction a with
  | nil => intro st; rfl
  | cons key keys ih =>
    intro st
    simp only [List.cons_append, secondPassKeys]
    split
    · cases ParseSingleNode w F obj key st with
      | error e => rfl
      | ok st1 => exact ih st1
    · exact ih st

theorem FirstPassAt.firstPass_fails {w : World} {F : String} {objs : List Json}
    {st : Graph × List NodePtr} {obj : Json} {key : String} {st1 : Graph × List NodePtr}
    (h : FirstPassAt w F objs st obj key st1) (e : Err)
    (he : ParseSingleNode w F obj key st1 = .error e) : firstPass w F objs st = .error e := by
  induction h with
  | here obj rest st st1 before after key hobj hkeys hkey hpre =>
    simp only [firstPass, hobj, Bool.not_true, Bool.false_eq_true, if_false, hkeys,
      firstPassKeys_append, hpre, firstPassKeys, if_pos hkey, he]
  | later obj rest st st2 obj1 key st1 hobj hkeys _ ih =>
    simp only [firstPass, hobj, Bool.not_true, Bool.false_eq_true, if_false, hkeys]
    exact ih he

theorem SecondPassAt.secondPass_fails {w : World} {F : String} {fuel : Nat} {objs : List Json}
    {st : Graph × List NodePtr} {obj : Json} {key : String} {st1 : Graph × List NodePtr}
    (h : SecondPassAt w F fuel objs st obj key st1) (e : Err)
    (he : ParseSingleNode w F obj key st1 = .error e) :
    secondPass w F fuel objs st = .error e := by
  induction h with
  | here obj rest g all g1 obj1 before after key st1 hexp hkeys hc hp hpre =>
    simp only [secondPass, hexp, hkeys, secondPassKeys_append, hpre, secondPassKeys,
      if_pos (And.intro hc hp), he]
  | later obj rest g all g1 obj1 st2 o key st1 hexp hkeys _ ih =>
    simp only [secondPass, hexp, hkeys]
    exact ih he

theorem DeclAt.addFile_fails {w : World} {inp : Input} {fuel : Nat} {F : String} {g : Graph}
    {obj : Json} {key : String} {st1 : Graph × List NodePtr}
    (h : DeclAt w inp fuel F g obj key st1) (e : Err)
    (he : ParseSingleNode w F obj key st1 = .error e) :
    AddFile w inp (fuel + 1) F g = .error e := by
  obtain ⟨hnew, g1, objs, hpp, hread, hat⟩ := h
  have hload : loadFile w inp (AddFile w inp fuel) fuel F g = .error e := by
    unfold loadFile
    simp only [hpp, hread]
    rcases hat with h1 | ⟨g2, cfg, g3, hfirst, hpre, h2⟩
    · simp only [h1.firstPass_fails e he]
    · simp only [hfirst, hpre, h2.secondPass_fails e he]
  simp only [AddFile, hnew, Bool.false_eq_true, if_false, hload]

theorem saveNodes_track (l : List Node) (st st1 : Graph × List NodePtr)
    (hs : saveNodes l st = .ok st1) :
    (Tracked st → Tracked st1) ∧ (st.1.nodes.keys.Nodup → st1.1.nodes.keys.Nodup) ∧
    st1.2 = st.2 ++ l.map (fun n => n.target.full_path) := by
  induction l generalizing st with
  | nil =>
    simp only [saveNodes] at hs
    cases hs
    exact ⟨fun h => h, fun h => h, by simp⟩
  | cons n rest ih =>
    obtain ⟨g, all⟩ := st
    simp only [saveNodes] at hs
    split at hs
    · cases hs
    · rename_i hc
      have hfalse : g.nodes.contains n.target.full_path = false := by simpa using hc
      obtain ⟨i1, i2, i3⟩ := ih _ hs
      refine ⟨fun ht => i1 ?_, fun hk => i2 (SMap.nodup_keys_set _ _ _ hk), ?_⟩
      · obtain ⟨hst, hnd⟩ := ht
        constructor
        · intro k hk
          show (g.nodes.set n.target.full_path n).contains k = true
          unfold SMap.contains
          rw [SMap.find?_set]
          split
          · rfl
          · rcases List.mem_append.1 hk with hk | hk
            · exact hst k hk
            · rename_i hne
              simp only [List.mem_singleton] at hk
              exact absurd hk.symm hne
        · refine List.Nodup.append hnd (List.nodup_singleton _) ?_
          intro x hx hx1
          simp only [List.mem_singleton] at hx1
          subst hx1
          have := hst _ hx
          simp only at this
          rw [hfalse] at this
          cases this
      · rw [i3]
        simp

theorem ParseSingleNode_track (w : World) (F : String) (obj : Json) (key : String)
    (st st1 : Graph × List NodePtr) (hs : ParseSingleNode w F obj key st = .ok st1) :
    (Tracked st → Tracked st1) ∧ (st.1.nodes.keys.Nodup → st1.1.nodes.keys.Nodup) ∧
    ∃ node subnodes file, ParseNode w (st.1.file F) obj key = .ok (node, subnodes, file) ∧
      st1.2 = st.2 ++ (subnodes ++ [node]).map (fun n => n.target.full_path) := by
  unfold ParseSingleNode at hs
  split at hs
  · cases hs
  · rename_i node subnodes file hp
    obtain ⟨i1, i2, i3⟩ := saveNodes_track _ (st.1.setFile F file, st.2) st1 hs
    exact ⟨fun h => i1 h, fun h => i2 h, node, subnodes, file, hp, i3⟩

theorem parseKeys_track (w : World) (F : String) (obj : Json) (keys : List String)
    (st st1 : Graph × List NodePtr) (hs : parseKeys w F obj keys st = .ok st1) :
    (Tracked st → Tracked st1) ∧ (st.1.nodes.keys.Nodup → st1.1.nodes.keys.Nodup) := by
  induction keys generalizing st with
  | nil =>
    simp only [parseKeys] at hs
    cases hs
    exact ⟨fun h => h, fun h => h⟩
  | cons key keys ih =>
    simp only [parseKeys] at hs
    split at hs
    · cases hs
    · rename_i st2 hp
      obtain ⟨a1, a2, _⟩ := ParseSingleNode_track w F obj key st st2 hp
      obtain ⟨b1, b2⟩ := ih st2 hs
      exact ⟨fun h => b1 (a1 h), fun h => b2 (a2 h)⟩

theorem firstPass_track (w : World) (F : String) (objs : List Json)
    (st st1 : Graph × List NodePtr) (hs : firstPass w F objs st = .ok st1) :
    (Tracked st → Tracked st1) ∧ (st.1.nodes.keys.Nodup → st1.1.nodes.keys.Nodup) := by
  induction objs generalizing st with
  | nil =>
    simp only [firstPass] at hs
    cases hs
    exact ⟨fun h => h, fun h => h⟩
  | cons o objs ih =>
    simp only [firstPass] at hs
    split at hs
    · cases hs
    · split at hs
      · cases hs
      · rename_i st2 hp
        rw [firstPassKeys_filter] at hp
        obtain ⟨a1, a2⟩ := parseKeys_track w F o _ st st2 hp
        obtain ⟨b1, b2⟩ := ih st2 hs
        exact ⟨fun h => b1 (a1 h), fun h => b2 (a2 h)⟩

theorem ExpandPlugin_nodes (w : World) (g : Graph) (F : String) (obj : Json) (key : String)
    (r : Bool × Graph × Json) (hs : ExpandPlugin w g F obj key = .ok r) :
    r.2.1.nodes = g.nodes := by
  unfold ExpandPlugin at hs
  simp only at hs
  split at hs
  · cases hs
    rfl
  · split at hs
    · cases hs
    · cases hs
      rfl

theorem scanPlugins_nodes (w : World) (F : String) (keys : List String) (st : Graph × Json)
    (r : Bool × Graph × Json) (hs : scanPlugins w F keys st = .ok r) :
    r.2.1.nodes = st.1.nodes := by
  induction keys generalizing st with
  | nil =>
    obtain ⟨g, o⟩ := st
    simp only [scanPlugins] at hs
    cases hs
    rfl
  | cons key keys ih =>
    obtain ⟨g, o⟩ := st
    simp only [scanPlugins] at hs
    split at hs
    · cases hs
    · rename_i g1 o1 he
      cases hs
      exact ExpandPlugin_nodes w g F o key _ he
    · rename_i g1 o1 he
      exact (ih (g1, o1) hs).trans (ExpandPlugin_nodes w g F o key _ he)

theorem expandPlugins_nodes (w : World) (F : String) (fuel : Nat) (st st1 : Graph × Json)
    (hs : expandPlugins w F fuel st = .ok st1) : st1.1.nodes = st.1.nodes := by
  induction fuel generalizing st with
  | zero =>
    simp only [expandPlugins] at hs
    cases hs
  | succ fuel ih =>
    obtain ⟨g, o⟩ := st
    simp only [expandPlugins] at hs
    split at hs
    · cases hs
    · rename_i g1 o1 he
      exact (ih (g1, o1) hs).trans (scanPlugins_nodes w F _ (g, o) _ he)
    · rename_i g1 o1 he
      cases hs
      exact scanPlugins_nodes w F _ (g, o) _ he

theorem secondPass_track (w : World) (F : String) (fuel : Nat) (objs : List Json)
    (st st1 : Graph × List NodePtr) (hs : secondPass w F fuel objs st = .ok st1) :
    (Tracked st → Tracked st1) ∧ (st.1.nodes.keys.Nodup → st1.1.nodes.keys.Nodup) := by
  induction objs generalizing st with
  | nil =>
    simp only [secondPass] at hs
    cases hs
    exact ⟨fun h => h, fun h => h⟩
  | cons o objs ih =>
    obtain ⟨g, all⟩ := st
    simp only [secondPass] at hs
    split at hs
    · cases hs
    · rename_i g1 o1 he
      split at hs
      · cases hs
      · rename_i st2 hp
        have hn : g1.nodes = g.nodes := expandPlugins_nodes w F fuel (g, o) (g1, o1) he
        rw [secondPassKeys_filter] at hp
        obtain ⟨a1, a2⟩ := parseKeys_track w F o1 _ (g1, all) st2 hp
        obtain ⟨b1, b2⟩ := ih st2 hs
        refine ⟨fun h => b1 (a1 ?_), fun h => b2 (a2 ?_)⟩
        · exact ⟨fun k hk => by show g1.nodes.contains k = true; rw [hn]; exact h.1 k hk, h.2⟩
        · show g1.nodes.keys.Nodup
          rw [hn]
          exact h

theorem preParseTargets_keys (w : World) (addFile : String → Graph → Except Err Graph)
    (hadd : ∀ f g g1, addFile f g = .ok g1 → g.nodes.keys.Nodup → g1.nodes.keys.Nodup)
    (F : String) (ts : List TargetInfo) (g g1 : Graph)
    (hs : preParseTargets w addFile F ts g = .ok g1) :
    g.nodes.keys.Nodup → g1.nodes.keys.Nodup := by
  induction ts generalizing g with
  | nil =>
    simp only [preParseTargets] at hs
    cases hs
    exact fun h => h
  | cons t ts ih =>
    simp only [preParseTargets] at hs
    split at hs
    · cases hs
    · rename_i g2 ha
      intro h
      have h2 := hadd _ _ _ ha h
      exact ih _ hs h2

theorem preParse_keys (w : World) (addFile : String → Graph → Except Err Graph)
    (hadd : ∀ f g g1, addFile f g = .ok g1 → g.nodes.keys.Nodup → g1.nodes.keys.Nodup)
    (F : String) (ns : List NodePtr) (g g1 : Graph)
    (hs : preParse w addFile F ns g = .ok g1) :
    g.nodes.keys.Nodup → g1.nodes.keys.Nodup := by
  induction ns generalizing g with
  | nil =>
    simp only [preParse] at hs
    cases hs
    exact fun h => h
  | cons n ns ih =>
    simp only [preParse] at hs
    split at hs
    · cases hs
    · split at hs
      · cases hs
      · rename_i g2 ha
        exact fun h => ih _ hs (preParseTargets_keys w addFile hadd F _ _ _ ha h)

theorem ProcessParent_keys (w : World) (inp : Input)
    (addFile : String → Graph → Except Err Graph)
    (hadd : ∀ f g g1, addFile f g = .ok g1 → g.nodes.keys.Nodup → g1.nodes.keys.Nodup)
    (child : String) (fuel : Nat) (current : String) (g g1 : Graph)
    (hs : ProcessParent w inp addFile child fuel current g = .ok g1) :
    g.nodes.keys.Nodup → g1.nodes.keys.Nodup := by
  induction fuel generalizing current g with
  | zero =>
    simp only [ProcessParent] at hs
    cases hs
  | succ fuel ih =>
    simp only [ProcessParent] at hs
    split at hs
    · cases hs
      exact fun h => h
    · split at hs
      · cases hs
      · rename_i g2 ha
        intro h
        have h2 := hadd _ _ _ ha h
        exact ih _ _ hs h2

theorem wireBaseDeps_keys (all : List NodePtr) (ds : List String) (g g1 : Graph)
    (hs : wireBaseDeps all ds g = .ok g1) : g1.nodes.keys = g.nodes.keys := by
  induction ds generalizing g with
  | nil =>
    simp only [wireBaseDeps] at hs
    cases hs
    rfl
  | cons d ds ih =>
    simp only [wireBaseDeps] at hs
    split at hs
    · cases hs
    · rename_i base hb
      have h := ih _ hs
      simp only at h
      rw [h]
      exact keys_wireNodes d base.target all g.nodes

theorem loadFile_track (w : World) (inp : Input) (addFile : String → Graph → Except Err Graph)
    (hext : ∀ f g g1, addFile f g = .ok g1 → Ext g g1)
    (hadd : ∀ f g g1, addFile f g = .ok g1 → g.nodes.keys.Nodup → g1.nodes.keys.Nodup)
    (fuel : Nat) (F : String) (g : Graph) (st : Graph × List NodePtr)
    (hs : loadFile w inp addFile fuel F g = .ok st) :
    Tracked st ∧ (g.nodes.keys.Nodup → st.1.nodes.keys.Nodup) := by
  obtain ⟨g1, objs, g2, cfg, g3, h1, _, h3, h4, h5⟩ := loadFile_phases w inp addFile fuel F g st hs
  have k1 := ProcessParent_keys w inp addFile hadd F fuel F _ g1 h1
  obtain ⟨a1, a2⟩ := firstPass_track w F objs (g1, []) (g2, cfg) h3
  have k3 := preParse_keys w addFile hadd F cfg g2 g3 h4
  have e3 := preParse_ext w addFile hext F cfg g2 g3 h4
  obtain ⟨b1, b2⟩ := secondPass_track w F fuel objs (g3, cfg) st h5
  have t2 : Tracked (g2, cfg) := a1 ⟨fun k hk => (by cases hk), List.nodup_nil⟩
  have t3 : Tracked (g3, cfg) := by
    refine ⟨fun k hk => ?_, t2.2⟩
    have hc := t2.1 k hk
    obtain ⟨n, hn⟩ := Option.isSome_iff_exists.1 hc
    show (g3.nodes.find? k).isSome = true
    rw [e3.nodes k n hn]
    rfl
  exact ⟨b1 t3, fun h => b2 (k3 (a2 (k1 h)))⟩

theorem AddFile_keys (w : World) (inp : Input) (fuel : Nat) :
    ∀ (F : String) (g g1 : Graph), AddFile w inp fuel F g = .ok g1 →
      g.nodes.keys.Nodup → g1.nodes.keys.Nodup := by
  induction fuel with
  | zero =>
    intro F g g1 hs
    simp only [AddFile] at hs
    cases hs
  | succ fuel ih =>
    intro F g g1 hs
    simp only [AddFile] at hs
    split at hs
    · cases hs
      exact fun h => h
    · split at hs
      · cases hs
      · rename_i g4 all hload
        intro h
        rw [wireBaseDeps_keys _ _ _ _ hs]
        exact (loadFile_track w inp _ (AddFile_ext w inp fuel) ih fuel F g _ hload).2 h

theorem Example.s6_declAt :
    DeclAt Example.s6 (Example.input ["//d:x"]) 9 "d/BUILD" Graph.empty
      (Example.decl "cc_library" "x" [] []) "cc_library" Example.s6Parsed :=
  ⟨rfl, _, _, rfl, rfl, Or.inr ⟨_, _, _, rfl, rfl,
    SecondPassAt.later _ _ _ _ _ _ _ _ _ _ rfl rfl
      (SecondPassAt.here _ _ _ _ _ _ [] [] _ _ rfl rfl (by decide) (by decide) rfl)⟩⟩

/-- C5: when the nodes a declaration produces (its extracted subnodes, then the node itself)
have pairwise distinct full paths that are not in the node map, ParseSingleNode stores each
of them under its full path and leaves every earlier node as it was; when one of them has a
full path that is already in the node map (put there by an earlier declaration of any object,
pass or file) or was produced before it by the same declaration, ParseSingleNode fails with
the duplicate-target error naming that full path, and so does the call of AddFile that came to
this declaration, in its first or in its second pass.  A call of AddFile that loads a file and
returns has therefore recorded pairwise distinct full paths, none of which was in the node map
before, for all the nodes its declarations produced; it has left every node that was in the
map before the call unchanged under its key, every node is stored under its own full path, and
no key occurs twice in the node map after ParseSingleNode or AddFile if none did before. -/
theorem C5_duplicate_detection (w : World) (filename : String) (file_node : Json) (key : String)
    (st : Graph × List NodePtr) (node : Node) (subnodes : List Node) (file : BuildFile)
    (hp : ParseNode w (st.1.file filename) file_node key = .ok (node, subnodes, file)) :
    (((subnodes ++ [node]).map (fun n => n.target.full_path)).Nodup →
      (∀ n ∈ subnodes ++ [node], n.target.full_path ∉ st.1.nodes.keys) →
      ∃ st1, ParseSingleNode w filename file_node key st = .ok st1 ∧
        (∀ k n, st.1.nodes.find? k = some n → st1.1.nodes.find? k = some n) ∧
        (∀ n ∈ subnodes ++ [node], st1.1.nodes.find? n.target.full_path = some n)) ∧
    (∀ (pre post : List String) (p : String),
      (subnodes ++ [node]).map (fun n => n.target.full_path) = pre ++ p :: post →
      (∀ q ∈ pre, q ∉ st.1.nodes.keys) → pre.Nodup → (p ∈ st.1.nodes.keys ∨ p ∈ pre) →
      ParseSingleNode w filename file_node key st = .error (.duplicateTarget p) ∧
      ∀ (inp : Input) (fuel : Nat) (g : Graph),
        DeclAt w inp fuel filename g file_node key st →
        AddFile w inp (fuel + 1) filename g = .error (.duplicateTarget p)) ∧
    (∀ (inp : Input) (fuel : Nat) (f : String) (g g1 : Graph),
      AddFile w inp fuel f g = .ok g1 →
      (∀ k n, g.nodes.find? k = some n → g1.nodes.find? k = some n) ∧
      (KeyOk g.nodes → KeyOk g1.nodes) ∧
      (g.nodes.keys.Nodup → g1.nodes.keys.Nodup)) ∧
    (∀ (inp : Input) (fuel : Nat) (f : String) (g g1 : Graph),
      g.build_files.contains f = false → AddFile w inp (fuel + 1) f g = .ok g1 →
      ∃ g4 all, loadFile w inp (AddFile w inp fuel) fuel f g = .ok (g4, all) ∧ all.Nodup ∧
        (∀ k ∈ all, g.nodes.find? k = none) ∧
        (∀ k ∈ all, ∃ n, g1.nodes.find? k = some n)) ∧
    (∀ (f : String) (obj : Json) (k : String) (s s1 : Graph × List NodePtr),
      ParseSingleNode w f obj k s = .ok s1 →
      (s.1.nodes.keys.Nodup → s1.1.nodes.keys.Nodup) ∧
      ∃ n subs file1, ParseNode w (s.1.file f) obj k = .ok (n, subs, file1) ∧
        s1.2 = s.2 ++ (subs ++ [n]).map (fun m => m.target.full_path)) := by
  refine ⟨?_, ?_, ?_, ?_, ?_⟩
  · intro hnd hfresh
    obtain ⟨st1, h1, h2, h3, _⟩ :=
      saveNodes_ok (subnodes ++ [node]) (st.1.setFile filename file, st.2) hfresh hnd
    refine ⟨st1, ?_, h2, h3⟩
    unfold ParseSingleNode
    rw [hp]
    exact h1
  · intro pre post p hl hfresh hnd hdup
    have herr : ParseSingleNode w filename file_node key st = .error (.duplicateTarget p) := by
      unfold ParseSingleNode
      rw [hp]
      exact saveNodes_duplicate _ (st.1.setFile filename file, st.2) pre post p hl hfresh hnd hdup
    exact ⟨herr, fun inp fuel g hat => hat.addFile_fails _ herr⟩
  · intro inp fuel f g g1 ha
    exact ⟨(AddFile_ext w inp fuel f g g1 ha).nodes, (AddFile_ext w inp fuel f g g1 ha).keyOk,
      AddFile_keys w inp fuel f g g1 ha⟩
  · intro inp fuel f g g1 hnew ha
    simp only [AddFile, hnew, Bool.false_eq_true, if_false] at ha
    split at ha
    · cases ha
    · rename_i g4 all hload
      have hinv : Inv g (g4, all) :=
        loadFile_inv w inp _ (AddFile_ext w inp fuel) fuel f g _ hload
      have htr := (loadFile_track w inp _ (AddFile_ext w inp fuel) (AddFile_keys w inp fuel)
        fuel f g _ hload).1
      refine ⟨g4, all, hload, htr.2, hinv.fresh, ?_⟩
      intro k hk
      have hin : k ∈ g4.nodes.keys := (SMap.contains_iff _ _).1 (htr.1 k hk)
      rw [← wireBaseDeps_keys _ _ _ _ ha] at hin
      exact (SMap.mem_keys_iff _ _).1 hin
  · intro f obj k s s1 hs
    obtain ⟨_, h2, h3⟩ := ParseSingleNode_track w f obj k s s1 hs
    exact ⟨h2, h3⟩

/-- Witness for C5: a declaration named `x` that spawns a subnode named `x` is rejected with the
duplicate-target error for `//d:x`; in scenario S6 (two libraries named `x` in one file) the
second declaration is rejected in the state the first one left, the call of AddFile for
`d/BUILD` fails with the duplicate-target error for `//d:x`, and so does the parse. -/
theorem C5_witness :
    ParseSingleNode Example.s6 "d/BUILD" (Example.declSub "cmake" "x" ["x"]) "cmake"
        (Graph.empty, []) = .error (.duplicateTarget "//d:x") ∧
    Example.s6Parsed.1.nodes.keys = ["//d:x"] ∧
    ParseSingleNode Example.s6 "d/BUILD" (Example.decl "cc_library" "x" [] []) "cc_library"
        Example.s6Parsed = .error (.duplicateTarget "//d:x") ∧
    AddFile Example.s6 (Example.input ["//d:x"]) 10 "d/BUILD" Graph.empty =
      .error (.duplicateTarget "//d:x") ∧
    Parser.Parse Example.s6 10 Parser.create (Example.input ["//d:x"]) =
      .error (.duplicateTarget "//d:x") :=
  ⟨((C5_duplicate_detection Example.s6 "d/BUILD" (Example.declSub "cmake" "x" ["x"]) "cmake"
      (Graph.empty, []) _ _ _ rfl).2.1 ["//d:x"] [] "//d:x" rfl
      (fun q _ hq => by cases hq) (by decide) (Or.inr (by decide))).1,
   rfl,
   ((C5_duplicate_detection Example.s6 "d/BUILD" (Example.decl "cc_library" "x" [] [])
      "cc_library" Example.s6Parsed _ _ _ rfl).2.1 [] [] "//d:x" rfl
      (fun q hq => by cases hq) List.nodup_nil (Or.inl (by decide))).1,
   ((C5_duplicate_detection Example.s6 "d/BUILD" (Example.decl "cc_library" "x" [] [])
      "cc_library" Example.s6Parsed _ _ _ rfl).2.1 [] [] "//d:x" rfl
      (fun q hq => by cases hq) List.nodup_nil (Or.inl (by decide))).2
      (Example.input ["//d:x"]) 9 Graph.empty Example.s6_declAt,
   rfl⟩

end repobuild
